import Mathlib

/-!
Dynamic array (`dynamic_array.c`): embedding and verified properties

The C container is embedded as a pure state-passing model.

* A handle (`void*`) is an address, `0` being `NULL`.
* `unsigned` is 32 bits wide: every `unsigned` operation is written with an
  explicit `% UINT_RANGE`.  `int` is 32 bits wide: an `int` operation whose
  result leaves the range is undefined behaviour.
* The backing store `data` is the list of its `capacity` slots.  Reading or
  writing a slot outside the allocation is undefined behaviour.
* Undefined behaviour is the result `none`; every operation returns an `Option`.
* `datapoint_copy` and `datapoint_equals` are functions of the handles they
  receive.  `datapoint_destroyer` is a function pointer whose calls are
  recorded, in order, in the `events` field of the state.
* `minimum_percentage_allowed` is a finite non-negative binary64 value; its
  product with a capacity is rounded to nearest, ties to even, and the conversion
  to `unsigned` truncates (undefined when the value is not an `unsigned`).
* The container argument is a non-null pointer (the `if (!dym_arr)` exits of
  the source are not part of the model).
* For the copy constructor, where it matters which allocation a pointer refers
  to, the structs and the backing stores lie in an explicit memory (`Mem.Heap`);
  `Mem.dynamic_array_copy`, `Mem.dynamic_array_append` and
  `Mem._dynamic_array_change_capacity` are the same functions of the source with
  `malloc`, `calloc` and `free` spelled out, and `Mem.view` reads a container
  out of memory as a state of the state-passing model.
-/

namespace DynArr

/-- Handles are `void*` values: an address, with `0` for the null pointer. -/
abbrev Ptr := Nat

/-- The null pointer. -/
def NULL : Ptr := 0

/-- Number of values of the 32-bit `unsigned` type. -/
def UINT_RANGE : Nat := 4294967296

/-- Largest value of the 32-bit `int` type. -/
def INT_MAX : Nat := 2147483647

/-- Calls that release an element: through the `datapoint_destroyer` callback
`fn`, or through the C library `free`. -/
inductive Event
  | destroyer (fn : Ptr) (p : Ptr)
  | free (p : Ptr)
  deriving DecidableEq, Repr

/-- A finite non-negative `double`, the number `mant * 2 ^ exp`
(a binary64 value has `mant < 2 ^ 53`). -/
structure Double where
  mant : Nat
  exp : Int
  deriving DecidableEq, Repr

/-- The value of the double lies below one. -/
def Double.lt_one (d : Double) : Prop :=
  d.exp < 0 ∧ d.mant < 2 ^ (-d.exp).toNat

instance (d : Double) : Decidable d.lt_one := by
  unfold Double.lt_one; infer_instance

/-- Rounding of `n * 2 ^ e` to 53 significant bits, to nearest, ties to even:
the result `(m, e')` stands for `m * 2 ^ e'`. -/
def round53 (n : Nat) (e : Int) : Nat × Int :=
  if n < 2 ^ 53 then (n, e)
  else
    let sh := Nat.log2 n + 1 - 53
    let q := n / 2 ^ sh
    let r := n % 2 ^ sh
    let half := 2 ^ (sh - 1)
    (if half < r ∨ (r = half ∧ q % 2 = 1) then q + 1 else q, e + sh)

/-- Conversion `(unsigned) x` of the double `m * 2 ^ e`: truncation, undefined
when the truncated value is not an `unsigned`. -/
def trunc_to_unsigned (m : Nat) (e : Int) : Option Nat :=
  let v := if 0 ≤ e then m * 2 ^ e.toNat else m / 2 ^ (-e).toNat
  if v < UINT_RANGE then some v else none

/-- The expression `(unsigned)(minimum_percentage_allowed * c)` for an
`unsigned` value `c`: `c` converts exactly to a double, the product is rounded
to a double, and the result is truncated. -/
def double_mul_to_unsigned (d : Double) (c : Nat) : Option Nat :=
  trunc_to_unsigned (round53 (d.mant * c) d.exp).1 (round53 (d.mant * c) d.exp).2

/-- The struct `DynamicArray`, with the recorded release calls `events`. -/
structure DynamicArray where
  data : List Ptr
  size : Nat
  capacity : Nat
  minimum_capacity : Nat
  minimum_percentage_allowed : Double
  datapoint_destroyer : Ptr
  datapoint_equals : Ptr → Ptr → Int
  datapoint_copy : Ptr → Ptr
  events : List Event

/-- Read of slot `i` of an allocation. -/
def read (data : List Ptr) (i : Nat) : Option Ptr := data[i]?

/-- Write of slot `i` of an allocation. -/
def write (data : List Ptr) (i : Nat) (v : Ptr) : Option (List Ptr) :=
  if i < data.length then some (data.set i v) else none

/-- Read of a slot through an `int` index. -/
def read_int (data : List Ptr) (i : Int) : Option Ptr :=
  if i < 0 then none else read data i.toNat

/-- Write of a slot through an `int` index. -/
def write_int (data : List Ptr) (i : Int) (v : Ptr) : Option (List Ptr) :=
  if i < 0 then none else write data i.toNat v

/-- The loop `for (int i = lo; i < hi; ++i) body`, run for its `hi - lo`
iterations from `i = lo`; `++i` at `i = INT_MAX` is a signed overflow. -/
def for_int {σ : Type} (body : Nat → σ → Option σ) : Nat → Nat → σ → Option σ
  | 0, _, st => some st
  | n + 1, i, st =>
    match body i st with
    | none => none
    | some st' => if i = INT_MAX then none else for_int body n (i + 1) st'

/-- The conversion `(int) u` of an `unsigned` value (two's complement). -/
def int_of_unsigned (u : Nat) : Int :=
  if u ≤ INT_MAX then (u : Int) else (u : Int) - (UINT_RANGE : Int)

/-- The result of an `int` operation: undefined outside the range of `int`. -/
def int_checked (x : Int) : Option Int :=
  if -(INT_MAX : Int) - 1 ≤ x ∧ x ≤ (INT_MAX : Int) then some x else none

/-- Constructor `dynamic_array_init`.  The source leaves the three callback
fields unset for the caller to assign before first use; the assigned values are
the last three arguments here. -/
def dynamic_array_init (given_minimum_capacity : Nat)
    (given_minimum_percentage_allowed : Double)
    (destroyer : Ptr) (equals : Ptr → Ptr → Int) (copy : Ptr → Ptr) : DynamicArray :=
  { data := List.replicate given_minimum_capacity NULL
    size := 0
    capacity := given_minimum_capacity
    minimum_capacity := given_minimum_capacity
    minimum_percentage_allowed := given_minimum_percentage_allowed
    datapoint_destroyer := destroyer
    datapoint_equals := equals
    datapoint_copy := copy
    events := [] }

/-- The routine `_dynamic_array_change_capacity`. -/
def _dynamic_array_change_capacity (dym_arr : DynamicArray) (new_capacity : Nat) :
    Option DynamicArray :=
  if dym_arr.size > new_capacity then some dym_arr
  else
    (for_int (fun i new_array => (read dym_arr.data i).bind fun v => write new_array i v)
        dym_arr.size 0 (List.replicate new_capacity NULL)).map
      fun new_array => { dym_arr with data := new_array, capacity := new_capacity }

/-- The function `dynamic_array_append`. -/
def dynamic_array_append (dym_arr : DynamicArray) (element : Ptr) : Option DynamicArray :=
  (if dym_arr.size = dym_arr.capacity
    then _dynamic_array_change_capacity dym_arr ((2 * dym_arr.capacity) % UINT_RANGE)
    else some dym_arr).bind fun a =>
  (write a.data a.size (a.datapoint_copy element)).map fun d =>
    { a with data := d, size := (a.size + 1) % UINT_RANGE }

/-- The shrink condition of the source, for a capacity value `c`:
`c > minimum_capacity && size < (unsigned)(minimum_percentage_allowed * c)`
(the right operand is evaluated only when the left one holds). -/
def shrink_test (dym_arr : DynamicArray) (c : Nat) : Option Bool :=
  if c > dym_arr.minimum_capacity then
    (double_mul_to_unsigned dym_arr.minimum_percentage_allowed c).map
      fun t => decide (dym_arr.size < t)
  else some false

/-- Local state of the scan of `dynamic_array_delete`. -/
structure DeleteScan where
  data : List Ptr
  deletions_occured : Nat
  events : List Event

/-- Body of the scan of `dynamic_array_delete` at index `i`. -/
def delete_body (dym_arr : DynamicArray) (element : Ptr) (i : Nat) (st : DeleteScan) :
    Option DeleteScan :=
  (read st.data i).bind fun x =>
    if dym_arr.datapoint_equals x element ≠ 0 then
      (write st.data i NULL).map fun d =>
        { data := d
          deletions_occured := (st.deletions_occured + 1) % UINT_RANGE
          events := st.events ++ [Event.destroyer dym_arr.datapoint_destroyer x] }
    else if st.deletions_occured ≠ 0 then
      (write st.data ((i + UINT_RANGE - st.deletions_occured) % UINT_RANGE) x).bind fun d =>
        (write d i NULL).map fun d' => { st with data := d' }
    else some st

/-- The function `dynamic_array_delete`: the state left and the value returned. -/
def dynamic_array_delete (dym_arr : DynamicArray) (element : Ptr) :
    Option (DynamicArray × Int) :=
  (for_int (delete_body dym_arr element) dym_arr.size 0
      ⟨dym_arr.data, 0, dym_arr.events⟩).bind fun st =>
  let a := { dym_arr with data := st.data, events := st.events }
  if st.deletions_occured = 0 then some (a, 0)
  else
    let b := { a with size := (a.size + UINT_RANGE - st.deletions_occured) % UINT_RANGE }
    (shrink_test b b.capacity).bind fun t1 =>
      if t1 then
        (shrink_test b (b.capacity / 2)).bind fun t2 =>
          (_dynamic_array_change_capacity b
            (if t2 then b.capacity / 2 / 2 else b.capacity / 2)).map fun c => (c, 1)
      else some (b, 1)

/-- The test `pos < -((int)size) || pos > ((int)size - 1)`. -/
def pos_out_of_bounds (size : Nat) (pos : Int) : Option Bool :=
  (int_checked (-(int_of_unsigned size))).bind fun lo =>
    if pos < lo then some true
    else (int_checked (int_of_unsigned size - 1)).map fun hi => decide (hi < pos)

/-- The statement `if (pos < 0) pos = pos + (int)size`. -/
def resolve_pos (size : Nat) (pos : Int) : Option Int :=
  if pos < 0 then int_checked (pos + int_of_unsigned size) else some pos

/-- The function `dynamic_array_delete_at_pos`: the state left and the value
returned. -/
def dynamic_array_delete_at_pos (dym_arr : DynamicArray) (pos : Int) :
    Option (DynamicArray × Int) :=
  (pos_out_of_bounds dym_arr.size pos).bind fun oob =>
  if oob then some (dym_arr, 0)
  else
    (resolve_pos dym_arr.size pos).bind fun p =>
    (read_int dym_arr.data p).bind fun x =>
    (write_int dym_arr.data p NULL).bind fun d0 =>
    (int_checked (p + 1)).bind fun lo =>
    (for_int (fun i d => (read d i).bind fun v => write_int d ((i : Int) - 1) v)
        (dym_arr.size - lo.toNat) lo.toNat d0).bind fun d1 =>
    (write d1 ((dym_arr.size + UINT_RANGE - 1) % UINT_RANGE) NULL).bind fun d2 =>
    let b := { dym_arr with
      data := d2
      size := (dym_arr.size + UINT_RANGE - 1) % UINT_RANGE
      events := dym_arr.events ++ [Event.destroyer dym_arr.datapoint_destroyer x] }
    (shrink_test b b.capacity).bind fun t =>
      if t then (_dynamic_array_change_capacity b (b.capacity / 2)).map fun c => (c, 1)
      else some (b, 1)

/-- The function `dynamic_array_clear`. -/
def dynamic_array_clear (dym_arr : DynamicArray) : Option DynamicArray :=
  (for_int
      (fun i (st : List Ptr × List Event) => (read st.1 i).bind fun x =>
        (write st.1 i NULL).map fun d =>
          (d, st.2 ++ [Event.destroyer dym_arr.datapoint_destroyer x]))
      dym_arr.size 0 (dym_arr.data, dym_arr.events)).bind fun st =>
  let a := { dym_arr with data := st.1, events := st.2, size := 0 }
  if a.capacity > a.minimum_capacity then
    _dynamic_array_change_capacity a a.minimum_capacity
  else some a

/-- The scan of `dynamic_array_find`, with `n` iterations left from index `i`. -/
def find_loop (dym_arr : DynamicArray) (element : Ptr) : Nat → Nat → Option Int
  | 0, _ => some 0
  | n + 1, i =>
    (read dym_arr.data i).bind fun x =>
      if dym_arr.datapoint_equals x element ≠ 0 then some 1
      else if i = INT_MAX then none
      else find_loop dym_arr element n (i + 1)

/-- The function `dynamic_array_find`. -/
def dynamic_array_find (dym_arr : DynamicArray) (element : Ptr) : Option Int :=
  find_loop dym_arr element dym_arr.size 0

/-- The function `dynamic_array_get`; the handle `NULL` is the failure value. -/
def dynamic_array_get (dym_arr : DynamicArray) (pos : Int) : Option Ptr :=
  (pos_out_of_bounds dym_arr.size pos).bind fun oob =>
  if oob then some NULL
  else
    (resolve_pos dym_arr.size pos).bind fun p =>
    (read_int dym_arr.data p).map fun x => dym_arr.datapoint_copy x

/-- The function `dynamic_array_get_all`; the inner `none` is the result `NULL`,
the inner `some` the returned array of `size` slots. -/
def dynamic_array_get_all (dym_arr : DynamicArray) : Option (Option (List Ptr)) :=
  if dym_arr.size = 0 then some none
  else
    (for_int
        (fun i copy_array => (read dym_arr.data i).bind fun x =>
          write copy_array i (dym_arr.datapoint_copy x))
        dym_arr.size 0 (List.replicate dym_arr.size NULL)).map some

/-- The destructor `dynamic_array_destroy`: the release calls recorded once the
container is gone.  Each live handle is passed to the C library `free`. -/
def dynamic_array_destroy (dym_arr : DynamicArray) : Option (List Event) :=
  for_int (fun i ev => (read dym_arr.data i).map fun x => ev ++ [Event.free x])
    dym_arr.size 0 dym_arr.events

/-- The copy constructor `dynamic_array_copy`.  The source assigns neither
`minimum_capacity` nor `minimum_percentage_allowed` of the new struct; the values
these fields happen to hold are the last two arguments here.  The new container
has no recorded release call. -/
def dynamic_array_copy (a_dym_arr : DynamicArray) (unset_minimum_capacity : Nat)
    (unset_minimum_percentage_allowed : Double) : Option DynamicArray :=
  (for_int
      (fun i d => (read a_dym_arr.data i).bind fun x =>
        write d i (a_dym_arr.datapoint_copy x))
      a_dym_arr.size 0 (List.replicate a_dym_arr.capacity NULL)).map fun d =>
    { data := d
      size := a_dym_arr.size
      capacity := a_dym_arr.capacity
      minimum_capacity := unset_minimum_capacity
      minimum_percentage_allowed := unset_minimum_percentage_allowed
      datapoint_destroyer := a_dym_arr.datapoint_destroyer
      datapoint_equals := a_dym_arr.datapoint_equals
      datapoint_copy := a_dym_arr.datapoint_copy
      events := [] }

/-- The exact value `mant * 2 ^ exp` of a double, as a rational number. -/
def Double.toRat (d : Double) : ℚ := (d.mant : ℚ) * (2 : ℚ) ^ d.exp

/-- The test of `dynamic_array_delete` on a stored handle `x`: the handle stays
when `datapoint_equals(x, element)` is 0. -/
def keeps (a : DynamicArray) (element : Ptr) (x : Ptr) : Bool :=
  decide (a.datapoint_equals x element = 0)

/-- A call of one of the four mutating operations. -/
inductive Op
  | append (element : Ptr)
  | delete (element : Ptr)
  | delete_at_pos (pos : Int)
  | clear

/-- The state left by one call, when the call is defined. -/
def step (a : DynamicArray) : Op → Option DynamicArray
  | Op.append element => dynamic_array_append a element
  | Op.delete element => (dynamic_array_delete a element).map Prod.fst
  | Op.delete_at_pos pos => (dynamic_array_delete_at_pos a pos).map Prod.fst
  | Op.clear => dynamic_array_clear a

/-- The state reached by a finite sequence of calls, when all are defined. -/
def run : DynamicArray → List Op → Option DynamicArray
  | a, [] => some a
  | a, op :: ops => (step a op).bind fun b => run b ops

/-- The capacity left by the shrink policy of delete-by-value as the spec words
it, for a capacity `c`, a floor `m`, a new size `s` and the thresholds `t1` at `c`
and `t2` at `c / 2`: when `c > m` and `s < t1` the requested capacity is `c / 2`,
or `c / 4` when `c / 2 > m` and `s < t2`; a request below `s` is a no-op. -/
def bulk_shrink_capacity (c m s t1 t2 : Nat) : Nat :=
  if c > m ∧ s < t1 then
    if c / 2 > m ∧ s < t2 then (if s ≤ c / 2 / 2 then c / 2 / 2 else c)
    else (if s ≤ c / 2 then c / 2 else c)
  else c

/-- The capacity left by the shrink policy of delete-at-position as the spec
words it, for a capacity `c`, a floor `m`, a new size `s` and the threshold `t`
at `c`: `c / 2` when `c > m`, `s < t` and `s <= c / 2`, else `c`. -/
def single_shrink_capacity (c m s t : Nat) : Nat :=
  if c > m ∧ s < t ∧ s ≤ c / 2 then c / 2 else c

/-- The calls that remove elements one value or one position at a time. -/
def Op.is_removal : Op → Bool
  | Op.delete _ => true
  | Op.delete_at_pos _ => true
  | _ => false

/-- The states on which the operations are specified: the backing store has
`capacity` slots, `size` does not exceed `capacity`, `size` is within the range
of `int` (so that the `int` counters and casts of the source are exact),
`capacity` is an `unsigned` value, and the load factor is below one. -/
structure Valid (a : DynamicArray) : Prop where
  length_eq : a.data.length = a.capacity
  size_le : a.size ≤ a.capacity
  size_int : a.size ≤ INT_MAX
  capacity_lt : a.capacity < UINT_RANGE
  load_lt_one : a.minimum_percentage_allowed.lt_one

/-- The live sequence: slots `[0, size)` of the backing store. -/
def live (a : DynamicArray) : List Ptr := a.data.take a.size

/-- Appending the elements of a list in order. -/
def append_all : DynamicArray → List Ptr → Option DynamicArray
  | a, [] => some a
  | a, x :: xs => (dynamic_array_append a x).bind fun b => append_all b xs

/-- The state `_dynamic_array_change_capacity` leaves when it accepts the new
capacity `n`: the live slots followed by null slots. -/
def resized (a : DynamicArray) (n : Nat) : DynamicArray :=
  { a with data := a.data.take a.size ++ List.replicate (n - a.size) NULL, capacity := n }

/-- The state the scan of `dynamic_array_delete` leaves, with the size already
reduced: the kept handles in front, null slots where handles were removed or
moved from, and the destroyer calls recorded. -/
def scanned (a : DynamicArray) (e : Ptr) : DynamicArray :=
  { a with
    data := (live a).filter (keeps a e)
      ++ (List.replicate (a.size - ((live a).filter (keeps a e)).length) NULL
        ++ a.data.drop a.size)
    size := ((live a).filter (keeps a e)).length
    events := a.events ++ ((live a).filter fun x => !keeps a e x).map
      (Event.destroyer a.datapoint_destroyer) }

/-- The state `dynamic_array_delete_at_pos` leaves before its shrink step, for
the resolved index `idx` holding the handle `x`. -/
def erased (a : DynamicArray) (idx : Nat) (x : Ptr) : DynamicArray :=
  { a with
    data := a.data.take idx
      ++ ((a.data.drop (idx + 1)).take (a.size - (idx + 1)) ++ NULL :: a.data.drop a.size)
    size := a.size - 1
    events := a.events ++ [Event.destroyer a.datapoint_destroyer x] }

/-- The size invariant of the data model: the backing store has `capacity`
slots, `size` does not exceed `capacity`, and `size` is an `unsigned` value. -/
structure Sized (a : DynamicArray) : Prop where
  length_eq : a.data.length = a.capacity
  size_le : a.size ≤ a.capacity
  size_lt : a.size < UINT_RANGE

namespace Mem

/-- The struct `DynamicArray` as it lies in memory: the field `data` is the
address of the backing store, not its contents. -/
structure DynamicArray where
  data : Nat
  size : Nat
  capacity : Nat
  minimum_capacity : Nat
  minimum_percentage_allowed : Double
  datapoint_destroyer : Ptr
  datapoint_equals : Ptr → Ptr → Int
  datapoint_copy : Ptr → Ptr

/-- Memory: the allocated `DynamicArray` structs and the allocated arrays of
slots.  An address is the position of the allocation in its list, so a new
allocation never coincides with an earlier one; a released array is `none`. -/
structure Heap where
  structs : List DynamicArray
  arrays : List (Option (List Ptr))

/-- Allocation of a struct by `malloc`: the new struct holds the arbitrary
contents `unset`.  The result is the new memory and the address. -/
def malloc (h : Heap) (unset : DynamicArray) : Heap × Nat :=
  ({ h with structs := h.structs ++ [unset] }, h.structs.length)

/-- Allocation of an array of `n` null slots by `calloc`. -/
def calloc (h : Heap) (n : Nat) : Heap × Nat :=
  ({ h with arrays := h.arrays ++ [some (List.replicate n NULL)] }, h.arrays.length)

/-- The live array at address `p`, if there is one. -/
def block (h : Heap) (p : Nat) : Option (List Ptr) := (h.arrays[p]?).bind id

/-- Release of the array at address `p` by `free`; undefined when no live array
lies there. -/
def free (h : Heap) (p : Nat) : Option Heap :=
  (block h p).map fun _ => { h with arrays := h.arrays.set p none }

/-- Read of the struct at address `p`. -/
def load_struct (h : Heap) (p : Nat) : Option DynamicArray := h.structs[p]?

/-- Write of the struct at address `p`. -/
def store_struct (h : Heap) (p : Nat) (v : DynamicArray) : Option Heap :=
  if p < h.structs.length then some { h with structs := h.structs.set p v } else none

/-- Read of slot `i` of the array at address `p`. -/
def load (h : Heap) (p i : Nat) : Option Ptr := (block h p).bind fun xs => read xs i

/-- Write of slot `i` of the array at address `p`. -/
def store (h : Heap) (p i : Nat) (v : Ptr) : Option Heap :=
  (block h p).bind fun xs =>
    (write xs i v).map fun ys => { h with arrays := h.arrays.set p (some ys) }

/-- The routine `_dynamic_array_change_capacity` on memory: the new array comes
from `calloc`, the `size` live slots are copied into it, the old array is
released and the struct is pointed at the new one. -/
def _dynamic_array_change_capacity (h : Heap) (dym_arr : Nat) (new_capacity : Nat) :
    Option Heap :=
  (load_struct h dym_arr).bind fun s =>
  if s.size > new_capacity then some h
  else
    (for_int
        (fun i hh => (load hh s.data i).bind fun v =>
          store hh (calloc h new_capacity).2 i v)
        s.size 0 (calloc h new_capacity).1).bind fun h1 =>
    (free h1 s.data).bind fun h2 =>
    store_struct h2 dym_arr
      { s with data := (calloc h new_capacity).2, capacity := new_capacity }

/-- The function `dynamic_array_append` on memory. -/
def dynamic_array_append (h : Heap) (dym_arr : Nat) (element : Ptr) : Option Heap :=
  (load_struct h dym_arr).bind fun s0 =>
  (if s0.size = s0.capacity
    then _dynamic_array_change_capacity h dym_arr ((2 * s0.capacity) % UINT_RANGE)
    else some h).bind fun h1 =>
  (load_struct h1 dym_arr).bind fun s =>
  (store h1 s.data s.size (s.datapoint_copy element)).bind fun h2 =>
  store_struct h2 dym_arr { s with size := (s.size + 1) % UINT_RANGE }

/-- The copy constructor `dynamic_array_copy` on memory: the new struct comes
from `malloc` (its fields hold `unset` until assigned; `minimum_capacity` and
`minimum_percentage_allowed` are never assigned), its backing store from
`calloc`.  The result is the new memory and the address of the new struct. -/
def dynamic_array_copy (h : Heap) (a_dym_arr : Nat) (unset : DynamicArray) :
    Option (Heap × Nat) :=
  (load_struct (malloc h unset).1 a_dym_arr).bind fun a =>
  (store_struct (calloc (malloc h unset).1 a.capacity).1 (malloc h unset).2
      { unset with
        capacity := a.capacity
        size := a.size
        data := (calloc (malloc h unset).1 a.capacity).2 }).bind fun h1 =>
  (for_int
      (fun i hh => (load hh a.data i).bind fun x =>
        store hh (calloc (malloc h unset).1 a.capacity).2 i (a.datapoint_copy x))
      a.size 0 h1).bind fun h2 =>
  (load_struct h2 (malloc h unset).2).bind fun s =>
  (store_struct h2 (malloc h unset).2
      { s with
        datapoint_destroyer := a.datapoint_destroyer
        datapoint_equals := a.datapoint_equals
        datapoint_copy := a.datapoint_copy }).map fun h3 => (h3, (malloc h unset).2)

/-- The container at address `p` read out of memory as a state of the
state-passing model, with `events` as its recorded release calls. -/
def view (h : Heap) (p : Nat) (events : List Event) : Option DynArr.DynamicArray :=
  (load_struct h p).bind fun s =>
    (block h s.data).map fun xs =>
      { data := xs
        size := s.size
        capacity := s.capacity
        minimum_capacity := s.minimum_capacity
        minimum_percentage_allowed := s.minimum_percentage_allowed
        datapoint_destroyer := s.datapoint_destroyer
        datapoint_equals := s.datapoint_equals
        datapoint_copy := s.datapoint_copy
        events := events }

end Mem

end DynArr

namespace DynArr

/-! ## The loop combinator -/

theorem for_int_inv {σ : Type} (body : Nat → σ → Option σ) (Inv : Nat → σ → Prop) :
    ∀ (n i : Nat) (st : σ), i + n ≤ INT_MAX → Inv i st →
      (∀ j s, i ≤ j → j < i + n → Inv j s → ∃ s', body j s = some s' ∧ Inv (j + 1) s') →
      ∃ st', for_int body n i st = some st' ∧ Inv (i + n) st' := by
  intro n
  induction n with
  | zero => intro i st _ hI _; exact ⟨st, rfl, by simpa using hI⟩
  | succ n ih =>
    intro i st hb hI hstep
    obtain ⟨s', hs', hI'⟩ := hstep i st (Nat.le_refl i) (by omega) hI
    have hne : i ≠ INT_MAX := by omega
    obtain ⟨st', hst', hfin⟩ := ih (i + 1) s' (by omega) hI'
      (fun j s h1 h2 h3 => hstep j s (by omega) (by omega) h3)
    refine ⟨st', ?_, ?_⟩
    · simp only [for_int, hs', if_neg hne]; exact hst'
    · have e : i + (n + 1) = i + 1 + n := by omega
      rw [e]; exact hfin

theorem for_int_overflow {σ : Type} (body : Nat → σ → Option σ) :
    ∀ (n i : Nat) (st : σ), i ≤ INT_MAX → INT_MAX < i + n → for_int body n i st = none := by
  intro n
  induction n with
  | zero => intro i st h1 h2; omega
  | succ n ih =>
    intro i st h1 h2
    simp only [for_int]
    cases hb : body i st with
    | none => rfl
    | some s' =>
      by_cases hi : i = INT_MAX
      · simp [hi]
      · simp only [if_neg hi]
        exact ih (i + 1) s' (by omega) (by omega)

end DynArr

namespace DynArr

/-! ## Resizing and appending -/

theorem set_take_replicate (src : List Ptr) (j N : Nat) (v : Ptr)
    (hj : j < src.length) (hN : j < N) (hv : src[j]? = some v) :
    (src.take j ++ List.replicate (N - j) NULL).set j v
      = src.take (j + 1) ++ List.replicate (N - (j + 1)) NULL := by
  apply List.ext_getElem?
  intro k
  simp only [List.getElem?_set, List.getElem?_append, List.getElem?_take, List.length_take,
    List.length_append, List.length_replicate, List.getElem?_replicate]
  have h1 : min j src.length = j := by omega
  have h2 : min (j + 1) src.length = j + 1 := by omega
  split_ifs <;> first | rfl | omega | simp_all

theorem copy_loop_spec (src : List Ptr) (n N : Nat)
    (hn : n ≤ src.length) (hN : n ≤ N) (hmax : n ≤ INT_MAX) :
    for_int (fun i new_array => (read src i).bind fun v => write new_array i v)
        n 0 (List.replicate N NULL)
      = some (src.take n ++ List.replicate (N - n) NULL) := by
  obtain ⟨st, hst, hinv⟩ := for_int_inv
    (fun i new_array => (read src i).bind fun v => write new_array i v)
    (fun j arr => arr = src.take j ++ List.replicate (N - j) NULL)
    n 0 (List.replicate N NULL) (by omega) (by simp)
    (by
      intro j s _ hj hs
      have hjl : j < src.length := by omega
      refine ⟨src.take (j + 1) ++ List.replicate (N - (j + 1)) NULL, ?_, rfl⟩
      have hr : read src j = some src[j] := by simp [read, List.getElem?_eq_getElem hjl]
      have hlen : j < s.length := by
        rw [hs]; simp only [List.length_append, List.length_take, List.length_replicate]; omega
      simp only [hr, Option.some_bind, write, if_pos hlen]
      rw [hs, set_take_replicate src j N src[j] hjl (by omega) (List.getElem?_eq_getElem hjl)])
  rw [hst]
  simp only [Nat.zero_add] at hinv
  rw [hinv]

theorem change_capacity_spec (a : DynamicArray) (N : Nat)
    (hn : a.size ≤ a.data.length) (hN : a.size ≤ N) (hmax : a.size ≤ INT_MAX) :
    _dynamic_array_change_capacity a N
      = some { a with data := a.data.take a.size ++ List.replicate (N - a.size) NULL
                      capacity := N } := by
  unfold _dynamic_array_change_capacity
  rw [if_neg (by omega), copy_loop_spec a.data a.size N hn hN hmax]
  rfl

theorem change_capacity_refuse (a : DynamicArray) (N : Nat) (h : N < a.size) :
    _dynamic_array_change_capacity a N = some a := by
  unfold _dynamic_array_change_capacity
  rw [if_pos h]

end DynArr

namespace DynArr

theorem append_room_spec (a : DynamicArray) (e : Ptr)
    (hlen : a.data.length = a.capacity) (hlt : a.size < a.capacity)
    (hmax : a.size ≤ INT_MAX) :
    dynamic_array_append a e
      = some { a with data := a.data.set a.size (a.datapoint_copy e), size := a.size + 1 } := by
  unfold dynamic_array_append
  have hne : a.size ≠ a.capacity := by omega
  have hmod : (a.size + 1) % UINT_RANGE = a.size + 1 := by
    apply Nat.mod_eq_of_lt; simp only [INT_MAX] at hmax; simp only [UINT_RANGE]; omega
  simp only [if_neg hne, Option.some_bind, write, hlen, if_pos hlt, Option.map_some', hmod]

theorem append_full_spec (a : DynamicArray) (e : Ptr)
    (hlen : a.data.length = a.capacity) (hfull : a.size = a.capacity)
    (hpos : 1 ≤ a.capacity) (hmax : a.capacity ≤ INT_MAX) :
    dynamic_array_append a e
      = some { a with
          data := a.data ++ a.datapoint_copy e :: List.replicate (a.capacity - 1) NULL
          capacity := 2 * a.capacity
          size := a.size + 1 } := by
  unfold dynamic_array_append
  have hdbl : (2 * a.capacity) % UINT_RANGE = 2 * a.capacity := by
    apply Nat.mod_eq_of_lt; simp only [INT_MAX] at hmax; simp only [UINT_RANGE]; omega
  have hmod : (a.size + 1) % UINT_RANGE = a.size + 1 := by
    apply Nat.mod_eq_of_lt; simp only [INT_MAX] at hmax; simp only [UINT_RANGE]; omega
  rw [if_pos hfull, hdbl,
    change_capacity_spec a (2 * a.capacity) (by omega) (by omega) (by omega)]
  have htake : a.data.take a.size = a.data := by
    apply List.take_of_length_le; omega
  have hrep : List.replicate (2 * a.capacity - a.size) NULL
      = NULL :: List.replicate (a.capacity - 1) NULL := by
    have : 2 * a.capacity - a.size = (a.capacity - 1) + 1 := by omega
    rw [this, List.replicate_succ]
  have hidx : a.size < (a.data ++ NULL :: List.replicate (a.capacity - 1) NULL).length := by
    simp only [List.length_append, List.length_cons, List.length_replicate]; omega
  have hset : (a.data ++ NULL :: List.replicate (a.capacity - 1) NULL).set a.size
        (a.datapoint_copy e)
      = a.data ++ a.datapoint_copy e :: List.replicate (a.capacity - 1) NULL := by
    rw [List.set_append, if_neg (by omega)]
    have : a.size - a.data.length = 0 := by omega
    rw [this]; rfl
  simp only [Option.some_bind, write, htake, hrep, if_pos hidx, Option.map_some', hset, hmod]

end DynArr

namespace DynArr

/-! ## Snapshot retrieval -/

theorem set_map_take_replicate (src : List Ptr) (f : Ptr → Ptr) (j N : Nat)
    (hj : j < src.length) (hN : j < N) :
    ((src.take j).map f ++ List.replicate (N - j) NULL).set j (f src[j])
      = (src.take (j + 1)).map f ++ List.replicate (N - (j + 1)) NULL := by
  have h := set_take_replicate (src.map f) j N (f src[j]) (by simpa using hj) hN
    (by simp [List.getElem?_eq_getElem hj])
  simpa only [List.map_take] using h

theorem get_all_spec (a : DynamicArray) (hn : a.size ≤ a.data.length)
    (hmax : a.size ≤ INT_MAX) :
    dynamic_array_get_all a
      = some (if a.size = 0 then none else some ((live a).map a.datapoint_copy)) := by
  unfold dynamic_array_get_all
  by_cases h0 : a.size = 0
  · simp only [if_pos h0]
  · simp only [if_neg h0]
    obtain ⟨st, hst, hinv⟩ := for_int_inv
      (fun i copy_array => (read a.data i).bind fun x =>
        write copy_array i (a.datapoint_copy x))
      (fun j arr => arr = (a.data.take j).map a.datapoint_copy
        ++ List.replicate (a.size - j) NULL)
      a.size 0 (List.replicate a.size NULL) (by omega) (by simp)
      (by
        intro j s _ hj hs
        have hjl : j < a.data.length := by omega
        refine ⟨(a.data.take (j + 1)).map a.datapoint_copy
          ++ List.replicate (a.size - (j + 1)) NULL, ?_, rfl⟩
        have hr : read a.data j = some a.data[j] := by
          simp [read, List.getElem?_eq_getElem hjl]
        have hlen : j < s.length := by
          rw [hs]
          simp only [List.length_append, List.length_map, List.length_take,
            List.length_replicate]
          omega
        simp only [hr, Option.some_bind, write, if_pos hlen]
        rw [hs, set_map_take_replicate a.data a.datapoint_copy j a.size hjl (by omega)])
    rw [hst]
    simp only [Nat.zero_add, Nat.sub_self, List.replicate_zero, List.append_nil] at hinv
    rw [hinv]
    rfl

theorem get_all_overflow (a : DynamicArray) (h : INT_MAX < a.size) :
    dynamic_array_get_all a = none := by
  unfold dynamic_array_get_all
  have h0 : a.size ≠ 0 := by omega
  rw [if_neg h0, for_int_overflow _ a.size 0 _ (Nat.zero_le _) (by omega)]
  rfl

/-! ## Sequences of appends -/

theorem live_set_size (data : List Ptr) (n : Nat) (v : Ptr) (h : n < data.length) :
    (data.set n v).take (n + 1) = data.take n ++ [v] := by
  rw [List.take_succ, List.set_take, List.set_eq_of_length_le (by simp)]
  simp [List.getElem?_set, h]

theorem append_step (a : DynamicArray) (e : Ptr)
    (hlen : a.data.length = a.capacity) (hle : a.size ≤ a.capacity)
    (hpos : 1 ≤ a.capacity) (hmax : a.size < INT_MAX) :
    ∃ b, dynamic_array_append a e = some b ∧ b.data.length = b.capacity ∧
      b.size = a.size + 1 ∧ b.size ≤ b.capacity ∧ 1 ≤ b.capacity ∧
      b.datapoint_copy = a.datapoint_copy ∧ live b = live a ++ [a.datapoint_copy e] := by
  by_cases hfull : a.size = a.capacity
  · refine ⟨_, append_full_spec a e hlen hfull hpos (by omega), ?_, rfl, ?_, ?_, rfl, ?_⟩
    · simp only [List.length_append, List.length_cons, List.length_replicate]; omega
    · simp only; omega
    · simp only; omega
    · simp only [live]
      have h1 : a.size + 1 = a.data.length + 1 := by omega
      have h2 : a.data.take a.size = a.data := List.take_of_length_le (by omega)
      rw [h1, h2, List.take_append]
      simp
  · have hlt : a.size < a.capacity := by omega
    refine ⟨_, append_room_spec a e hlen hlt (by omega), ?_, rfl, ?_, hpos, rfl, ?_⟩
    · simp only [List.length_set]; exact hlen
    · simp only; omega
    · simp only [live]
      exact live_set_size a.data a.size _ (by omega)

theorem append_all_spec (xs : List Ptr) :
    ∀ (a : DynamicArray), a.data.length = a.capacity → a.size ≤ a.capacity →
      1 ≤ a.capacity → a.size + xs.length ≤ INT_MAX →
      ∃ b, append_all a xs = some b ∧ b.data.length = b.capacity ∧
        b.size = a.size + xs.length ∧ b.size ≤ b.capacity ∧
        b.datapoint_copy = a.datapoint_copy ∧
        live b = live a ++ xs.map a.datapoint_copy := by
  induction xs with
  | nil =>
    intro a hlen hle _ _
    exact ⟨a, rfl, hlen, by simp, hle, rfl, by simp⟩
  | cons x xs ih =>
    intro a hlen hle hpos hmax
    simp only [List.length_cons] at hmax
    obtain ⟨b, hb, hblen, hbsize, hble, hbpos, hbcopy, hblive⟩ :=
      append_step a x hlen hle hpos (by omega)
    obtain ⟨c, hc, hclen, hcsize, hcle, hccopy, hclive⟩ :=
      ih b hblen hble hbpos (by omega)
    refine ⟨c, ?_, hclen, ?_, hcle, ?_, ?_⟩
    · simp only [append_all, hb, Option.some_bind]; exact hc
    · simp only [List.length_cons]; omega
    · rw [hccopy, hbcopy]
    · rw [hclive, hblive, hbcopy]; simp

end DynArr

namespace DynArr

theorem append_all_append (xs ys : List Ptr) :
    ∀ (a : DynamicArray),
      append_all a (xs ++ ys) = (append_all a xs).bind fun b => append_all b ys := by
  induction xs with
  | nil => intro a; rfl
  | cons x xs ih =>
    intro a
    simp only [List.cons_append, append_all]
    cases h : dynamic_array_append a x with
    | none => rfl
    | some b => simp only [Option.some_bind]; exact ih b

theorem append_all_room (xs : List Ptr) :
    ∀ (a : DynamicArray), a.data.length = a.capacity →
      a.size + xs.length ≤ a.capacity → a.capacity ≤ INT_MAX + 1 →
      ∃ b, append_all a xs = some b ∧ b.data.length = b.capacity ∧
        b.capacity = a.capacity ∧ b.size = a.size + xs.length := by
  induction xs with
  | nil => intro a hlen _ _; exact ⟨a, rfl, hlen, rfl, by simp⟩
  | cons x xs ih =>
    intro a hlen hroom hmax
    simp only [List.length_cons] at hroom
    obtain ⟨c, hc, hclen, hccap, hcsize⟩ :=
      ih { a with data := a.data.set a.size (a.datapoint_copy x), size := a.size + 1 }
        (by simp only [List.length_set]; exact hlen) (by simp only; omega) hmax
    refine ⟨c, ?_, hclen, hccap, ?_⟩
    · simp only [append_all, append_room_spec a x hlen (by omega) (by omega),
        Option.some_bind]
      exact hc
    · simp only [List.length_cons]; simp only at hcsize; omega

theorem append_full_overflow (a : DynamicArray) (e : Ptr)
    (hlen : a.data.length = a.capacity) (hfull : a.size = a.capacity)
    (hcap : a.capacity = 2147483648) :
    dynamic_array_append a e = none := by
  unfold dynamic_array_append
  have hdbl : (2 * a.capacity) % UINT_RANGE = 0 := by rw [hcap]; rfl
  rw [if_pos hfull, hdbl, change_capacity_refuse a 0 (by omega)]
  simp only [Option.some_bind, write, if_neg (show ¬ a.size < a.data.length by omega),
    Option.map_none']

theorem append_all_overflow (n : Nat) (hn : n = 2147483648) (lf : Double) (d : Ptr)
    (eq : Ptr → Ptr → Int) (cp : Ptr → Ptr) (v : Ptr) :
    append_all (dynamic_array_init n lf d eq cp) (List.replicate (n + 1) v) = none := by
  rw [List.replicate_succ', append_all_append]
  obtain ⟨b, hb, hblen, hbcap, hbsize⟩ :=
    append_all_room (List.replicate n v) (dynamic_array_init n lf d eq cp)
      (by simp only [dynamic_array_init, List.length_replicate])
      (by simp only [dynamic_array_init, List.length_replicate]; omega)
      (by simp only [dynamic_array_init, INT_MAX]; omega)
  simp only [dynamic_array_init, List.length_replicate, Nat.zero_add] at hbcap hbsize
  rw [hb]
  simp only [Option.some_bind, append_all]
  rw [append_full_overflow b v hblen (by omega) (by omega)]
  rfl

/-- C1 (amended): for a container freshly constructed with `minimum_capacity >= 1`
and a list `xs` of at most `INT_MAX` elements, appending the elements of `xs` in
order succeeds, the size then equals the length of `xs`, and
`dynamic_array_get_all` returns `NULL` when `xs` is empty and otherwise the array
whose `i`-th slot is `copy_fn` applied to the stored copy `copy_fn xs[i]`. -/
theorem C1_append_all_get_all (m : Nat) (lf : Double) (d : Ptr) (eq : Ptr → Ptr → Int)
    (cp : Ptr → Ptr) (xs : List Ptr) (hm : 1 ≤ m) (hlen : xs.length ≤ INT_MAX) :
    ∃ a, append_all (dynamic_array_init m lf d eq cp) xs = some a ∧
      a.size = xs.length ∧
      dynamic_array_get_all a
        = some (if xs = [] then none else some (xs.map fun x => cp (cp x))) := by
  obtain ⟨a, ha, halen, hasize, hale, hacopy, halive⟩ :=
    append_all_spec xs (dynamic_array_init m lf d eq cp)
      (by simp [dynamic_array_init]) (by simp [dynamic_array_init]) hm
      (by simpa [dynamic_array_init] using hlen)
  have hsz : a.size = xs.length := by simpa [dynamic_array_init] using hasize
  refine ⟨a, ha, hsz, ?_⟩
  rw [get_all_spec a (by omega) (by omega), halive, hacopy]
  have hnil : (a.size = 0) = (xs = []) := by
    rw [hsz]; exact propext List.length_eq_zero
  simp [dynamic_array_init, live, hnil]
  rfl

/-- Witness of C1: five appends to a container of minimum capacity 4. -/
theorem C1_append_all_get_all_witness :
    (1 ≤ 4 ∧ [1, 2, 3, 2, 5].length ≤ INT_MAX) ∧
    ∃ a, append_all
        (dynamic_array_init 4 ⟨1, -2⟩ 77 (fun x y => if x = y then 1 else 0)
          (fun p => p + 100)) [1, 2, 3, 2, 5] = some a ∧
      a.size = [1, 2, 3, 2, 5].length ∧
      dynamic_array_get_all a
        = some (if [1, 2, 3, 2, 5] = [] then none
            else some ([1, 2, 3, 2, 5].map fun x => (fun p => p + 100) ((fun p => p + 100) x))) :=
  ⟨⟨by decide, by decide⟩,
    C1_append_all_get_all 4 ⟨1, -2⟩ 77 (fun x y => if x = y then 1 else 0)
      (fun p => p + 100) [1, 2, 3, 2, 5] (by decide) (by decide)⟩

/-- C1 as stated fails: with `minimum_capacity = 2147483648` and a list of
2147483649 elements, the last append finds `size == capacity == 2147483648`,
the doubled capacity wraps to 0, the resize is refused and the element is
written past the end of the backing store; no state with the claimed size and
snapshot results. -/
theorem C1_counterexample :
    ¬ ∃ a, append_all
        (dynamic_array_init 2147483648 ⟨1, -1⟩ 77 (fun x y => if x = y then 1 else 0)
          (fun p => p)) (List.replicate 2147483649 7) = some a ∧
      a.size = (List.replicate 2147483649 7).length ∧
      dynamic_array_get_all a
        = some (some ((List.replicate 2147483649 7).map fun x => (fun p => p) ((fun p => p) x))) := by
  rintro ⟨a, ha, -, -⟩
  have h := append_all_overflow 2147483648 rfl ⟨1, -1⟩ 77
    (fun x y => if x = y then 1 else 0) (fun p => p) 7
  rw [h] at ha
  exact Option.noConfusion ha

end DynArr

namespace DynArr

/-- C2 (amended): for every container state whose backing store has `capacity`
slots, with `size == capacity` and `1 <= capacity <= INT_MAX`,
`dynamic_array_append` yields a state whose capacity is twice the old one, whose
size is the old size plus one and within the new capacity, in which every slot
below the old size holds the same handle as before, and in which slot
`old size` holds `copy_fn(element)`. -/
theorem C2_append_full (a : DynamicArray) (e : Ptr)
    (hlen : a.data.length = a.capacity) (hfull : a.size = a.capacity)
    (hpos : 1 ≤ a.capacity) (hmax : a.capacity ≤ INT_MAX) :
    ∃ b, dynamic_array_append a e = some b ∧
      b.capacity = 2 * a.capacity ∧ b.size = a.size + 1 ∧ b.size ≤ b.capacity ∧
      b.data.length = b.capacity ∧
      (∀ i, i < a.size → b.data[i]? = a.data[i]?) ∧
      b.data[a.size]? = some (a.datapoint_copy e) := by
  refine ⟨_, append_full_spec a e hlen hfull hpos hmax, rfl, rfl, ?_, ?_, ?_, ?_⟩
  · simp only; omega
  · simp only [List.length_append, List.length_cons, List.length_replicate]; omega
  · intro i hi
    simp only
    rw [List.getElem?_append_left (by omega)]
  · simp only
    rw [List.getElem?_append_right (by omega)]
    have h0 : a.size - a.data.length = 0 := by omega
    rw [h0]; simp

/-- Witness of C2: a full container of capacity 2. -/
theorem C2_append_full_witness :
    (([11, 12] : List Ptr).length = 2 ∧ 2 = 2 ∧ 1 ≤ 2 ∧ 2 ≤ INT_MAX) ∧
    ∃ b, dynamic_array_append
        ⟨[11, 12], 2, 2, 2, ⟨1, -1⟩, 77, fun x y => if x = y then 1 else 0,
          fun p => p + 100, []⟩ 3 = some b ∧
      b.capacity = 2 * 2 ∧ b.size = 2 + 1 ∧ b.size ≤ b.capacity ∧
      b.data.length = b.capacity ∧
      (∀ i, i < 2 → b.data[i]? = ([11, 12] : List Ptr)[i]?) ∧
      b.data[2]? = some ((fun p => p + 100) 3) :=
  ⟨⟨by decide, by decide, by decide, by decide⟩,
    C2_append_full
      ⟨[11, 12], 2, 2, 2, ⟨1, -1⟩, 77, fun x y => if x = y then 1 else 0,
        fun p => p + 100, []⟩ 3 (by decide) (by decide) (by decide) (by decide)⟩

/-- C2 as stated fails: the container constructed with `minimum_capacity = 0`
is full (`size == capacity == 0`); the doubled capacity is again 0 and the element
is written to slot 0 of a store without slots, so no state with
`size <= capacity` holding the element results. -/
theorem C2_counterexample :
    (dynamic_array_init 0 ⟨1, -1⟩ 77 (fun x y => if x = y then 1 else 0) (fun p => p)).size
      = (dynamic_array_init 0 ⟨1, -1⟩ 77 (fun x y => if x = y then 1 else 0)
          (fun p => p)).capacity ∧
    dynamic_array_append
        (dynamic_array_init 0 ⟨1, -1⟩ 77 (fun x y => if x = y then 1 else 0) (fun p => p)) 7
      = none ∧
    ¬ ∃ b, dynamic_array_append
        (dynamic_array_init 0 ⟨1, -1⟩ 77 (fun x y => if x = y then 1 else 0) (fun p => p)) 7
          = some b ∧
      b.capacity = 2 * 0 ∧ b.size = 0 + 1 ∧ b.size ≤ b.capacity ∧
      b.data[0]? = some ((fun p => p) 7) := by
  refine ⟨rfl, rfl, ?_⟩
  rintro ⟨b, hb, -⟩
  exact Option.noConfusion (hb.symm.trans (show dynamic_array_append
    (dynamic_array_init 0 ⟨1, -1⟩ 77 (fun x y => if x = y then 1 else 0) (fun p => p)) 7
      = none from rfl))

end DynArr

namespace DynArr

/-! ## Deletion by value -/

theorem scan_read (F rest : List Ptr) (k j : Nat) (x : Ptr) (hj : j = F.length + k) :
    (F ++ (List.replicate k NULL ++ x :: rest))[j]? = some x := by
  subst hj
  rw [List.getElem?_append_right (by omega), List.getElem?_append_right (by simp)]
  simp

theorem scan_mark (F rest : List Ptr) (k j : Nat) (x : Ptr) (hj : j = F.length + k) :
    (F ++ (List.replicate k NULL ++ x :: rest)).set j NULL
      = F ++ (List.replicate (k + 1) NULL ++ rest) := by
  subst hj
  apply List.ext_getElem?
  intro i
  simp only [List.getElem?_set, List.getElem?_append, List.length_append,
    List.length_replicate, List.length_cons, List.getElem?_replicate, List.getElem?_cons]
  split_ifs <;> first | rfl | omega

theorem scan_move (F rest : List Ptr) (k j : Nat) (x : Ptr) (hj : j = F.length + k)
    (hk : 1 ≤ k) :
    ((F ++ (List.replicate k NULL ++ x :: rest)).set F.length x).set j NULL
      = (F ++ [x]) ++ (List.replicate k NULL ++ rest) := by
  subst hj
  apply List.ext_getElem?
  intro i
  simp only [List.getElem?_set, List.getElem?_append, List.length_append,
    List.length_replicate, List.length_cons, List.getElem?_replicate, List.getElem?_cons,
    List.length_set, List.length_nil]
  split_ifs <;> first | rfl | omega | (simp_all; done) | (congr 1; omega)

/-- The state of the scan of `dynamic_array_delete` once the slots below `j`
have been visited. -/
theorem delete_body_step (a : DynamicArray) (e : Ptr) (j : Nat)
    (hj : j < a.data.length) (hmax : j < INT_MAX) :
    delete_body a e j
        ⟨(a.data.take j).filter (keeps a e)
            ++ (List.replicate (j - ((a.data.take j).filter (keeps a e)).length) NULL
              ++ a.data.drop j),
          j - ((a.data.take j).filter (keeps a e)).length,
          a.events ++ ((a.data.take j).filter fun x => !keeps a e x).map
            (Event.destroyer a.datapoint_destroyer)⟩
      = some
        ⟨(a.data.take (j + 1)).filter (keeps a e)
            ++ (List.replicate (j + 1 - ((a.data.take (j + 1)).filter (keeps a e)).length) NULL
              ++ a.data.drop (j + 1)),
          j + 1 - ((a.data.take (j + 1)).filter (keeps a e)).length,
          a.events ++ ((a.data.take (j + 1)).filter fun x => !keeps a e x).map
            (Event.destroyer a.datapoint_destroyer)⟩ := by
  have hFle : ((a.data.take j).filter (keeps a e)).length ≤ j := by
    refine Nat.le_trans (List.length_filter_le _ _) ?_
    simp only [List.length_take]; omega
  have hdrop : a.data.drop j = a.data[j] :: a.data.drop (j + 1) :=
    List.drop_eq_getElem_cons hj
  have htake : a.data.take (j + 1) = a.data.take j ++ [a.data[j]] := by
    rw [List.take_succ, List.getElem?_eq_getElem hj]; rfl
  generalize hF : (a.data.take j).filter (keeps a e) = F at hFle
  generalize hD : (a.data.take j).filter (fun x => !keeps a e x) = D
  have hidx : j = F.length + (j - F.length) := by omega
  have hlen : j < (F ++ (List.replicate (j - F.length) NULL
      ++ a.data[j] :: a.data.drop (j + 1))).length := by
    simp only [List.length_append, List.length_replicate, List.length_cons, List.length_drop]
    omega
  rw [htake, List.filter_append, List.filter_append, hF, hD, hdrop]
  unfold delete_body
  simp only [read, scan_read F _ _ j a.data[j] hidx, Option.some_bind]
  by_cases hm : a.datapoint_equals a.data[j] e = 0
  · have hk : keeps a e a.data[j] = true := by simp [keeps, hm]
    simp only [hm, ne_eq, not_true_eq_false, if_false, List.filter_cons, hk, if_true,
      List.filter_nil, Bool.not_true, Bool.false_eq_true, List.append_nil, List.length_append,
      List.length_cons, List.length_nil]
    by_cases h0 : j - F.length = 0
    · simp only [h0, not_true_eq_false, if_false]
      have hjF : j = F.length := by omega
      have h1 : j + 1 - (F.length + (0 + 1)) = 0 := by omega
      simp only [h1, List.replicate_zero, List.nil_append, List.append_assoc,
        List.singleton_append]
    · have hmod : (j + UINT_RANGE - (j - F.length)) % UINT_RANGE = F.length := by
        have e1 : j + UINT_RANGE - (j - F.length) = F.length + UINT_RANGE := by omega
        rw [e1, Nat.add_mod_right]
        apply Nat.mod_eq_of_lt
        simp only [INT_MAX] at hmax; simp only [UINT_RANGE]; omega
      have hlenF : F.length < (F ++ (List.replicate (j - F.length) NULL
          ++ a.data[j] :: a.data.drop (j + 1))).length := by omega
      have h1 : j + 1 - (F.length + (0 + 1)) = j - F.length := by omega
      simp only [h0, not_false_eq_true, if_true, hmod, write, if_pos hlenF, Option.some_bind,
        List.length_set, if_pos hlen, Option.map_some', h1,
        scan_move F _ (j - F.length) j a.data[j] hidx (by omega)]
  · have hk : keeps a e a.data[j] = false := by simp [keeps, hm]
    have hmod : (j - F.length + 1) % UINT_RANGE = j - F.length + 1 := by
      apply Nat.mod_eq_of_lt
      simp only [INT_MAX] at hmax; simp only [UINT_RANGE]; omega
    have h1 : j + 1 - F.length = j - F.length + 1 := by omega
    simp only [hm, ne_eq, not_false_eq_true, if_true, write, if_pos hlen, Option.map_some',
      List.filter_cons, hk, Bool.false_eq_true, if_false, List.filter_nil, Bool.not_false,
      List.append_nil, hmod, h1, List.map_append, List.map_cons, List.map_nil,
      List.append_assoc, scan_mark F _ (j - F.length) j a.data[j] hidx]

end DynArr

namespace DynArr

/-! ## The load-factor product -/

theorem trunc_neg (m : Nat) (e : Int) (k c : Nat) (he : e = -(k : Int)) (hk : 1 ≤ k)
    (hm : m ≤ 2 ^ k * c) (hc : c < UINT_RANGE) :
    ∃ t, trunc_to_unsigned m e = some t ∧ t ≤ c := by
  have hneg : ¬ (0 ≤ e) := by omega
  have hk' : (-e).toNat = k := by omega
  have hle : m / 2 ^ k ≤ c := Nat.div_le_of_le_mul hm
  refine ⟨m / 2 ^ k, ?_, hle⟩
  simp only [trunc_to_unsigned, if_neg hneg, hk']
  rw [if_pos (by omega)]

theorem double_mul_to_unsigned_some (d : Double) (c : Nat) (h : d.lt_one)
    (hc : c < UINT_RANGE) : ∃ t, double_mul_to_unsigned d c = some t ∧ t ≤ c := by
  obtain ⟨hexp, hmant⟩ := h
  obtain ⟨k, hk⟩ : ∃ k : Nat, (-d.exp).toNat = k := ⟨_, rfl⟩
  rw [hk] at hmant
  have hk1 : 1 ≤ k := by omega
  have hde : d.exp = -(k : Int) := by omega
  have hN : d.mant * c ≤ 2 ^ k * c := Nat.mul_le_mul_right c (Nat.le_of_lt hmant)
  unfold double_mul_to_unsigned round53
  by_cases hsmall : d.mant * c < 2 ^ 53
  · simp only [if_pos hsmall]
    exact trunc_neg _ _ k c hde hk1 hN hc
  · simp only [if_neg hsmall]
    have hc0 : 0 < c := by
      rcases Nat.eq_zero_or_pos c with h0 | h0
      · subst h0; simp at hsmall
      · exact h0
    have hNlt : d.mant * c < 2 ^ k * c := Nat.mul_lt_mul_of_pos_right hmant hc0
    have hne : d.mant * c ≠ 0 := by
      intro h0; rw [h0] at hsmall; exact hsmall (by positivity)
    have hlog : 53 ≤ Nat.log2 (d.mant * c) := (Nat.le_log2 hne).2 (Nat.le_of_not_lt hsmall)
    obtain ⟨sh, hsh⟩ : ∃ sh : Nat, Nat.log2 (d.mant * c) + 1 - 53 = sh := ⟨_, rfl⟩
    have hlog' : Nat.log2 (d.mant * c) = sh + 52 := by omega
    have hlow : 2 ^ (sh + 52) ≤ d.mant * c := by
      rw [← hlog']; exact Nat.log2_self_le hne
    have hshk : sh < k := by
      by_contra hcon
      have hks : k ≤ sh := Nat.le_of_not_lt hcon
      have h1 : 2 ^ (k + 52) ≤ 2 ^ (sh + 52) := Nat.pow_le_pow_right (by decide) (by omega)
      have h2 : 2 ^ k * c < 2 ^ k * 2 ^ 52 := by
        apply Nat.mul_lt_mul_of_pos_left _ (by positivity)
        simp only [UINT_RANGE] at hc
        have : (2:Nat) ^ 52 = 4503599627370496 := by norm_num
        omega
      rw [← Nat.pow_add] at h2
      omega
    rw [hsh]
    have hsplit : 2 ^ k * c = 2 ^ sh * (2 ^ (k - sh) * c) := by
      rw [← Nat.mul_assoc, ← Nat.pow_add]
      congr 2; omega
    have hq : d.mant * c / 2 ^ sh < 2 ^ (k - sh) * c := by
      apply Nat.div_lt_of_lt_mul
      rw [← hsplit]; exact hNlt
    have hE : d.exp + (sh : Int) = -((k - sh : Nat) : Int) := by omega
    apply trunc_neg _ _ (k - sh) c hE (by omega) _ hc
    split_ifs <;> omega

theorem shrink_test_some (b : DynamicArray) (c : Nat)
    (h : b.minimum_percentage_allowed.lt_one) (hc : c < UINT_RANGE) :
    ∃ t, shrink_test b c = some t := by
  unfold shrink_test
  by_cases hgt : c > b.minimum_capacity
  · obtain ⟨t, ht, -⟩ := double_mul_to_unsigned_some b.minimum_percentage_allowed c h hc
    exact ⟨decide (b.size < t), by simp only [if_pos hgt, ht, Option.map_some']⟩
  · exact ⟨false, by simp only [if_neg hgt]⟩

theorem change_capacity_live (b : DynamicArray) (N : Nat)
    (hn : b.size ≤ b.data.length) (hmax : b.size ≤ INT_MAX) :
    ∃ c, _dynamic_array_change_capacity b N = some c ∧ c.size = b.size ∧
      live c = live b ∧ c.size ≤ c.data.length ∧
      c.datapoint_equals = b.datapoint_equals ∧ c.datapoint_copy = b.datapoint_copy ∧
      c.events = b.events ∧ c.minimum_capacity = b.minimum_capacity ∧
      (c.capacity = b.capacity ∨ (c.capacity = N ∧ b.size ≤ N)) ∧
      (b.data.length = b.capacity → c.data.length = c.capacity) := by
  by_cases hlt : N < b.size
  · exact ⟨b, change_capacity_refuse b N hlt, rfl, rfl, hn, rfl, rfl, rfl, rfl, Or.inl rfl,
      fun h => h⟩
  · have hle : b.size ≤ N := Nat.le_of_not_lt hlt
    have hlen : (List.take b.size b.data).length = b.size := by
      simp only [List.length_take]; omega
    refine ⟨_, change_capacity_spec b N hn hle hmax, rfl, ?_, ?_, rfl, rfl, rfl, rfl,
      Or.inr ⟨rfl, hle⟩, ?_⟩
    · simp only [live]
      rw [List.take_append_of_le_length (by omega), List.take_take, Nat.min_self]
    · simp only [List.length_append, List.length_take, List.length_replicate]; omega
    · intro _
      simp only [List.length_append, List.length_take, List.length_replicate]; omega

end DynArr

namespace DynArr

theorem delete_scan_spec (a : DynamicArray) (e : Ptr)
    (hn : a.size ≤ a.data.length) (hmax : a.size ≤ INT_MAX) :
    for_int (delete_body a e) a.size 0 ⟨a.data, 0, a.events⟩
      = some
        ⟨(a.data.take a.size).filter (keeps a e)
            ++ (List.replicate (a.size - ((a.data.take a.size).filter (keeps a e)).length) NULL
              ++ a.data.drop a.size),
          a.size - ((a.data.take a.size).filter (keeps a e)).length,
          a.events ++ ((a.data.take a.size).filter fun x => !keeps a e x).map
            (Event.destroyer a.datapoint_destroyer)⟩ := by
  obtain ⟨st, hst, hinv⟩ := for_int_inv (delete_body a e)
    (fun j st => st =
      ⟨(a.data.take j).filter (keeps a e)
          ++ (List.replicate (j - ((a.data.take j).filter (keeps a e)).length) NULL
            ++ a.data.drop j),
        j - ((a.data.take j).filter (keeps a e)).length,
        a.events ++ ((a.data.take j).filter fun x => !keeps a e x).map
          (Event.destroyer a.datapoint_destroyer)⟩)
    a.size 0 ⟨a.data, 0, a.events⟩ (by omega) (by simp)
    (by
      intro j s _ hj hs
      refine ⟨_, ?_, rfl⟩
      rw [hs]
      exact delete_body_step a e j (by omega) (by omega))
  rw [hst]
  simp only [Nat.zero_add] at hinv
  rw [hinv]

theorem filter_keeps_complement (a : DynamicArray) (e : Ptr) (l : List Ptr) :
    (l.filter (keeps a e)).length + (l.filter fun x => !keeps a e x).length = l.length := by
  induction l with
  | nil => rfl
  | cons x l ih =>
    simp only [List.filter_cons]
    cases keeps a e x <;> simp <;> omega

theorem live_length (a : DynamicArray) (hn : a.size ≤ a.data.length) :
    (live a).length = a.size := by
  simp only [live, List.length_take]; omega

/-- The shrink step that ends `dynamic_array_delete`. -/
theorem delete_tail (b : DynamicArray) (hlen : b.data.length = b.capacity)
    (hsz : b.size ≤ b.capacity) (hmax : b.size ≤ INT_MAX) (hR : b.capacity < UINT_RANGE)
    (hlf : b.minimum_percentage_allowed.lt_one) :
    ∃ c, ((shrink_test b b.capacity).bind fun t1 =>
        if t1 = true then
          (shrink_test b (b.capacity / 2)).bind fun t2 =>
            (_dynamic_array_change_capacity b
              (if t2 = true then b.capacity / 2 / 2 else b.capacity / 2)).map
                fun c => (c, (1 : Int))
        else some (b, 1)) = some (c, 1) ∧
      c.size = b.size ∧ live c = live b ∧ c.size ≤ c.data.length ∧
      c.data.length = c.capacity ∧ c.datapoint_equals = b.datapoint_equals ∧
      c.minimum_capacity = b.minimum_capacity ∧ c.events = b.events := by
  obtain ⟨t1, ht1⟩ := shrink_test_some b b.capacity hlf hR
  rw [ht1]
  simp only [Option.some_bind]
  cases t1 with
  | false =>
    simp only [Bool.false_eq_true, if_false]
    exact ⟨b, rfl, rfl, rfl, by omega, hlen, rfl, rfl, rfl⟩
  | true =>
    simp only [if_true]
    obtain ⟨t2, ht2⟩ := shrink_test_some b (b.capacity / 2) hlf
      (Nat.lt_of_le_of_lt (Nat.div_le_self _ _) hR)
    rw [ht2]
    simp only [Option.some_bind]
    obtain ⟨c, hc, hcsize, hclive, hcn, hceq, -, hcev, hcmin, -, hclen⟩ :=
      change_capacity_live b (if t2 = true then b.capacity / 2 / 2 else b.capacity / 2)
        (by omega) (by omega)
    rw [hc]
    simp only [Option.map_some']
    exact ⟨c, rfl, hcsize, hclive, hcn, hclen hlen, hceq, hcmin, hcev⟩

/-- The part of `dynamic_array_delete` that follows the scan, for a scan that
kept the handles `F` and destroyed the handles `D`. -/
theorem delete_after_scan (a : DynamicArray) (F D : List Ptr) (hv : Valid a)
    (hFD : F.length + D.length = a.size) (hfull : D = [] → F = a.data.take a.size) :
    ∃ b, ((some (⟨F ++ (List.replicate (a.size - F.length) NULL ++ a.data.drop a.size),
          a.size - F.length,
          a.events ++ D.map (Event.destroyer a.datapoint_destroyer)⟩ : DeleteScan)).bind
        fun st =>
          let a1 := { a with data := st.data, events := st.events }
          if st.deletions_occured = 0 then some (a1, (0 : Int))
          else
            let b := { a1 with
              size := (a1.size + UINT_RANGE - st.deletions_occured) % UINT_RANGE }
            (shrink_test b b.capacity).bind fun t1 =>
              if t1 then
                (shrink_test b (b.capacity / 2)).bind fun t2 =>
                  (_dynamic_array_change_capacity b
                    (if t2 then b.capacity / 2 / 2 else b.capacity / 2)).map fun c => (c, 1)
              else some (b, 1))
        = some (b, if F.length = a.size then 0 else 1) ∧
      b.size = F.length ∧ live b = F ∧
      b.size ≤ b.data.length ∧ b.data.length = b.capacity ∧
      b.datapoint_equals = a.datapoint_equals ∧
      b.minimum_capacity = a.minimum_capacity ∧
      b.events = a.events ++ D.map (Event.destroyer a.datapoint_destroyer) ∧
      (F.length = a.size → b = a) := by
  obtain ⟨hlen, hsz, hmax, hR, hlf⟩ := hv
  have hn : a.size ≤ a.data.length := by omega
  simp only [Option.some_bind]
  by_cases hall : F.length = a.size
  · have h0 : a.size - F.length = 0 := by omega
    have hDnil : D = [] := List.length_eq_zero.1 (by omega)
    have hFeq : F = a.data.take a.size := hfull hDnil
    have hdata : F ++ (List.replicate 0 NULL ++ a.data.drop a.size) = a.data := by
      rw [hFeq]; simp only [List.replicate_zero, List.nil_append, List.take_append_drop]
    simp only [h0, if_true, if_pos hall, hdata, hDnil, List.map_nil, List.append_nil]
    exact ⟨a, rfl, hall.symm, hFeq.symm, hn, hlen, rfl, rfl, rfl, fun _ => rfl⟩
  · have h0 : ¬ (a.size - F.length = 0) := by omega
    have hmod : (a.size + UINT_RANGE - (a.size - F.length)) % UINT_RANGE = F.length := by
      have e1 : a.size + UINT_RANGE - (a.size - F.length) = F.length + UINT_RANGE := by omega
      rw [e1, Nat.add_mod_right]
      apply Nat.mod_eq_of_lt
      simp only [INT_MAX] at hmax; simp only [UINT_RANGE]; omega
    simp only [if_neg h0, if_neg hall, hmod]
    obtain ⟨c, hc, hcsize, hclive, hcn, hclen, hceq, hcmin, hcev⟩ :=
      delete_tail
        { a with
          data := F ++ (List.replicate (a.size - F.length) NULL ++ a.data.drop a.size)
          events := a.events ++ D.map (Event.destroyer a.datapoint_destroyer)
          size := F.length }
        (by simp only [List.length_append, List.length_replicate, List.length_drop]; omega)
        (by simp only; omega) (by simp only; omega) hR hlf
    refine ⟨c, hc, hcsize, ?_, hcn, hclen, hceq, hcmin, hcev, fun h => absurd h hall⟩
    rw [hclive]
    simp only [live, List.take_left']

/-- Result of `dynamic_array_delete` on a valid state: the scan leaves the kept
handles in front, and the shrink step preserves them. -/
theorem delete_spec (a : DynamicArray) (e : Ptr) (hv : Valid a) :
    ∃ b, dynamic_array_delete a e
        = some (b, if ((live a).filter (keeps a e)).length = a.size then 0 else 1) ∧
      b.size = ((live a).filter (keeps a e)).length ∧
      live b = (live a).filter (keeps a e) ∧
      b.size ≤ b.data.length ∧ b.data.length = b.capacity ∧
      b.datapoint_equals = a.datapoint_equals ∧
      b.minimum_capacity = a.minimum_capacity ∧
      b.events = a.events ++ ((live a).filter fun x => !keeps a e x).map
        (Event.destroyer a.datapoint_destroyer) ∧
      (((live a).filter (keeps a e)).length = a.size → b = a) := by
  have hn : a.size ≤ a.data.length := by have := hv.length_eq; have := hv.size_le; omega
  have hcompl := filter_keeps_complement a e (live a)
  rw [live_length a hn] at hcompl
  have hfull : ((live a).filter fun x => !keeps a e x) = [] →
      (live a).filter (keeps a e) = a.data.take a.size := by
    intro hD
    rw [hD] at hcompl
    apply List.filter_eq_self.2
    apply (List.filter_length_eq_length).1
    rw [live_length a hn]
    simpa using hcompl
  unfold dynamic_array_delete
  rw [delete_scan_spec a e hn (hv.size_int)]
  exact delete_after_scan a _ _ hv hcompl hfull

end DynArr

namespace DynArr

/-! ## Membership test -/

theorem find_loop_spec (a : DynamicArray) (e : Ptr) :
    ∀ (n i : Nat), i + n ≤ a.data.length → i + n ≤ INT_MAX →
      find_loop a e n i
        = some (if ((a.data.drop i).take n).all (keeps a e) = true then 0 else 1) := by
  intro n
  induction n with
  | zero => intro i _ _; simp [find_loop]
  | succ n ih =>
    intro i hlen hmax
    have hi : i < a.data.length := by omega
    have hdrop : a.data.drop i = a.data[i] :: a.data.drop (i + 1) :=
      List.drop_eq_getElem_cons hi
    have hne : i ≠ INT_MAX := by omega
    simp only [find_loop, read, List.getElem?_eq_getElem hi, Option.some_bind, hdrop,
      List.take_succ_cons, List.all_cons, if_neg hne]
    by_cases hm : a.datapoint_equals a.data[i] e = 0
    · have hk : keeps a e a.data[i] = true := by simp [keeps, hm]
      simp only [hm, ne_eq, not_true_eq_false, if_false, hk, Bool.true_and]
      exact ih (i + 1) (by omega) (by omega)
    · have hk : keeps a e a.data[i] = false := by simp [keeps, hm]
      simp [hm, hk]

theorem find_spec (a : DynamicArray) (e : Ptr) (hn : a.size ≤ a.data.length)
    (hmax : a.size ≤ INT_MAX) :
    dynamic_array_find a e = some (if (live a).all (keeps a e) = true then 0 else 1) := by
  unfold dynamic_array_find
  rw [find_loop_spec a e a.size 0 (by omega) (by omega)]
  simp only [List.drop_zero, live]

/-- C3: on every valid container, `dynamic_array_delete(e)` returns, and the live
sequence it leaves is the old live sequence filtered, in order, to the handles
`x` with `datapoint_equals(x, e) == 0`: every occurrence of a match is gone and
the others keep their relative order. -/
theorem C3_delete_stable_filter (a : DynamicArray) (e : Ptr) (hv : Valid a) :
    ∃ b r, dynamic_array_delete a e = some (b, r) ∧
      live b = (live a).filter (fun x => decide (a.datapoint_equals x e = 0)) := by
  obtain ⟨b, hb, -, hlive, -⟩ := delete_spec a e hv
  exact ⟨b, _, hb, hlive⟩

/-- Witness of C3: deleting the handle 2 from the live sequence 1, 2, 3, 2, 5. -/
theorem C3_delete_stable_filter_witness :
    Valid ⟨[1, 2, 3, 2, 5, 0, 0, 0], 5, 8, 4, ⟨1, -2⟩, 77,
        fun x y => if x = y then 1 else 0, fun p => p, []⟩ ∧
    ∃ b r, dynamic_array_delete
        ⟨[1, 2, 3, 2, 5, 0, 0, 0], 5, 8, 4, ⟨1, -2⟩, 77,
          fun x y => if x = y then 1 else 0, fun p => p, []⟩ 2 = some (b, r) ∧
      live b = (live ⟨[1, 2, 3, 2, 5, 0, 0, 0], 5, 8, 4, ⟨1, -2⟩, 77,
          fun x y => if x = y then 1 else 0, fun p => p, []⟩).filter
        (fun x => decide ((fun x y : Ptr => if x = y then (1 : Int) else 0) x 2 = 0)) :=
  ⟨⟨by decide, by decide, by decide, by decide, by decide⟩,
    C3_delete_stable_filter
      ⟨[1, 2, 3, 2, 5, 0, 0, 0], 5, 8, 4, ⟨1, -2⟩, 77,
        fun x y => if x = y then 1 else 0, fun p => p, []⟩ 2
      ⟨by decide, by decide, by decide, by decide, by decide⟩⟩

end DynArr

namespace DynArr

theorem count_matches (a : DynamicArray) (e : Ptr) (hn : a.size ≤ a.data.length) :
    ((live a).filter (keeps a e)).length
      + (live a).countP (fun x => decide (a.datapoint_equals x e ≠ 0)) = a.size := by
  have h := filter_keeps_complement a e (live a)
  rw [live_length a hn] at h
  have hfun : (fun x => !keeps a e x) = fun x => decide (a.datapoint_equals x e ≠ 0) := by
    funext x; simp [keeps]
  rw [List.countP_eq_length_filter, ← hfun]
  exact h

/-- C4: on every valid container, after `dynamic_array_delete(e)` the call
`dynamic_array_find(e)` returns 0, the size has decreased by exactly the number
of live handles `x` with `datapoint_equals(x, e) != 0` before the call, and the
value returned by the deletion is 1 when that number is at least one and 0
otherwise. -/
theorem C4_delete_find_count (a : DynamicArray) (e : Ptr) (hv : Valid a) :
    ∃ b r, dynamic_array_delete a e = some (b, r) ∧
      dynamic_array_find b e = some 0 ∧
      b.size + (live a).countP (fun x => decide (a.datapoint_equals x e ≠ 0)) = a.size ∧
      (r = 1 ↔ 1 ≤ (live a).countP (fun x => decide (a.datapoint_equals x e ≠ 0))) ∧
      (r = 0 ↔ (live a).countP (fun x => decide (a.datapoint_equals x e ≠ 0)) = 0) := by
  have hn : a.size ≤ a.data.length := by have := hv.length_eq; have := hv.size_le; omega
  obtain ⟨b, hb, hsize, hlive, hbn, -, hbeq, -⟩ := delete_spec a e hv
  have hcount := count_matches a e hn
  have hbmax : b.size ≤ INT_MAX := by
    have := hv.size_int; omega
  have hkeeps : keeps b e = keeps a e := by
    funext x; simp only [keeps, hbeq]
  have hall : (live b).all (keeps b e) = true := by
    rw [hlive, hkeeps, List.all_eq_true]
    intro x hx
    exact (List.mem_filter.1 hx).2
  refine ⟨b, _, hb, ?_, by omega, ?_, ?_⟩
  · rw [find_spec b e hbn hbmax, if_pos hall]
  · split_ifs with h
    · constructor
      · intro h1; exact absurd h1 (by decide)
      · intro h1; omega
    · constructor
      · intro _; omega
      · intro _; rfl
  · split_ifs with h
    · constructor
      · intro _; omega
      · intro _; rfl
    · constructor
      · intro h1; exact absurd h1 (by decide)
      · intro h1; omega

/-- Witness of C4: deleting the handle 2, stored twice among five live handles. -/
theorem C4_delete_find_count_witness :
    Valid ⟨[1, 2, 3, 2, 5, 0, 0, 0], 5, 8, 4, ⟨1, -2⟩, 77,
        fun x y => if x = y then 1 else 0, fun p => p, []⟩ ∧
    ∃ b r, dynamic_array_delete
        ⟨[1, 2, 3, 2, 5, 0, 0, 0], 5, 8, 4, ⟨1, -2⟩, 77,
          fun x y => if x = y then 1 else 0, fun p => p, []⟩ 2 = some (b, r) ∧
      dynamic_array_find b 2 = some 0 ∧
      b.size + (live ⟨[1, 2, 3, 2, 5, 0, 0, 0], 5, 8, 4, ⟨1, -2⟩, 77,
          fun x y => if x = y then 1 else 0, fun p => p, []⟩).countP
        (fun x => decide ((fun x y : Ptr => if x = y then (1 : Int) else 0) x 2 ≠ 0)) = 5 ∧
      (r = 1 ↔ 1 ≤ (live ⟨[1, 2, 3, 2, 5, 0, 0, 0], 5, 8, 4, ⟨1, -2⟩, 77,
          fun x y => if x = y then 1 else 0, fun p => p, []⟩).countP
        (fun x => decide ((fun x y : Ptr => if x = y then (1 : Int) else 0) x 2 ≠ 0))) ∧
      (r = 0 ↔ (live ⟨[1, 2, 3, 2, 5, 0, 0, 0], 5, 8, 4, ⟨1, -2⟩, 77,
          fun x y => if x = y then 1 else 0, fun p => p, []⟩).countP
        (fun x => decide ((fun x y : Ptr => if x = y then (1 : Int) else 0) x 2 ≠ 0)) = 0) :=
  ⟨⟨by decide, by decide, by decide, by decide, by decide⟩,
    C4_delete_find_count
      ⟨[1, 2, 3, 2, 5, 0, 0, 0], 5, 8, 4, ⟨1, -2⟩, 77,
        fun x y => if x = y then 1 else 0, fun p => p, []⟩ 2
      ⟨by decide, by decide, by decide, by decide, by decide⟩⟩

/-- C5: on every valid container in which no live handle `x` has
`datapoint_equals(x, e) != 0`, `dynamic_array_delete(e)` returns 0 and leaves the
whole state (size, capacity, every slot of the backing store, the recorded
destroyer calls) as it was; no shrink is attempted, whatever the capacity and
the load. -/
theorem C5_delete_no_match (a : DynamicArray) (e : Ptr) (hv : Valid a)
    (habs : ∀ x ∈ live a, a.datapoint_equals x e = 0) :
    dynamic_array_delete a e = some (a, 0) := by
  have hn : a.size ≤ a.data.length := by have := hv.length_eq; have := hv.size_le; omega
  obtain ⟨b, hb, -, -, -, -, -, -, -, hsame⟩ := delete_spec a e hv
  have hfilter : (live a).filter (keeps a e) = live a := by
    apply List.filter_eq_self.2
    intro x hx
    simp [keeps, habs x hx]
  have hall : ((live a).filter (keeps a e)).length = a.size := by
    rw [hfilter, live_length a hn]
  rw [hb, hsame hall, if_pos hall]

/-- Witness of C5: capacity 8 above the minimum 2, one live handle (below the
threshold `(unsigned)(0.25 * 8) = 2`), and an argument that matches nothing. -/
theorem C5_delete_no_match_witness :
    (Valid ⟨[1, 0, 0, 0, 0, 0, 0, 0], 1, 8, 2, ⟨1, -2⟩, 77,
        fun x y => if x = y then 1 else 0, fun p => p, []⟩ ∧
      ∀ x ∈ live ⟨[1, 0, 0, 0, 0, 0, 0, 0], 1, 8, 2, ⟨1, -2⟩, 77,
        fun x y => if x = y then 1 else 0, fun p => p, []⟩,
        (fun x y : Ptr => if x = y then (1 : Int) else 0) x 9 = 0) ∧
    dynamic_array_delete
        ⟨[1, 0, 0, 0, 0, 0, 0, 0], 1, 8, 2, ⟨1, -2⟩, 77,
          fun x y => if x = y then 1 else 0, fun p => p, []⟩ 9
      = some (⟨[1, 0, 0, 0, 0, 0, 0, 0], 1, 8, 2, ⟨1, -2⟩, 77,
          fun x y => if x = y then 1 else 0, fun p => p, []⟩, 0) :=
  ⟨⟨⟨by decide, by decide, by decide, by decide, by decide⟩, by decide⟩,
    C5_delete_no_match
      ⟨[1, 0, 0, 0, 0, 0, 0, 0], 1, 8, 2, ⟨1, -2⟩, 77,
        fun x y => if x = y then 1 else 0, fun p => p, []⟩ 9
      ⟨by decide, by decide, by decide, by decide, by decide⟩ (by decide)⟩

end DynArr

namespace DynArr

/-! ## Positions -/

theorem int_of_unsigned_small (u : Nat) (h : u ≤ INT_MAX) : int_of_unsigned u = (u : Int) := by
  simp only [int_of_unsigned, if_pos h]

theorem int_checked_some (x : Int) (h1 : -(INT_MAX : Int) - 1 ≤ x) (h2 : x ≤ (INT_MAX : Int)) :
    int_checked x = some x := by
  simp only [int_checked, if_pos (And.intro h1 h2)]

theorem pos_in_bounds (size : Nat) (pos : Int) (hmax : size ≤ INT_MAX)
    (hlo : -(size : Int) ≤ pos) (hhi : pos ≤ (size : Int) - 1) :
    pos_out_of_bounds size pos = some false := by
  unfold pos_out_of_bounds
  rw [int_of_unsigned_small size hmax, int_checked_some _ (by omega) (by omega),
    int_checked_some _ (by omega) (by omega)]
  simp only [Option.some_bind, if_neg (show ¬ pos < -(size : Int) by omega), Option.map_some']
  simp only [decide_eq_false (show ¬ (size : Int) - 1 < pos by omega)]

theorem pos_out_of_range (size : Nat) (pos : Int) (hmax : size ≤ INT_MAX)
    (h : pos < -(size : Int) ∨ (size : Int) - 1 < pos) :
    pos_out_of_bounds size pos = some true := by
  unfold pos_out_of_bounds
  rw [int_of_unsigned_small size hmax, int_checked_some _ (by omega) (by omega),
    int_checked_some _ (by omega) (by omega)]
  simp only [Option.some_bind, Option.map_some']
  by_cases hlt : pos < -(size : Int)
  · simp only [if_pos hlt]
  · have hgt : (size : Int) - 1 < pos := by omega
    simp only [if_neg hlt, decide_eq_true hgt]

theorem resolve_pos_neg (size : Nat) (pos : Int) (hmax : size ≤ INT_MAX)
    (hlo : -(size : Int) ≤ pos) (hneg : pos < 0) :
    resolve_pos size pos = some (pos + (size : Int)) := by
  unfold resolve_pos
  rw [if_pos hneg, int_of_unsigned_small size hmax, int_checked_some _ (by omega) (by omega)]

theorem resolve_pos_nonneg (size : Nat) (pos : Int) (h : 0 ≤ pos) :
    resolve_pos size pos = some pos := by
  unfold resolve_pos
  rw [if_neg (by omega)]

theorem resolve_pos_index (size : Nat) (pos : Int) (hmax : size ≤ INT_MAX)
    (hlo : -(size : Int) ≤ pos) (hhi : pos ≤ (size : Int) - 1) :
    ∃ idx : Nat, idx < size ∧ (idx : Int) = (if pos < 0 then pos + (size : Int) else pos) ∧
      resolve_pos size pos = some (idx : Int) := by
  by_cases hneg : pos < 0
  · refine ⟨(pos + (size : Int)).toNat, by omega, ?_, ?_⟩
    · rw [if_pos hneg]; omega
    · rw [resolve_pos_neg size pos hmax hlo hneg]; congr 1; omega
  · refine ⟨pos.toNat, by omega, ?_, ?_⟩
    · rw [if_neg hneg]; omega
    · rw [resolve_pos_nonneg size pos (by omega)]; congr 1; omega

/-! ## Deletion at a position -/

theorem shift_loop_spec (data : List Ptr) (size idx : Nat) (hidx : idx < size)
    (hsz : size ≤ data.length) (hmax : size ≤ INT_MAX) :
    ∃ d1, for_int (fun i d => (read d i).bind fun v => write_int d ((i : Int) - 1) v)
        (size - (idx + 1)) (idx + 1) (data.set idx NULL) = some d1 ∧
      d1.length = data.length ∧
      ∀ k, d1[k]? = if k < idx then data[k]? else if k + 1 < size then data[k + 1]?
        else if k = idx then some NULL else data[k]? := by
  obtain ⟨d1, hd1, hinv⟩ := for_int_inv
    (fun i d => (read d i).bind fun v => write_int d ((i : Int) - 1) v)
    (fun j d => d.length = data.length ∧
      ∀ k, d[k]? = if k < idx then data[k]? else if k + 1 < j then data[k + 1]?
        else if k = idx then some NULL else data[k]?)
    (size - (idx + 1)) (idx + 1) (data.set idx NULL) (by omega)
    (by
      refine ⟨List.length_set _ _ _, ?_⟩
      intro k
      simp only [List.getElem?_set]
      split_ifs <;> first | rfl | omega)
    (by
      intro j d hj1 hj2 hd
      obtain ⟨hdlen, hdk⟩ := hd
      have hjl : j < data.length := by omega
      have hr : read d j = some data[j] := by
        simp only [read, hdk j]
        rw [if_neg (by omega), if_neg (by omega), if_neg (by omega),
          List.getElem?_eq_getElem hjl]
      have hw : write_int d ((j : Int) - 1) data[j] = some (d.set (j - 1) data[j]) := by
        have e1 : ((j : Int) - 1).toNat = j - 1 := by omega
        simp only [write_int, if_neg (show ¬ ((j : Int) - 1 < 0) by omega), write, e1,
          if_pos (show j - 1 < d.length by omega)]
      refine ⟨d.set (j - 1) data[j], by simp only [hr, Option.some_bind, hw], ?_, ?_⟩
      · rw [List.length_set]; exact hdlen
      · intro k
        simp only [List.getElem?_set, hdk k, hdlen]
        split_ifs <;> first | rfl | omega | skip
        all_goals
          have e2 : k + 1 = j := by omega
          rw [e2, List.getElem?_eq_getElem hjl])
  have e : idx + 1 + (size - (idx + 1)) = size := by omega
  rw [e] at hinv
  exact ⟨d1, hd1, hinv.1, hinv.2⟩

end DynArr

namespace DynArr

theorem erase_slot_eq (data d1 : List Ptr) (size idx : Nat) (hidx : idx < size)
    (hsz : size ≤ data.length) (hlen : d1.length = data.length)
    (hk : ∀ k, d1[k]? = if k < idx then data[k]? else if k + 1 < size then data[k + 1]?
      else if k = idx then some NULL else data[k]?) :
    d1.set (size - 1) NULL
      = data.take idx
          ++ ((data.drop (idx + 1)).take (size - (idx + 1)) ++ NULL :: data.drop size) := by
  apply List.ext_getElem?
  intro k
  simp only [List.getElem?_set, hk k, hlen, List.getElem?_append, List.length_take,
    List.length_drop, List.getElem?_take, List.getElem?_drop, List.getElem?_cons]
  have h1 : min idx data.length = idx := by omega
  have h2 : min (size - (idx + 1)) (data.length - (idx + 1)) = size - (idx + 1) := by omega
  simp only [h1, h2]
  split_ifs <;> first | rfl | omega | (congr 1; omega)

theorem live_erase_slot (data : List Ptr) (size idx : Nat) (hidx : idx < size)
    (hsz : size ≤ data.length) :
    (data.take idx
        ++ ((data.drop (idx + 1)).take (size - (idx + 1)) ++ NULL :: data.drop size)).take
          (size - 1)
      = (data.take size).eraseIdx idx := by
  apply List.ext_getElem?
  intro k
  simp only [List.getElem?_take, List.getElem?_append, List.length_take, List.length_drop,
    List.getElem?_drop, List.getElem?_cons, List.getElem?_eraseIdx]
  have h1 : min idx data.length = idx := by omega
  have h2 : min (size - (idx + 1)) (data.length - (idx + 1)) = size - (idx + 1) := by omega
  simp only [h1, h2]
  split_ifs <;> first | rfl | omega | (congr 1; omega)

/-- The shrink step that ends `dynamic_array_delete_at_pos`. -/
theorem delete_at_pos_tail (b : DynamicArray) (hlen : b.data.length = b.capacity)
    (hsz : b.size ≤ b.capacity) (hmax : b.size ≤ INT_MAX) (hR : b.capacity < UINT_RANGE)
    (hlf : b.minimum_percentage_allowed.lt_one) :
    ∃ c, ((shrink_test b b.capacity).bind fun t =>
        if t = true then
          (_dynamic_array_change_capacity b (b.capacity / 2)).map fun c => (c, (1 : Int))
        else some (b, 1)) = some (c, 1) ∧
      c.size = b.size ∧ live c = live b ∧ c.size ≤ c.data.length ∧
      c.data.length = c.capacity ∧ c.datapoint_equals = b.datapoint_equals ∧
      c.datapoint_copy = b.datapoint_copy ∧
      c.minimum_capacity = b.minimum_capacity ∧ c.events = b.events := by
  obtain ⟨t, ht⟩ := shrink_test_some b b.capacity hlf hR
  rw [ht]
  simp only [Option.some_bind]
  cases t with
  | false =>
    simp only [Bool.false_eq_true, if_false]
    exact ⟨b, rfl, rfl, rfl, by omega, hlen, rfl, rfl, rfl, rfl⟩
  | true =>
    simp only [if_true]
    obtain ⟨c, hc, hcsize, hclive, hcn, hceq, hccp, hcev, hcmin, -, hclen⟩ :=
      change_capacity_live b (b.capacity / 2) (by omega) (by omega)
    rw [hc]
    simp only [Option.map_some']
    exact ⟨c, rfl, hcsize, hclive, hcn, hclen hlen, hceq, hccp, hcmin, hcev⟩

/-- Result of `dynamic_array_delete_at_pos` on a valid state for a position
that passes the bounds test and resolves to the index `idx`. -/
theorem delete_at_pos_spec (a : DynamicArray) (pos : Int) (idx : Nat) (hv : Valid a)
    (hpos : pos_out_of_bounds a.size pos = some false)
    (hres : resolve_pos a.size pos = some (idx : Int)) (hidx : idx < a.size) :
    ∃ b x, dynamic_array_delete_at_pos a pos = some (b, 1) ∧
      a.data[idx]? = some x ∧
      b.size = a.size - 1 ∧ live b = (live a).eraseIdx idx ∧
      b.size ≤ b.data.length ∧ b.data.length = b.capacity ∧
      b.datapoint_equals = a.datapoint_equals ∧ b.datapoint_copy = a.datapoint_copy ∧
      b.minimum_capacity = a.minimum_capacity ∧
      b.events = a.events ++ [Event.destroyer a.datapoint_destroyer x] := by
  obtain ⟨hlen, hsz, hmax, hR, hlf⟩ := hv
  have hil : idx < a.data.length := by omega
  obtain ⟨d1, hd1, hd1len, hd1k⟩ :=
    shift_loop_spec a.data a.size idx hidx (by omega) (by omega)
  have hread : read_int a.data (idx : Int) = some a.data[idx] := by
    simp only [read_int, if_neg (show ¬ ((idx : Int) < 0) by omega), read, Int.toNat_ofNat,
      List.getElem?_eq_getElem hil]
  have hwrite : write_int a.data (idx : Int) NULL = some (a.data.set idx NULL) := by
    simp only [write_int, if_neg (show ¬ ((idx : Int) < 0) by omega), write, Int.toNat_ofNat,
      if_pos hil]
  have hsucc : int_checked ((idx : Int) + 1) = some ((idx + 1 : Nat) : Int) := by
    rw [int_checked_some _ (by omega) (by omega)]; rfl
  have hmod : (a.size + UINT_RANGE - 1) % UINT_RANGE = a.size - 1 := by
    have e1 : a.size + UINT_RANGE - 1 = (a.size - 1) + UINT_RANGE := by omega
    rw [e1, Nat.add_mod_right]
    apply Nat.mod_eq_of_lt
    simp only [INT_MAX] at hmax; simp only [UINT_RANGE]; omega
  have hw2 : write d1 (a.size - 1) NULL
      = some (a.data.take idx
          ++ ((a.data.drop (idx + 1)).take (a.size - (idx + 1))
            ++ NULL :: a.data.drop a.size)) := by
    simp only [write, if_pos (show a.size - 1 < d1.length by omega)]
    rw [erase_slot_eq a.data d1 a.size idx hidx (by omega) hd1len hd1k]
  obtain ⟨c, hc, hcsize, hclive, hcn, hclen, hceq, hccp, hcmin, hcev⟩ :=
    delete_at_pos_tail
      { a with
        data := a.data.take idx
          ++ ((a.data.drop (idx + 1)).take (a.size - (idx + 1))
            ++ NULL :: a.data.drop a.size)
        size := a.size - 1
        events := a.events ++ [Event.destroyer a.datapoint_destroyer a.data[idx]] }
      (by
        simp only [List.length_append, List.length_take, List.length_drop, List.length_cons]
        omega)
      (by simp only; omega) (by simp only; omega) hR hlf
  refine ⟨c, a.data[idx], ?_, List.getElem?_eq_getElem hil, hcsize, ?_, hcn, hclen, hceq,
    hccp, hcmin, hcev⟩
  · unfold dynamic_array_delete_at_pos
    simp only [hpos, Option.some_bind, Bool.false_eq_true, if_false, hres, hread, hwrite,
      hsucc, Int.toNat_ofNat, hd1, hmod, hw2]
    exact hc
  · rw [hclive]
    simp only [live]
    exact live_erase_slot a.data a.size idx hidx (by omega)

end DynArr

namespace DynArr

/-- C6 (amended): on every valid container of size `n` with
`1 <= n <= INT_MAX` and for every `pos` with `-n <= pos <= n - 1`, `dynamic_array_delete_at_pos(pos)` returns 1, the new size
is `n - 1`, and the new live sequence is the old one with exactly the element at
the resolved index (`pos` if `pos >= 0`, else `pos + n`) removed, the others
keeping their order. -/
theorem C6_delete_at_pos_in_range (a : DynamicArray) (pos : Int) (hv : Valid a)
    (hn : 1 ≤ a.size) (hlo : -(a.size : Int) ≤ pos) (hhi : pos ≤ (a.size : Int) - 1) :
    ∃ b, dynamic_array_delete_at_pos a pos = some (b, 1) ∧
      b.size + 1 = a.size ∧
      live b = (live a).eraseIdx (if pos < 0 then pos + (a.size : Int) else pos).toNat := by
  have hmax : a.size ≤ INT_MAX := hv.size_int
  obtain ⟨idx, hidx, hidxeq, hres⟩ := resolve_pos_index a.size pos hmax hlo hhi
  obtain ⟨b, x, hb, -, hsize, hlive, -⟩ :=
    delete_at_pos_spec a pos idx hv (pos_in_bounds a.size pos hmax hlo hhi) hres hidx
  refine ⟨b, hb, by omega, ?_⟩
  rw [hlive, ← hidxeq, Int.toNat_ofNat]

/-- Witness of C6: deleting position -2 of the live sequence 1, 2, 3, 2, 5. -/
theorem C6_delete_at_pos_in_range_witness :
    (Valid ⟨[1, 2, 3, 2, 5, 0, 0, 0], 5, 8, 4, ⟨1, -2⟩, 77,
        fun x y => if x = y then 1 else 0, fun p => p, []⟩ ∧
      1 ≤ 5 ∧ -((5 : Nat) : Int) ≤ -2 ∧ (-2 : Int) ≤ ((5 : Nat) : Int) - 1) ∧
    ∃ b, dynamic_array_delete_at_pos
        ⟨[1, 2, 3, 2, 5, 0, 0, 0], 5, 8, 4, ⟨1, -2⟩, 77,
          fun x y => if x = y then 1 else 0, fun p => p, []⟩ (-2) = some (b, 1) ∧
      b.size + 1 = 5 ∧
      live b = (live ⟨[1, 2, 3, 2, 5, 0, 0, 0], 5, 8, 4, ⟨1, -2⟩, 77,
          fun x y => if x = y then 1 else 0, fun p => p, []⟩).eraseIdx
        (if (-2 : Int) < 0 then -2 + ((5 : Nat) : Int) else -2).toNat :=
  ⟨⟨⟨by decide, by decide, by decide, by decide, by decide⟩, by decide, by decide, by decide⟩,
    C6_delete_at_pos_in_range
      ⟨[1, 2, 3, 2, 5, 0, 0, 0], 5, 8, 4, ⟨1, -2⟩, 77,
        fun x y => if x = y then 1 else 0, fun p => p, []⟩ (-2)
      ⟨by decide, by decide, by decide, by decide, by decide⟩ (by decide) (by decide) (by decide)⟩

theorem get_spec (a : DynamicArray) (pos : Int) (idx : Nat)
    (hpos : pos_out_of_bounds a.size pos = some false)
    (hres : resolve_pos a.size pos = some (idx : Int)) (hil : idx < a.data.length) :
    dynamic_array_get a pos = some (a.datapoint_copy a.data[idx]) := by
  unfold dynamic_array_get
  simp only [hpos, Option.some_bind, Bool.false_eq_true, if_false, hres, read_int,
    if_neg (show ¬ ((idx : Int) < 0) by omega), read, Int.toNat_ofNat,
    List.getElem?_eq_getElem hil, Option.map_some']

/-- C7: on every valid container of size `n` and for every `k` with
`1 <= k <= n`, `dynamic_array_delete_at_pos(-k)` and
`dynamic_array_delete_at_pos(n - k)` give the same returned value and the same
resulting state, which is a successful deletion, and `dynamic_array_get(-k)` and
`dynamic_array_get(n - k)` give the same handle, the copy of slot `n - k`. -/
theorem C7_negative_position (a : DynamicArray) (k : Nat) (hv : Valid a)
    (hk1 : 1 ≤ k) (hk2 : k ≤ a.size) :
    dynamic_array_delete_at_pos a (-(k : Int))
        = dynamic_array_delete_at_pos a ((a.size : Int) - (k : Int)) ∧
      (∃ b, dynamic_array_delete_at_pos a (-(k : Int)) = some (b, 1)) ∧
      dynamic_array_get a (-(k : Int)) = dynamic_array_get a ((a.size : Int) - (k : Int)) ∧
      (∃ x, a.data[a.size - k]? = some x ∧
        dynamic_array_get a (-(k : Int)) = some (a.datapoint_copy x)) := by
  have hmax : a.size ≤ INT_MAX := hv.size_int
  have hlen : a.size ≤ a.data.length := by have := hv.length_eq; have := hv.size_le; omega
  have hidx : a.size - k < a.size := by omega
  have hil : a.size - k < a.data.length := by omega
  have hp1 := pos_in_bounds a.size (-(k : Int)) hmax (by omega) (by omega)
  have hp2 := pos_in_bounds a.size ((a.size : Int) - (k : Int)) hmax (by omega) (by omega)
  have hr1 : resolve_pos a.size (-(k : Int)) = some ((a.size - k : Nat) : Int) := by
    rw [resolve_pos_neg a.size _ hmax (by omega) (by omega)]; congr 1; omega
  have hr2 : resolve_pos a.size ((a.size : Int) - (k : Int))
      = some ((a.size - k : Nat) : Int) := by
    rw [resolve_pos_nonneg a.size _ (by omega)]; congr 1; omega
  obtain ⟨b, x, hb1, -⟩ := delete_at_pos_spec a _ (a.size - k) hv hp1 hr1 hidx
  obtain ⟨b', x', hb2, -⟩ := delete_at_pos_spec a _ (a.size - k) hv hp2 hr2 hidx
  refine ⟨?_, ⟨b, hb1⟩, ?_, ⟨a.data[a.size - k], List.getElem?_eq_getElem hil, ?_⟩⟩
  · unfold dynamic_array_delete_at_pos
    simp only [hp1, hp2, hr1, hr2]
  · rw [get_spec a _ (a.size - k) hp1 hr1 hil, get_spec a _ (a.size - k) hp2 hr2 hil]
  · exact get_spec a _ (a.size - k) hp1 hr1 hil

/-- Witness of C7: positions -2 and 3 of a container of size 5. -/
theorem C7_negative_position_witness :
    (Valid ⟨[1, 2, 3, 2, 5, 0, 0, 0], 5, 8, 4, ⟨1, -2⟩, 77,
        fun x y => if x = y then 1 else 0, fun p => p + 100, []⟩ ∧ 1 ≤ 2 ∧ 2 ≤ 5) ∧
    (dynamic_array_delete_at_pos
        ⟨[1, 2, 3, 2, 5, 0, 0, 0], 5, 8, 4, ⟨1, -2⟩, 77,
          fun x y => if x = y then 1 else 0, fun p => p + 100, []⟩ (-((2 : Nat) : Int))
      = dynamic_array_delete_at_pos
        ⟨[1, 2, 3, 2, 5, 0, 0, 0], 5, 8, 4, ⟨1, -2⟩, 77,
          fun x y => if x = y then 1 else 0, fun p => p + 100, []⟩
        (((5 : Nat) : Int) - ((2 : Nat) : Int)) ∧
      (∃ b, dynamic_array_delete_at_pos
        ⟨[1, 2, 3, 2, 5, 0, 0, 0], 5, 8, 4, ⟨1, -2⟩, 77,
          fun x y => if x = y then 1 else 0, fun p => p + 100, []⟩ (-((2 : Nat) : Int))
        = some (b, 1)) ∧
      dynamic_array_get
        ⟨[1, 2, 3, 2, 5, 0, 0, 0], 5, 8, 4, ⟨1, -2⟩, 77,
          fun x y => if x = y then 1 else 0, fun p => p + 100, []⟩ (-((2 : Nat) : Int))
      = dynamic_array_get
        ⟨[1, 2, 3, 2, 5, 0, 0, 0], 5, 8, 4, ⟨1, -2⟩, 77,
          fun x y => if x = y then 1 else 0, fun p => p + 100, []⟩
        (((5 : Nat) : Int) - ((2 : Nat) : Int)) ∧
      ∃ x, ([1, 2, 3, 2, 5, 0, 0, 0] : List Ptr)[5 - 2]? = some x ∧
        dynamic_array_get
          ⟨[1, 2, 3, 2, 5, 0, 0, 0], 5, 8, 4, ⟨1, -2⟩, 77,
            fun x y => if x = y then 1 else 0, fun p => p + 100, []⟩ (-((2 : Nat) : Int))
        = some ((fun p => p + 100) x)) :=
  ⟨⟨⟨by decide, by decide, by decide, by decide, by decide⟩, by decide, by decide⟩,
    C7_negative_position
      ⟨[1, 2, 3, 2, 5, 0, 0, 0], 5, 8, 4, ⟨1, -2⟩, 77,
        fun x y => if x = y then 1 else 0, fun p => p + 100, []⟩ 2
      ⟨by decide, by decide, by decide, by decide, by decide⟩ (by decide) (by decide)⟩

/-- C8: on every valid container of size `n` (also `n = 0`) and for every `pos`
with `pos < -n` or `pos > n - 1`, `dynamic_array_delete_at_pos(pos)` returns 0 and
leaves the whole state as it was, and `dynamic_array_get(pos)` returns `NULL`
(a read of the state, which it does not change). -/
theorem C8_position_out_of_range (a : DynamicArray) (pos : Int) (hv : Valid a)
    (h : pos < -(a.size : Int) ∨ (a.size : Int) - 1 < pos) :
    dynamic_array_delete_at_pos a pos = some (a, 0) ∧
      dynamic_array_get a pos = some NULL := by
  have hmax : a.size ≤ INT_MAX := hv.size_int
  have hp := pos_out_of_range a.size pos hmax h
  constructor
  · unfold dynamic_array_delete_at_pos
    simp only [hp, Option.some_bind, if_true]
  · unfold dynamic_array_get
    simp only [hp, Option.some_bind, if_true]

/-- Witness of C8: on the empty container of capacity 4, `delete_at_pos(-1)`
and `get(0)` both fail. -/
theorem C8_position_out_of_range_witness :
    (Valid ⟨[0, 0, 0, 0], 0, 4, 4, ⟨1, -2⟩, 77,
        fun x y => if x = y then 1 else 0, fun p => p, []⟩ ∧
      ((-1 : Int) < -((0 : Nat) : Int) ∨ ((0 : Nat) : Int) - 1 < -1) ∧
      ((0 : Int) < -((0 : Nat) : Int) ∨ ((0 : Nat) : Int) - 1 < 0)) ∧
    dynamic_array_delete_at_pos
        ⟨[0, 0, 0, 0], 0, 4, 4, ⟨1, -2⟩, 77,
          fun x y => if x = y then 1 else 0, fun p => p, []⟩ (-1)
      = some (⟨[0, 0, 0, 0], 0, 4, 4, ⟨1, -2⟩, 77,
          fun x y => if x = y then 1 else 0, fun p => p, []⟩, 0) ∧
    dynamic_array_get
        ⟨[0, 0, 0, 0], 0, 4, 4, ⟨1, -2⟩, 77,
          fun x y => if x = y then 1 else 0, fun p => p, []⟩ 0 = some NULL :=
  ⟨⟨⟨by decide, by decide, by decide, by decide, by decide⟩, by decide, by decide⟩,
    (C8_position_out_of_range
      ⟨[0, 0, 0, 0], 0, 4, 4, ⟨1, -2⟩, 77,
        fun x y => if x = y then 1 else 0, fun p => p, []⟩ (-1)
      ⟨by decide, by decide, by decide, by decide, by decide⟩ (by decide)).1,
    (C8_position_out_of_range
      ⟨[0, 0, 0, 0], 0, 4, 4, ⟨1, -2⟩, 77,
        fun x y => if x = y then 1 else 0, fun p => p, []⟩ 0
      ⟨by decide, by decide, by decide, by decide, by decide⟩ (by decide)).2⟩

end DynArr

namespace DynArr

/-! ## Clearing -/

theorem clear_loop_spec (data : List Ptr) (events : List Event) (fn : Ptr) (n : Nat)
    (hn : n ≤ data.length) (hmax : n ≤ INT_MAX) :
    for_int
        (fun i (st : List Ptr × List Event) => (read st.1 i).bind fun x =>
          (write st.1 i NULL).map fun d => (d, st.2 ++ [Event.destroyer fn x]))
        n 0 (data, events)
      = some (List.replicate n NULL ++ data.drop n,
          events ++ (data.take n).map (Event.destroyer fn)) := by
  obtain ⟨st, hst, hinv⟩ := for_int_inv
    (fun i (st : List Ptr × List Event) => (read st.1 i).bind fun x =>
      (write st.1 i NULL).map fun d => (d, st.2 ++ [Event.destroyer fn x]))
    (fun j st => st = (List.replicate j NULL ++ data.drop j,
      events ++ (data.take j).map (Event.destroyer fn)))
    n 0 (data, events) (by omega) (by simp)
    (by
      intro j s _ hj hs
      have hjl : j < data.length := by omega
      have hdrop : data.drop j = data[j] :: data.drop (j + 1) := List.drop_eq_getElem_cons hjl
      have htake : data.take (j + 1) = data.take j ++ [data[j]] := by
        rw [List.take_succ, List.getElem?_eq_getElem hjl]; rfl
      have hr : (List.replicate j NULL ++ data[j] :: data.drop (j + 1))[j]? = some data[j] := by
        have h := scan_read [] (data.drop (j + 1)) j j data[j] (by simp)
        simpa using h
      have hw : (List.replicate j NULL ++ data[j] :: data.drop (j + 1)).set j NULL
          = List.replicate (j + 1) NULL ++ data.drop (j + 1) := by
        have h := scan_mark [] (data.drop (j + 1)) j j data[j] (by simp)
        simpa using h
      have hlen : j < (List.replicate j NULL ++ data[j] :: data.drop (j + 1)).length := by
        simp only [List.length_append, List.length_replicate, List.length_cons]; omega
      refine ⟨_, ?_, rfl⟩
      rw [hs]
      simp only [hdrop, read, hr, Option.some_bind, write, if_pos hlen, Option.map_some', hw,
        htake, List.map_append, List.map_cons, List.map_nil, List.append_assoc])
  rw [hst]
  simp only [Nat.zero_add] at hinv
  rw [hinv]

/-- Result of `dynamic_array_clear`. -/
theorem clear_spec (a : DynamicArray) (hn : a.size ≤ a.data.length)
    (hmax : a.size ≤ INT_MAX) :
    dynamic_array_clear a
      = some (if a.capacity > a.minimum_capacity then
          { a with
            data := List.replicate a.minimum_capacity NULL
            events := a.events ++ (live a).map (Event.destroyer a.datapoint_destroyer)
            size := 0
            capacity := a.minimum_capacity }
        else
          { a with
            data := List.replicate a.size NULL ++ a.data.drop a.size
            events := a.events ++ (live a).map (Event.destroyer a.datapoint_destroyer)
            size := 0 }) := by
  unfold dynamic_array_clear
  rw [clear_loop_spec a.data a.events a.datapoint_destroyer a.size hn hmax]
  simp only [Option.some_bind]
  by_cases hgt : a.capacity > a.minimum_capacity
  · simp only [if_pos hgt]
    rw [change_capacity_spec _ a.minimum_capacity (Nat.zero_le _) (Nat.zero_le _)
      (Nat.zero_le _)]
    simp only [List.take_zero, List.nil_append, Nat.sub_zero, live]
  · simp only [if_neg hgt, live]

/-- C9: on every valid container, `dynamic_array_clear` returns with size 0; the
capacity afterwards is `minimum_capacity` if the capacity exceeded it beforehand
(one resize, straight to the minimum), and is unchanged otherwise; the backing
store then has `capacity` slots. -/
theorem C9_clear (a : DynamicArray) (hv : Valid a) :
    ∃ b, dynamic_array_clear a = some b ∧ b.size = 0 ∧
      b.capacity = (if a.capacity > a.minimum_capacity then a.minimum_capacity
        else a.capacity) ∧
      b.data.length = b.capacity := by
  have hn : a.size ≤ a.data.length := by have := hv.length_eq; have := hv.size_le; omega
  have hmax : a.size ≤ INT_MAX := hv.size_int
  refine ⟨_, clear_spec a hn hmax, ?_, ?_, ?_⟩
  · split_ifs <;> rfl
  · split_ifs <;> rfl
  · have := hv.length_eq
    split_ifs
    · simp only [List.length_replicate]
    · simp only [List.length_append, List.length_replicate, List.length_drop]; omega

/-- Witness of C9: clearing five elements held at capacity 8 over a minimum of 4. -/
theorem C9_clear_witness :
    Valid ⟨[1, 2, 3, 2, 5, 0, 0, 0], 5, 8, 4, ⟨1, -2⟩, 77,
        fun x y => if x = y then 1 else 0, fun p => p, []⟩ ∧
    ∃ b, dynamic_array_clear
        ⟨[1, 2, 3, 2, 5, 0, 0, 0], 5, 8, 4, ⟨1, -2⟩, 77,
          fun x y => if x = y then 1 else 0, fun p => p, []⟩ = some b ∧
      b.size = 0 ∧ b.capacity = (if 8 > 4 then 4 else 8) ∧ b.data.length = b.capacity :=
  ⟨⟨by decide, by decide, by decide, by decide, by decide⟩,
    C9_clear
      ⟨[1, 2, 3, 2, 5, 0, 0, 0], 5, 8, 4, ⟨1, -2⟩, 77,
        fun x y => if x = y then 1 else 0, fun p => p, []⟩
      ⟨by decide, by decide, by decide, by decide, by decide⟩⟩

end DynArr

namespace DynArr

/-! ## Capacity along sequences of calls -/

theorem change_capacity_cap (a b : DynamicArray) (N : Nat)
    (h : _dynamic_array_change_capacity a N = some b) :
    b.minimum_capacity = a.minimum_capacity ∧ b.size = a.size ∧
      (b.capacity = a.capacity ∨ (b.capacity = N ∧ a.size ≤ N)) := by
  unfold _dynamic_array_change_capacity at h
  by_cases hgt : a.size > N
  · rw [if_pos hgt] at h
    cases h
    exact ⟨rfl, rfl, Or.inl rfl⟩
  · rw [if_neg hgt] at h
    obtain ⟨d, -, hd⟩ := Option.map_eq_some'.1 h
    subst hd
    exact ⟨rfl, rfl, Or.inr ⟨rfl, Nat.le_of_not_lt hgt⟩⟩

theorem append_cap (a b : DynamicArray) (e : Ptr) (h : dynamic_array_append a e = some b) :
    b.minimum_capacity = a.minimum_capacity ∧
      (b.capacity = a.capacity ∨ b.capacity = 2 * a.capacity) := by
  unfold dynamic_array_append at h
  obtain ⟨a', ha', h2⟩ := Option.bind_eq_some.1 h
  obtain ⟨d, -, hd⟩ := Option.map_eq_some'.1 h2
  subst hd
  by_cases hfull : a.size = a.capacity
  · rw [if_pos hfull] at ha'
    obtain ⟨hmin, -, hcap⟩ := change_capacity_cap a a' _ ha'
    refine ⟨hmin, ?_⟩
    rcases hcap with hc | ⟨hc, hle⟩
    · exact Or.inl hc
    · right
      simp only [UINT_RANGE] at hc hle
      simp only [hc]
      omega
  · rw [if_neg hfull] at ha'
    cases ha'
    exact ⟨rfl, Or.inl rfl⟩

theorem shrink_test_true (b : DynamicArray) (c : Nat) (h : shrink_test b c = some true) :
    c > b.minimum_capacity := by
  unfold shrink_test at h
  by_cases hgt : c > b.minimum_capacity
  · exact hgt
  · rw [if_neg hgt] at h
    cases h

theorem delete_cap (a b : DynamicArray) (e : Ptr) (r : Int)
    (h : dynamic_array_delete a e = some (b, r)) :
    b.minimum_capacity = a.minimum_capacity ∧
      (b.capacity = a.capacity ∨
        (a.capacity > a.minimum_capacity ∧ b.capacity = a.capacity / 2) ∨
        (a.capacity / 2 > a.minimum_capacity ∧ b.capacity = a.capacity / 2 / 2)) := by
  unfold dynamic_array_delete at h
  obtain ⟨st, -, h1⟩ := Option.bind_eq_some.1 h
  simp only at h1
  by_cases h0 : st.deletions_occured = 0
  · rw [if_pos h0] at h1
    cases h1
    exact ⟨rfl, Or.inl rfl⟩
  · rw [if_neg h0] at h1
    obtain ⟨t1, ht1, h2⟩ := Option.bind_eq_some.1 h1
    cases t1 with
    | false =>
      simp only [Bool.false_eq_true, if_false] at h2
      cases h2
      exact ⟨rfl, Or.inl rfl⟩
    | true =>
      simp only [if_true] at h2
      have hgt1 := shrink_test_true _ _ ht1
      obtain ⟨t2, ht2, h3⟩ := Option.bind_eq_some.1 h2
      have hgt2 : t2 = true → a.capacity / 2 > a.minimum_capacity := by
        intro ht; rw [ht] at ht2
        have hgt := shrink_test_true _ _ ht2
        exact hgt
      obtain ⟨c, hc, hcb⟩ := Option.map_eq_some'.1 h3
      cases hcb
      obtain ⟨hmin, -, hcap⟩ := change_capacity_cap _ _ _ hc
      refine ⟨hmin, ?_⟩
      rcases hcap with hcap | ⟨hcap, -⟩
      · exact Or.inl hcap
      · cases t2 with
        | false =>
          simp only [Bool.false_eq_true, if_false] at hcap
          exact Or.inr (Or.inl ⟨hgt1, hcap⟩)
        | true =>
          simp only [if_true] at hcap
          exact Or.inr (Or.inr ⟨hgt2 rfl, hcap⟩)

theorem delete_at_pos_cap (a b : DynamicArray) (pos : Int) (r : Int)
    (h : dynamic_array_delete_at_pos a pos = some (b, r)) :
    b.minimum_capacity = a.minimum_capacity ∧
      (b.capacity = a.capacity ∨
        (a.capacity > a.minimum_capacity ∧ b.capacity = a.capacity / 2)) := by
  unfold dynamic_array_delete_at_pos at h
  obtain ⟨oob, -, h1⟩ := Option.bind_eq_some.1 h
  cases oob with
  | true =>
    simp only [if_true] at h1
    cases h1
    exact ⟨rfl, Or.inl rfl⟩
  | false =>
    simp only [Bool.false_eq_true, if_false] at h1
    obtain ⟨p, -, h2⟩ := Option.bind_eq_some.1 h1
    obtain ⟨x, -, h3⟩ := Option.bind_eq_some.1 h2
    obtain ⟨d0, -, h4⟩ := Option.bind_eq_some.1 h3
    obtain ⟨lo, -, h5⟩ := Option.bind_eq_some.1 h4
    obtain ⟨d1, -, h6⟩ := Option.bind_eq_some.1 h5
    obtain ⟨d2, -, h7⟩ := Option.bind_eq_some.1 h6
    obtain ⟨t, ht, h8⟩ := Option.bind_eq_some.1 h7
    cases t with
    | false =>
      simp only [Bool.false_eq_true, if_false] at h8
      cases h8
      exact ⟨rfl, Or.inl rfl⟩
    | true =>
      simp only [if_true] at h8
      have hgt := shrink_test_true _ _ ht
      obtain ⟨c, hc, hcb⟩ := Option.map_eq_some'.1 h8
      cases hcb
      obtain ⟨hmin, -, hcap⟩ := change_capacity_cap _ _ _ hc
      refine ⟨hmin, ?_⟩
      rcases hcap with hcap | ⟨hcap, -⟩
      · exact Or.inl hcap
      · exact Or.inr ⟨hgt, hcap⟩

theorem clear_cap (a b : DynamicArray) (h : dynamic_array_clear a = some b) :
    b.minimum_capacity = a.minimum_capacity ∧
      (b.capacity = a.capacity ∨ b.capacity = a.minimum_capacity) := by
  unfold dynamic_array_clear at h
  obtain ⟨st, -, h1⟩ := Option.bind_eq_some.1 h
  simp only at h1
  by_cases hgt : a.capacity > a.minimum_capacity
  · rw [if_pos hgt] at h1
    obtain ⟨hmin, -, hcap⟩ := change_capacity_cap _ _ _ h1
    refine ⟨hmin, ?_⟩
    rcases hcap with hcap | ⟨hcap, -⟩
    · exact Or.inl hcap
    · exact Or.inr hcap
  · rw [if_neg hgt] at h1
    cases h1
    exact ⟨rfl, Or.inl rfl⟩

theorem halve_multiple (m k : Nat) (h : m * 2 ^ k > m) :
    ∃ k', m * 2 ^ k / 2 = m * 2 ^ k' := by
  cases k with
  | zero => simp at h
  | succ k =>
    refine ⟨k, ?_⟩
    rw [Nat.pow_succ, ← Nat.mul_assoc, Nat.mul_div_cancel _ (by decide)]

theorem step_capacity (m : Nat) (a b : DynamicArray) (op : Op) (h : step a op = some b)
    (hmin : a.minimum_capacity = m) (hcap : ∃ k, a.capacity = m * 2 ^ k) :
    b.minimum_capacity = m ∧ ∃ k, b.capacity = m * 2 ^ k := by
  obtain ⟨k, hk⟩ := hcap
  cases op with
  | append e =>
    obtain ⟨h1, h2⟩ := append_cap a b e h
    refine ⟨by rw [h1, hmin], ?_⟩
    rcases h2 with h2 | h2
    · exact ⟨k, by rw [h2, hk]⟩
    · exact ⟨k + 1, by rw [h2, hk, Nat.pow_succ]; ring⟩
  | delete e =>
    obtain ⟨⟨b', r⟩, hb, hfst⟩ := Option.map_eq_some'.1 h
    simp only at hfst
    subst hfst
    obtain ⟨h1, h2⟩ := delete_cap a b' e r hb
    refine ⟨by rw [h1, hmin], ?_⟩
    rcases h2 with h2 | ⟨hgt, h2⟩ | ⟨hgt, h2⟩
    · exact ⟨k, by rw [h2, hk]⟩
    · rw [hk, hmin] at hgt
      obtain ⟨k', hk'⟩ := halve_multiple m k hgt
      exact ⟨k', by rw [h2, hk, hk']⟩
    · rw [hk, hmin] at hgt
      have hgt0 : m * 2 ^ k > m := by omega
      obtain ⟨k', hk'⟩ := halve_multiple m k hgt0
      rw [hk'] at hgt
      obtain ⟨k'', hk''⟩ := halve_multiple m k' hgt
      exact ⟨k'', by rw [h2, hk, hk', hk'']⟩
  | delete_at_pos pos =>
    obtain ⟨⟨b', r⟩, hb, hfst⟩ := Option.map_eq_some'.1 h
    simp only at hfst
    subst hfst
    obtain ⟨h1, h2⟩ := delete_at_pos_cap a b' pos r hb
    refine ⟨by rw [h1, hmin], ?_⟩
    rcases h2 with h2 | ⟨hgt, h2⟩
    · exact ⟨k, by rw [h2, hk]⟩
    · rw [hk, hmin] at hgt
      obtain ⟨k', hk'⟩ := halve_multiple m k hgt
      exact ⟨k', by rw [h2, hk, hk']⟩
  | clear =>
    obtain ⟨h1, h2⟩ := clear_cap a b h
    refine ⟨by rw [h1, hmin], ?_⟩
    rcases h2 with h2 | h2
    · exact ⟨k, by rw [h2, hk]⟩
    · exact ⟨0, by rw [h2, hmin]; simp⟩

theorem run_capacity (m : Nat) (ops : List Op) :
    ∀ (a b : DynamicArray), run a ops = some b → a.minimum_capacity = m →
      (∃ k, a.capacity = m * 2 ^ k) →
      b.minimum_capacity = m ∧ ∃ k, b.capacity = m * 2 ^ k := by
  induction ops with
  | nil =>
    intro a b h hmin hcap
    cases h
    exact ⟨hmin, hcap⟩
  | cons op ops ih =>
    intro a b h hmin hcap
    obtain ⟨c, hc, hrun⟩ := Option.bind_eq_some.1 h
    obtain ⟨hmin', hcap'⟩ := step_capacity m a c op hc hmin hcap
    exact ih c b hrun hmin' hcap'

/-! ## Validity is kept by the operations -/

theorem change_capacity_load (a b : DynamicArray) (N : Nat)
    (h : _dynamic_array_change_capacity a N = some b) :
    b.minimum_percentage_allowed = a.minimum_percentage_allowed := by
  unfold _dynamic_array_change_capacity at h
  by_cases hgt : a.size > N
  · rw [if_pos hgt] at h
    cases h
    rfl
  · rw [if_neg hgt] at h
    obtain ⟨d, -, hd⟩ := Option.map_eq_some'.1 h
    subst hd
    rfl

theorem delete_load (a b : DynamicArray) (e : Ptr) (r : Int)
    (h : dynamic_array_delete a e = some (b, r)) :
    b.minimum_percentage_allowed = a.minimum_percentage_allowed := by
  unfold dynamic_array_delete at h
  obtain ⟨st, -, h1⟩ := Option.bind_eq_some.1 h
  simp only at h1
  by_cases h0 : st.deletions_occured = 0
  · rw [if_pos h0] at h1
    cases h1
    rfl
  · rw [if_neg h0] at h1
    obtain ⟨t1, -, h2⟩ := Option.bind_eq_some.1 h1
    cases t1 with
    | false =>
      simp only [Bool.false_eq_true, if_false] at h2
      cases h2
      rfl
    | true =>
      simp only [if_true] at h2
      obtain ⟨t2, -, h3⟩ := Option.bind_eq_some.1 h2
      obtain ⟨c, hc, hcb⟩ := Option.map_eq_some'.1 h3
      cases hcb
      have hload := change_capacity_load _ _ _ hc
      exact hload

theorem delete_at_pos_load (a b : DynamicArray) (pos : Int) (r : Int)
    (h : dynamic_array_delete_at_pos a pos = some (b, r)) :
    b.minimum_percentage_allowed = a.minimum_percentage_allowed := by
  unfold dynamic_array_delete_at_pos at h
  obtain ⟨oob, -, h1⟩ := Option.bind_eq_some.1 h
  cases oob with
  | true =>
    simp only [if_true] at h1
    cases h1
    rfl
  | false =>
    simp only [Bool.false_eq_true, if_false] at h1
    obtain ⟨p, -, h2⟩ := Option.bind_eq_some.1 h1
    obtain ⟨x, -, h3⟩ := Option.bind_eq_some.1 h2
    obtain ⟨d0, -, h4⟩ := Option.bind_eq_some.1 h3
    obtain ⟨lo, -, h5⟩ := Option.bind_eq_some.1 h4
    obtain ⟨d1, -, h6⟩ := Option.bind_eq_some.1 h5
    obtain ⟨d2, -, h7⟩ := Option.bind_eq_some.1 h6
    obtain ⟨t, -, h8⟩ := Option.bind_eq_some.1 h7
    cases t with
    | false =>
      simp only [Bool.false_eq_true, if_false] at h8
      cases h8
      rfl
    | true =>
      simp only [if_true] at h8
      obtain ⟨c, hc, hcb⟩ := Option.map_eq_some'.1 h8
      cases hcb
      have hload := change_capacity_load _ _ _ hc
      exact hload

theorem valid_delete (a : DynamicArray) (e : Ptr) (hv : Valid a) :
    ∃ b r, dynamic_array_delete a e = some (b, r) ∧ Valid b ∧ b.size ≤ a.size := by
  obtain ⟨b, hb, hsize, -, hbn, hblen, -⟩ := delete_spec a e hv
  have hF : ((live a).filter (keeps a e)).length ≤ a.size := by
    refine Nat.le_trans (List.length_filter_le _ _) ?_
    rw [live_length a (by have := hv.length_eq; have := hv.size_le; omega)]
  obtain ⟨-, hcap⟩ := delete_cap a b e _ hb
  have hload := delete_load a b e _ hb
  refine ⟨b, _, hb, ⟨hblen, by omega, by have := hv.size_int; omega, ?_, by
    rw [hload]; exact hv.load_lt_one⟩, by omega⟩
  have hR := hv.capacity_lt
  rcases hcap with h | ⟨-, h⟩ | ⟨-, h⟩ <;> rw [h] <;> omega

theorem valid_delete_at_pos (a : DynamicArray) (pos : Int) (hv : Valid a) :
    ∃ b r, dynamic_array_delete_at_pos a pos = some (b, r) ∧ Valid b ∧ b.size ≤ a.size := by
  by_cases hin : -(a.size : Int) ≤ pos ∧ pos ≤ (a.size : Int) - 1
  · obtain ⟨idx, hidx, -, hres⟩ := resolve_pos_index a.size pos hv.size_int hin.1 hin.2
    obtain ⟨b, x, hb, -, hsize, -, hbn, hblen, -⟩ :=
      delete_at_pos_spec a pos idx hv (pos_in_bounds a.size pos hv.size_int hin.1 hin.2)
        hres hidx
    obtain ⟨-, hcap⟩ := delete_at_pos_cap a b pos _ hb
    have hload := delete_at_pos_load a b pos _ hb
    refine ⟨b, _, hb, ⟨hblen, by omega, by have := hv.size_int; omega, ?_, by
      rw [hload]; exact hv.load_lt_one⟩, by omega⟩
    have hR := hv.capacity_lt
    rcases hcap with h | ⟨-, h⟩ <;> rw [h] <;> omega
  · have hout : pos < -(a.size : Int) ∨ (a.size : Int) - 1 < pos := by omega
    have hp := pos_out_of_range a.size pos hv.size_int hout
    refine ⟨a, 0, ?_, hv, Nat.le_refl _⟩
    unfold dynamic_array_delete_at_pos
    simp only [hp, Option.some_bind, if_true]

/-- C10: for every `minimum_capacity` `m` and every load factor, every state
reached from `dynamic_array_init(m, lf)` by a finite sequence of
`dynamic_array_append`, `dynamic_array_delete`, `dynamic_array_delete_at_pos` and
`dynamic_array_clear` calls has `capacity >= m` (its capacity is `m` times a power
of two, and its `minimum_capacity` is still `m`). -/
theorem C10_capacity_floor (m : Nat) (lf : Double) (d : Ptr) (eq : Ptr → Ptr → Int)
    (cp : Ptr → Ptr) (ops : List Op) (b : DynamicArray)
    (h : run (dynamic_array_init m lf d eq cp) ops = some b) :
    m ≤ b.capacity ∧ b.minimum_capacity = m ∧ ∃ k, b.capacity = m * 2 ^ k := by
  obtain ⟨hmin, k, hk⟩ := run_capacity m ops (dynamic_array_init m lf d eq cp) b h rfl
    ⟨0, by simp [dynamic_array_init]⟩
  refine ⟨?_, hmin, k, hk⟩
  rw [hk]
  exact Nat.le_mul_of_pos_right m (by positivity)

/-- Witness of C10: five appends grow the capacity from 4 to 8, three deletions
bring the size to 1 and the capacity back to 4. -/
theorem C10_capacity_floor_witness :
    run (dynamic_array_init 4 ⟨1, -2⟩ 77 (fun x y => if x = y then 1 else 0) (fun p => p))
        [Op.append 1, Op.append 2, Op.append 3, Op.append 2, Op.append 5, Op.delete 2,
          Op.delete_at_pos (-1), Op.delete_at_pos 0]
      = some ⟨[3, 0, 0, 0], 1, 4, 4, ⟨1, -2⟩, 77, fun x y => if x = y then 1 else 0,
          fun p => p,
          [Event.destroyer 77 2, Event.destroyer 77 2, Event.destroyer 77 5,
            Event.destroyer 77 1]⟩ ∧
    (4 ≤ (⟨[3, 0, 0, 0], 1, 4, 4, ⟨1, -2⟩, 77, fun x y => if x = y then 1 else 0,
          fun p => p,
          [Event.destroyer 77 2, Event.destroyer 77 2, Event.destroyer 77 5,
            Event.destroyer 77 1]⟩ : DynamicArray).capacity ∧
      (⟨[3, 0, 0, 0], 1, 4, 4, ⟨1, -2⟩, 77, fun x y => if x = y then 1 else 0,
          fun p => p,
          [Event.destroyer 77 2, Event.destroyer 77 2, Event.destroyer 77 5,
            Event.destroyer 77 1]⟩ : DynamicArray).minimum_capacity = 4 ∧
      ∃ k, (⟨[3, 0, 0, 0], 1, 4, 4, ⟨1, -2⟩, 77, fun x y => if x = y then 1 else 0,
          fun p => p,
          [Event.destroyer 77 2, Event.destroyer 77 2, Event.destroyer 77 5,
            Event.destroyer 77 1]⟩ : DynamicArray).capacity = 4 * 2 ^ k) :=
  ⟨rfl,
    C10_capacity_floor 4 ⟨1, -2⟩ 77 (fun x y => if x = y then 1 else 0) (fun p => p)
      [Op.append 1, Op.append 2, Op.append 3, Op.append 2, Op.append 5, Op.delete 2,
        Op.delete_at_pos (-1), Op.delete_at_pos 0] _ (by rfl)⟩

end DynArr

namespace DynArr

/-! ## Copy, snapshot and teardown -/

theorem copy_map_loop_spec (src : List Ptr) (f : Ptr → Ptr) (n N : Nat)
    (hn : n ≤ src.length) (hN : n ≤ N) (hmax : n ≤ INT_MAX) :
    for_int (fun i d => (read src i).bind fun x => write d i (f x)) n 0
        (List.replicate N NULL)
      = some ((src.take n).map f ++ List.replicate (N - n) NULL) := by
  obtain ⟨st, hst, hinv⟩ := for_int_inv
    (fun i d => (read src i).bind fun x => write d i (f x))
    (fun j arr => arr = (src.take j).map f ++ List.replicate (N - j) NULL)
    n 0 (List.replicate N NULL) (by omega) (by simp)
    (by
      intro j s _ hj hs
      have hjl : j < src.length := by omega
      refine ⟨(src.take (j + 1)).map f ++ List.replicate (N - (j + 1)) NULL, ?_, rfl⟩
      have hr : read src j = some src[j] := by
        simp [read, List.getElem?_eq_getElem hjl]
      have hlen : j < s.length := by
        rw [hs]
        simp only [List.length_append, List.length_map, List.length_take,
          List.length_replicate]
        omega
      simp only [hr, Option.some_bind, write, if_pos hlen]
      rw [hs, set_map_take_replicate src f j N hjl (by omega)])
  rw [hst]
  simp only [Nat.zero_add] at hinv
  rw [hinv]

/-- Result of `dynamic_array_copy`. -/
theorem copy_spec (a : DynamicArray) (um : Nat) (ulf : Double)
    (hn : a.size ≤ a.data.length) (hle : a.size ≤ a.capacity) (hmax : a.size ≤ INT_MAX) :
    dynamic_array_copy a um ulf
      = some
        { data := (live a).map a.datapoint_copy
            ++ List.replicate (a.capacity - a.size) NULL
          size := a.size
          capacity := a.capacity
          minimum_capacity := um
          minimum_percentage_allowed := ulf
          datapoint_destroyer := a.datapoint_destroyer
          datapoint_equals := a.datapoint_equals
          datapoint_copy := a.datapoint_copy
          events := [] } := by
  unfold dynamic_array_copy
  rw [copy_map_loop_spec a.data a.datapoint_copy a.size a.capacity hn hle hmax]
  rfl

/-- Result of `dynamic_array_destroy`: one `free` per live handle, in order. -/
theorem destroy_spec (a : DynamicArray) (hn : a.size ≤ a.data.length)
    (hmax : a.size ≤ INT_MAX) :
    dynamic_array_destroy a = some (a.events ++ (live a).map Event.free) := by
  unfold dynamic_array_destroy
  obtain ⟨st, hst, hinv⟩ := for_int_inv
    (fun i ev => (read a.data i).map fun x => ev ++ [Event.free x])
    (fun j ev => ev = a.events ++ (a.data.take j).map Event.free)
    a.size 0 a.events (by omega) (by simp)
    (by
      intro j s _ hj hs
      have hjl : j < a.data.length := by omega
      refine ⟨_, ?_, rfl⟩
      have htake : a.data.take (j + 1) = a.data.take j ++ [a.data[j]] := by
        rw [List.take_succ, List.getElem?_eq_getElem hjl]; rfl
      simp only [read, List.getElem?_eq_getElem hjl, Option.map_some', hs, htake,
        List.map_append, List.map_cons, List.map_nil, List.append_assoc])
  rw [hst]
  simp only [Nat.zero_add] at hinv
  rw [hinv]
  rfl

theorem get_index (a : DynamicArray) (i : Nat) (hi : i < a.size)
    (hil : i < a.data.length) (hmax : a.size ≤ INT_MAX) :
    dynamic_array_get a (i : Int) = some (a.datapoint_copy a.data[i]) :=
  get_spec a (i : Int) i (pos_in_bounds a.size i hmax (by omega) (by omega))
    (resolve_pos_nonneg a.size i (by omega)) hil

theorem live_getElem (a : DynamicArray) (i : Nat) (hi : i < a.size) :
    (live a)[i]? = a.data[i]? := by
  simp only [live, List.getElem?_take, if_pos hi]

theorem delete_no_match (a : DynamicArray) (e : Ptr) (hv : Valid a)
    (habs : ∀ x ∈ live a, a.datapoint_equals x e = 0) :
    dynamic_array_delete a e = some (a, 0) := by
  have hn : a.size ≤ a.data.length := by have := hv.length_eq; have := hv.size_le; omega
  obtain ⟨b, hb, -, -, -, -, -, -, -, hsame⟩ := delete_spec a e hv
  have hfilter : (live a).filter (keeps a e) = live a := by
    apply List.filter_eq_self.2
    intro x hx
    simp [keeps, habs x hx]
  have hall : ((live a).filter (keeps a e)).length = a.size := by
    rw [hfilter, live_length a hn]
  rw [hb, hsame hall, if_pos hall]

end DynArr

namespace DynArr

/-- The copy constructor of the state-passing model, on every valid source: the
copy has the size, the capacity and the three callbacks of the source, slot `i`
holds `copy_fn(source slot i)`, the snapshots agree under `equals_fn` when
`copy_fn` returns duplicates that `equals_fn` accepts, and an append to the copy
is defined whenever the capacity is at least 1 and the size below `INT_MAX`. -/
theorem copy_properties (a : DynamicArray) (um : Nat) (ulf : Double) (hv : Valid a) :
    ∃ c, dynamic_array_copy a um ulf = some c ∧
      c.size = a.size ∧ c.capacity = a.capacity ∧ c.data.length = c.capacity ∧
      c.datapoint_destroyer = a.datapoint_destroyer ∧
      c.datapoint_equals = a.datapoint_equals ∧
      c.datapoint_copy = a.datapoint_copy ∧
      (∀ i, i < a.size → ∃ x, a.data[i]? = some x ∧
        c.data[i]? = some (a.datapoint_copy x)) ∧
      (a.size = 0 → dynamic_array_get_all c = some none ∧
        dynamic_array_get_all a = some none) ∧
      ((∀ y, a.datapoint_equals (a.datapoint_copy y) y ≠ 0) → a.size ≠ 0 →
        ∃ gc ga, dynamic_array_get_all c = some (some gc) ∧
          dynamic_array_get_all a = some (some ga) ∧
          gc.length = a.size ∧ ga.length = a.size ∧
          ∀ i, i < a.size → ∃ u v, gc[i]? = some u ∧ ga[i]? = some v ∧
            a.datapoint_equals u v ≠ 0) ∧
      (∀ e, 1 ≤ a.capacity → a.size < INT_MAX →
        ∃ c', dynamic_array_append c e = some c' ∧ c'.size = a.size + 1 ∧
          live c' = (live a).map a.datapoint_copy ++ [a.datapoint_copy e]) := by
  obtain ⟨hlen, hsz, hmax, hR, hlf⟩ := hv
  have hn : a.size ≤ a.data.length := by omega
  have hll : (live a).length = a.size := live_length a hn
  obtain ⟨c, hcdef, hcopy⟩ : ∃ c : DynamicArray,
      c = { data := (live a).map a.datapoint_copy
              ++ List.replicate (a.capacity - a.size) NULL
            size := a.size
            capacity := a.capacity
            minimum_capacity := um
            minimum_percentage_allowed := ulf
            datapoint_destroyer := a.datapoint_destroyer
            datapoint_equals := a.datapoint_equals
            datapoint_copy := a.datapoint_copy
            events := [] } ∧
      dynamic_array_copy a um ulf = some c :=
    ⟨_, rfl, copy_spec a um ulf hn hsz hmax⟩
  have hcsize : c.size = a.size := by rw [hcdef]
  have hccap : c.capacity = a.capacity := by rw [hcdef]
  have hccp : c.datapoint_copy = a.datapoint_copy := by rw [hcdef]
  have hcdata : c.data = (live a).map a.datapoint_copy
      ++ List.replicate (a.capacity - a.size) NULL := by rw [hcdef]
  have hclen : c.data.length = c.capacity := by
    rw [hcdata, hccap]
    simp only [List.length_append, List.length_map, List.length_replicate, hll]; omega
  have hclive : live c = (live a).map a.datapoint_copy := by
    show c.data.take c.size = _
    rw [hcsize, hcdata]
    rw [List.take_append_of_le_length (by simp only [List.length_map, hll]; omega),
      List.take_of_length_le (by simp only [List.length_map, hll]; omega)]
  refine ⟨c, hcopy, hcsize, hccap, hclen, by rw [hcdef], by rw [hcdef], hccp, ?_, ?_, ?_, ?_⟩
  · intro i hi
    have hil : i < a.data.length := by omega
    refine ⟨a.data[i], List.getElem?_eq_getElem hil, ?_⟩
    rw [hcdata, List.getElem?_append_left (by simp only [List.length_map, hll]; exact hi),
      List.getElem?_map, live_getElem a i hi, List.getElem?_eq_getElem hil]
    rfl
  · intro h0
    constructor
    · simp only [dynamic_array_get_all, hcsize, h0, if_true]
    · simp only [dynamic_array_get_all, h0, if_true]
  · intro heq h0
    refine ⟨((live a).map a.datapoint_copy).map a.datapoint_copy,
      (live a).map a.datapoint_copy, ?_, ?_, ?_, ?_, ?_⟩
    · rw [get_all_spec c (by omega) (by omega), hcsize, if_neg h0, hclive, hccp]
    · rw [get_all_spec a hn hmax, if_neg h0]
    · simp only [List.length_map, hll]
    · simp only [List.length_map, hll]
    · intro i hi
      have hil : i < a.data.length := by omega
      refine ⟨a.datapoint_copy (a.datapoint_copy a.data[i]), a.datapoint_copy a.data[i],
        ?_, ?_, heq _⟩
      · simp only [List.getElem?_map, live_getElem a i hi, List.getElem?_eq_getElem hil,
          Option.map_some']
      · simp only [List.getElem?_map, live_getElem a i hi, List.getElem?_eq_getElem hil,
          Option.map_some']
  · intro e hpos hlt
    obtain ⟨c', hc', -, hsize, -, -, -, hlive⟩ :=
      append_step c e hclen (by omega) (by omega) (by omega)
    exact ⟨c', hc', by omega, by rw [hlive, hclive, hccp]⟩

end DynArr

namespace DynArr

/-- C14 (amended): on every valid container (its size is at most `INT_MAX`),
`dynamic_array_get_all` returns `NULL` exactly
when `size == 0`; otherwise it returns an array of exactly `size` slots whose
`i`-th slot is `copy_fn` of the stored slot `i`, the handle that
`dynamic_array_get(i)` returns, for every `i < size`.  The call reads the state
and does not change it. -/
theorem C14_get_all (a : DynamicArray) (hv : Valid a) :
    (dynamic_array_get_all a = some none ↔ a.size = 0) ∧
      (a.size ≠ 0 → ∃ arr, dynamic_array_get_all a = some (some arr) ∧
        arr.length = a.size ∧
        ∀ i : Nat, i < a.size → ∃ x, a.data[i]? = some x ∧
          arr[i]? = some (a.datapoint_copy x) ∧
          dynamic_array_get a (i : Int) = some (a.datapoint_copy x)) := by
  obtain ⟨hlen, hsz, hmax, hR, hlf⟩ := hv
  have hn : a.size ≤ a.data.length := by omega
  have hspec := get_all_spec a hn hmax
  constructor
  · rw [hspec]
    constructor
    · intro h
      by_contra h0
      rw [if_neg h0] at h
      cases h
    · intro h0
      rw [if_pos h0]
  · intro h0
    rw [if_neg h0] at hspec
    refine ⟨_, hspec, by simp only [List.length_map, live_length a hn], ?_⟩
    intro i hi
    have hil : i < a.data.length := by omega
    refine ⟨a.data[i], List.getElem?_eq_getElem hil, ?_, get_index a i hi hil hmax⟩
    simp only [List.getElem?_map, live_getElem a i hi, List.getElem?_eq_getElem hil,
      Option.map_some']

/-- Witness of C14: the snapshot of three elements held at capacity 4. -/
theorem C14_get_all_witness :
    Valid ⟨[1, 2, 3, 0], 3, 4, 4, ⟨1, -2⟩, 77,
        fun x y => if x = y then 1 else 0, fun p => p + 100, []⟩ ∧
    (dynamic_array_get_all ⟨[1, 2, 3, 0], 3, 4, 4, ⟨1, -2⟩, 77,
        fun x y => if x = y then 1 else 0, fun p => p + 100, []⟩ = some none ↔ 3 = 0) ∧
      ((3 : Nat) ≠ 0 → ∃ arr, dynamic_array_get_all ⟨[1, 2, 3, 0], 3, 4, 4, ⟨1, -2⟩, 77,
          fun x y => if x = y then 1 else 0, fun p => p + 100, []⟩ = some (some arr) ∧
        arr.length = 3 ∧
        ∀ i : Nat, i < 3 → ∃ x, ([1, 2, 3, 0] : List Ptr)[i]? = some x ∧
          arr[i]? = some ((fun p => p + 100) x) ∧
          dynamic_array_get ⟨[1, 2, 3, 0], 3, 4, 4, ⟨1, -2⟩, 77,
            fun x y => if x = y then 1 else 0, fun p => p + 100, []⟩ (i : Int)
            = some ((fun p => p + 100) x)) :=
  ⟨⟨by decide, by decide, by decide, by decide, by decide⟩,
    C14_get_all
      ⟨[1, 2, 3, 0], 3, 4, 4, ⟨1, -2⟩, 77,
        fun x y => if x = y then 1 else 0, fun p => p + 100, []⟩
      ⟨by decide, by decide, by decide, by decide, by decide⟩⟩

/-- C15, the code at the failing point: on every valid container,
`dynamic_array_destroy` passes each of the `size` live handles, in order, to the C
library `free`; the recorded calls are the earlier ones followed by one
`Event.free` per live handle, and no call of `datapoint_destroyer` is made. -/
theorem C15_destroy_frees (a : DynamicArray) (hv : Valid a) :
    dynamic_array_destroy a = some (a.events ++ (live a).map Event.free) ∧
      ∀ x, Event.destroyer a.datapoint_destroyer x ∉ (live a).map Event.free := by
  have hn : a.size ≤ a.data.length := by have := hv.length_eq; have := hv.size_le; omega
  refine ⟨destroy_spec a hn hv.size_int, ?_⟩
  intro x hx
  obtain ⟨y, -, hy⟩ := List.mem_map.1 hx
  cases hy

/-- Witness of C15: tearing down a container of three elements records three
calls of `free` and none of the destroyer callback 77. -/
theorem C15_destroy_frees_witness :
    Valid ⟨[1, 2, 3, 0], 3, 4, 4, ⟨1, -2⟩, 77,
        fun x y => if x = y then 1 else 0, fun p => p, []⟩ ∧
    dynamic_array_destroy ⟨[1, 2, 3, 0], 3, 4, 4, ⟨1, -2⟩, 77,
        fun x y => if x = y then 1 else 0, fun p => p, []⟩
      = some (([] : List Event) ++ (live ⟨[1, 2, 3, 0], 3, 4, 4, ⟨1, -2⟩, 77,
          fun x y => if x = y then 1 else 0, fun p => p, []⟩).map Event.free) ∧
      ∀ x, Event.destroyer 77 x ∉ (live ⟨[1, 2, 3, 0], 3, 4, 4, ⟨1, -2⟩, 77,
          fun x y => if x = y then 1 else 0, fun p => p, []⟩).map Event.free :=
  ⟨⟨by decide, by decide, by decide, by decide, by decide⟩,
    C15_destroy_frees
      ⟨[1, 2, 3, 0], 3, 4, 4, ⟨1, -2⟩, 77,
        fun x y => if x = y then 1 else 0, fun p => p, []⟩
      ⟨by decide, by decide, by decide, by decide, by decide⟩⟩

/-- C20: on every valid container, after one `dynamic_array_delete(e)` call a
second `dynamic_array_delete(e)` call returns 0 and leaves the whole state (size,
capacity, backing store, recorded destroyer calls) as the first call left it. -/
theorem C20_delete_idempotent (a : DynamicArray) (e : Ptr) (hv : Valid a) :
    ∃ b r, dynamic_array_delete a e = some (b, r) ∧
      dynamic_array_delete b e = some (b, 0) := by
  obtain ⟨b, hb, -, hlive, -, -, hbeq, -⟩ := delete_spec a e hv
  obtain ⟨b', r', hb', hvb, -⟩ := valid_delete a e hv
  have hbb : b' = b := by
    rw [hb] at hb'
    cases hb'
    rfl
  subst hbb
  refine ⟨b', _, hb, delete_no_match b' e hvb ?_⟩
  intro x hx
  rw [hlive] at hx
  have hk := (List.mem_filter.1 hx).2
  simp only [keeps, decide_eq_true_eq] at hk
  rw [hbeq]
  exact hk

/-- Witness of C20: deleting the handle 2 twice. -/
theorem C20_delete_idempotent_witness :
    Valid ⟨[1, 2, 3, 2, 5, 0, 0, 0], 5, 8, 4, ⟨1, -2⟩, 77,
        fun x y => if x = y then 1 else 0, fun p => p, []⟩ ∧
    ∃ b r, dynamic_array_delete
        ⟨[1, 2, 3, 2, 5, 0, 0, 0], 5, 8, 4, ⟨1, -2⟩, 77,
          fun x y => if x = y then 1 else 0, fun p => p, []⟩ 2 = some (b, r) ∧
      dynamic_array_delete b 2 = some (b, 0) :=
  ⟨⟨by decide, by decide, by decide, by decide, by decide⟩,
    C20_delete_idempotent
      ⟨[1, 2, 3, 2, 5, 0, 0, 0], 5, 8, 4, ⟨1, -2⟩, 77,
        fun x y => if x = y then 1 else 0, fun p => p, []⟩ 2
      ⟨by decide, by decide, by decide, by decide, by decide⟩⟩

end DynArr

namespace DynArr

/-! ## The capacity left by the shrink step -/

theorem shrink_test_eq (b : DynamicArray) (c t : Nat)
    (ht : double_mul_to_unsigned b.minimum_percentage_allowed c = some t) :
    shrink_test b c = some (decide (c > b.minimum_capacity ∧ b.size < t)) := by
  unfold shrink_test
  by_cases hgt : c > b.minimum_capacity
  · simp [hgt, ht]
  · simp [hgt]

theorem change_capacity_result (b c : DynamicArray) (N : Nat)
    (hn : b.size ≤ b.data.length) (hmax : b.size ≤ INT_MAX)
    (h : _dynamic_array_change_capacity b N = some c) :
    c.capacity = (if b.size ≤ N then N else b.capacity) := by
  by_cases hle : b.size ≤ N
  · rw [change_capacity_spec b N hn hle hmax] at h
    cases h
    rw [if_pos hle]
  · rw [change_capacity_refuse b N (by omega)] at h
    cases h
    rw [if_neg hle]

theorem delete_tail_capacity (b c : DynamicArray) (r : Int) (t1 t2 : Nat)
    (h : ((shrink_test b b.capacity).bind fun s1 =>
        if s1 = true then
          (shrink_test b (b.capacity / 2)).bind fun s2 =>
            (_dynamic_array_change_capacity b
              (if s2 = true then b.capacity / 2 / 2 else b.capacity / 2)).map
                fun c => (c, (1 : Int))
        else some (b, 1)) = some (c, r))
    (hn : b.size ≤ b.data.length) (hmax : b.size ≤ INT_MAX)
    (ht1 : double_mul_to_unsigned b.minimum_percentage_allowed b.capacity = some t1)
    (ht2 : double_mul_to_unsigned b.minimum_percentage_allowed (b.capacity / 2) = some t2) :
    c.capacity = bulk_shrink_capacity b.capacity b.minimum_capacity b.size t1 t2 := by
  rw [shrink_test_eq b _ t1 ht1, shrink_test_eq b _ t2 ht2] at h
  simp only [Option.some_bind, decide_eq_true_eq] at h
  unfold bulk_shrink_capacity
  by_cases h1 : b.capacity > b.minimum_capacity ∧ b.size < t1
  · rw [if_pos h1] at h
    rw [if_pos h1]
    obtain ⟨c', hc', hcc⟩ := Option.map_eq_some'.1 h
    cases hcc
    have hcap := change_capacity_result b c _ hn hmax hc'
    by_cases h2 : b.capacity / 2 > b.minimum_capacity ∧ b.size < t2
    · rw [if_pos h2] at hcap
      rw [if_pos h2]
      exact hcap
    · rw [if_neg h2] at hcap
      rw [if_neg h2]
      exact hcap
  · rw [if_neg h1] at h
    rw [if_neg h1]
    cases h
    rfl

theorem delete_at_pos_tail_capacity (b c : DynamicArray) (r : Int) (t : Nat)
    (h : ((shrink_test b b.capacity).bind fun s =>
        if s = true then
          (_dynamic_array_change_capacity b (b.capacity / 2)).map fun c => (c, (1 : Int))
        else some (b, 1)) = some (c, r))
    (hn : b.size ≤ b.data.length) (hmax : b.size ≤ INT_MAX)
    (ht : double_mul_to_unsigned b.minimum_percentage_allowed b.capacity = some t) :
    c.capacity = single_shrink_capacity b.capacity b.minimum_capacity b.size t := by
  rw [shrink_test_eq b _ t ht] at h
  simp only [Option.some_bind, decide_eq_true_eq] at h
  unfold single_shrink_capacity
  by_cases h1 : b.capacity > b.minimum_capacity ∧ b.size < t
  · rw [if_pos h1] at h
    obtain ⟨c', hc', hcc⟩ := Option.map_eq_some'.1 h
    cases hcc
    rw [change_capacity_result b c _ hn hmax hc']
    by_cases hle : b.size ≤ b.capacity / 2
    · rw [if_pos hle, if_pos ⟨h1.1, h1.2, hle⟩]
    · rw [if_neg hle, if_neg (fun hh => hle hh.2.2)]
  · rw [if_neg h1] at h
    cases h
    rw [if_neg (fun hh => h1 ⟨hh.1, hh.2.1⟩)]

/-- The capacity left by `dynamic_array_delete` on a valid state. -/
theorem delete_capacity (a b : DynamicArray) (e : Ptr) (r : Int) (t1 t2 : Nat)
    (hv : Valid a) (h : dynamic_array_delete a e = some (b, r))
    (ht1 : double_mul_to_unsigned a.minimum_percentage_allowed a.capacity = some t1)
    (ht2 : double_mul_to_unsigned a.minimum_percentage_allowed (a.capacity / 2) = some t2) :
    b.capacity = (if ((live a).filter (keeps a e)).length = a.size then a.capacity
      else bulk_shrink_capacity a.capacity a.minimum_capacity
        ((live a).filter (keeps a e)).length t1 t2) := by
  obtain ⟨hlen, hsz, hmax, hR, hlf⟩ := hv
  have hn : a.size ≤ a.data.length := by omega
  have hFle : ((live a).filter (keeps a e)).length ≤ a.size := by
    refine Nat.le_trans (List.length_filter_le _ _) ?_
    rw [live_length a hn]
  unfold dynamic_array_delete at h
  rw [delete_scan_spec a e hn hmax] at h
  simp only [Option.some_bind] at h
  simp only [live] at hFle ⊢
  by_cases hall : ((a.data.take a.size).filter (keeps a e)).length = a.size
  · have h0 : a.size - ((a.data.take a.size).filter (keeps a e)).length = 0 := by omega
    rw [if_pos h0] at h
    cases h
    rw [if_pos hall]
  · have h0 : ¬ (a.size - ((a.data.take a.size).filter (keeps a e)).length = 0) := by omega
    have hmod : (a.size + UINT_RANGE
          - (a.size - ((a.data.take a.size).filter (keeps a e)).length)) % UINT_RANGE
        = ((a.data.take a.size).filter (keeps a e)).length := by
      have e1 : a.size + UINT_RANGE
            - (a.size - ((a.data.take a.size).filter (keeps a e)).length)
          = ((a.data.take a.size).filter (keeps a e)).length + UINT_RANGE := by omega
      rw [e1, Nat.add_mod_right]
      apply Nat.mod_eq_of_lt
      simp only [INT_MAX] at hmax; simp only [UINT_RANGE]; omega
    rw [if_neg h0] at h
    rw [if_neg hall]
    have hcap := delete_tail_capacity _ b r t1 t2 h ?_ ?_ ht1 ht2
    · simp only [hmod] at hcap
      exact hcap
    · simp only [hmod, List.length_append, List.length_replicate, List.length_drop]
      omega
    · simp only [hmod]; omega

end DynArr

namespace DynArr

/-- The capacity left by `dynamic_array_delete_at_pos` on a valid state for a
position that passes the bounds test and resolves to the index `idx`. -/
theorem delete_at_pos_capacity (a b : DynamicArray) (pos : Int) (idx : Nat) (r : Int)
    (t : Nat) (hv : Valid a)
    (hpos : pos_out_of_bounds a.size pos = some false)
    (hres : resolve_pos a.size pos = some (idx : Int)) (hidx : idx < a.size)
    (h : dynamic_array_delete_at_pos a pos = some (b, r))
    (ht : double_mul_to_unsigned a.minimum_percentage_allowed a.capacity = some t) :
    b.capacity = single_shrink_capacity a.capacity a.minimum_capacity (a.size - 1) t := by
  obtain ⟨hlen, hsz, hmax, hR, hlf⟩ := hv
  have hil : idx < a.data.length := by omega
  obtain ⟨d1, hd1, hd1len, hd1k⟩ :=
    shift_loop_spec a.data a.size idx hidx (by omega) (by omega)
  have hread : read_int a.data (idx : Int) = some a.data[idx] := by
    simp only [read_int, if_neg (show ¬ ((idx : Int) < 0) by omega), read, Int.toNat_ofNat,
      List.getElem?_eq_getElem hil]
  have hwrite : write_int a.data (idx : Int) NULL = some (a.data.set idx NULL) := by
    simp only [write_int, if_neg (show ¬ ((idx : Int) < 0) by omega), write, Int.toNat_ofNat,
      if_pos hil]
  have hsucc : int_checked ((idx : Int) + 1) = some ((idx + 1 : Nat) : Int) := by
    rw [int_checked_some _ (by omega) (by omega)]; rfl
  have hmod : (a.size + UINT_RANGE - 1) % UINT_RANGE = a.size - 1 := by
    have e1 : a.size + UINT_RANGE - 1 = (a.size - 1) + UINT_RANGE := by omega
    rw [e1, Nat.add_mod_right]
    apply Nat.mod_eq_of_lt
    simp only [INT_MAX] at hmax; simp only [UINT_RANGE]; omega
  have hw2 : write d1 (a.size - 1) NULL
      = some (a.data.take idx
          ++ ((a.data.drop (idx + 1)).take (a.size - (idx + 1))
            ++ NULL :: a.data.drop a.size)) := by
    simp only [write, if_pos (show a.size - 1 < d1.length by omega)]
    rw [erase_slot_eq a.data d1 a.size idx hidx (by omega) hd1len hd1k]
  unfold dynamic_array_delete_at_pos at h
  simp only [hpos, Option.some_bind, Bool.false_eq_true, if_false, hres, hread, hwrite,
    hsucc, Int.toNat_ofNat, hd1, hmod, hw2] at h
  exact delete_at_pos_tail_capacity _ b r t h
    (by
      simp only [List.length_append, List.length_take, List.length_drop, List.length_cons]
      omega)
    (by simp only; omega) ht

/-- C16 (amended): on every valid container and for every in-range `pos`,
`dynamic_array_delete_at_pos` returns 1 and leaves the capacity `capacity / 2`
when, with the size already decremented, `capacity > minimum_capacity`,
`size < (unsigned)(minimum_percentage_allowed * capacity)` (the product rounded
to a double and truncated to an `unsigned`, written `t`) and
`size <= capacity / 2`; in every other case the capacity is unchanged. -/
theorem C16_delete_at_pos_capacity (a : DynamicArray) (pos : Int) (hv : Valid a)
    (hlo : -(a.size : Int) ≤ pos) (hhi : pos ≤ (a.size : Int) - 1) :
    ∃ b t, dynamic_array_delete_at_pos a pos = some (b, 1) ∧
      double_mul_to_unsigned a.minimum_percentage_allowed a.capacity = some t ∧
      b.capacity = (if a.capacity > a.minimum_capacity ∧ a.size - 1 < t
          ∧ a.size - 1 ≤ a.capacity / 2 then a.capacity / 2 else a.capacity) := by
  obtain ⟨idx, hidx, -, hres⟩ := resolve_pos_index a.size pos hv.size_int hlo hhi
  have hpos := pos_in_bounds a.size pos hv.size_int hlo hhi
  obtain ⟨b, x, hb, -⟩ := delete_at_pos_spec a pos idx hv hpos hres hidx
  obtain ⟨t, ht, -⟩ := double_mul_to_unsigned_some a.minimum_percentage_allowed a.capacity
    hv.load_lt_one hv.capacity_lt
  exact ⟨b, t, hb, ht, delete_at_pos_capacity a b pos idx 1 t hv hpos hres hidx hb ht⟩

/-- Witness of C16: at capacity 8 over a minimum of 4 with load factor 0.25,
deleting one of two elements leaves size 1 below the threshold 2. -/
theorem C16_delete_at_pos_capacity_witness :
    (Valid ⟨[1, 3, 0, 0, 0, 0, 0, 0], 2, 8, 4, ⟨1, -2⟩, 77,
        fun x y => if x = y then 1 else 0, fun p => p, []⟩ ∧
      -((2 : Nat) : Int) ≤ 0 ∧ (0 : Int) ≤ ((2 : Nat) : Int) - 1) ∧
    ∃ b t, dynamic_array_delete_at_pos
        ⟨[1, 3, 0, 0, 0, 0, 0, 0], 2, 8, 4, ⟨1, -2⟩, 77,
          fun x y => if x = y then 1 else 0, fun p => p, []⟩ 0 = some (b, 1) ∧
      double_mul_to_unsigned ⟨1, -2⟩ 8 = some t ∧
      b.capacity = (if 8 > 4 ∧ 2 - 1 < t ∧ 2 - 1 ≤ 8 / 2 then 8 / 2 else 8) :=
  ⟨⟨⟨by decide, by decide, by decide, by decide, by decide⟩, by decide, by decide⟩,
    C16_delete_at_pos_capacity
      ⟨[1, 3, 0, 0, 0, 0, 0, 0], 2, 8, 4, ⟨1, -2⟩, 77,
        fun x y => if x = y then 1 else 0, fun p => p, []⟩ 0
      ⟨by decide, by decide, by decide, by decide, by decide⟩ (by decide) (by decide)⟩

/-- C16 as stated fails: from `dynamic_array_init(1, 0.25)`, two appends and
`delete_at_pos(-1)` give size 1 at capacity 2.  For `delete_at_pos(0)` the
decremented size 0 is below the exact product `0.25 * 2 = 0.5`, the capacity 2
exceeds the minimum 1 and 0 does not exceed `2 / 2`, yet the capacity stays 2:
the code compares with `(unsigned)(0.25 * 2) = 0`. -/
theorem C16_counterexample :
    ∃ a b, run (dynamic_array_init 1 ⟨1, -2⟩ 77 (fun x y => if x = y then 1 else 0)
          (fun p => p)) [Op.append 7, Op.append 8, Op.delete_at_pos (-1)] = some a ∧
      a.size = 1 ∧ a.capacity = 2 ∧ a.minimum_capacity = 1 ∧
      dynamic_array_delete_at_pos a 0 = some (b, 1) ∧
      (a.capacity > a.minimum_capacity ∧
        ((a.size - 1 : Nat) : ℚ) < a.minimum_percentage_allowed.toRat * (a.capacity : ℚ) ∧
        a.size - 1 ≤ a.capacity / 2) ∧
      b.capacity = a.capacity ∧ b.capacity ≠ a.capacity / 2 := by
  refine ⟨⟨[7, 0], 1, 2, 1, ⟨1, -2⟩, 77, fun x y => if x = y then 1 else 0, fun p => p,
      [Event.destroyer 77 8]⟩,
    ⟨[0, 0], 0, 2, 1, ⟨1, -2⟩, 77, fun x y => if x = y then 1 else 0, fun p => p,
      [Event.destroyer 77 8, Event.destroyer 77 7]⟩,
    rfl, rfl, rfl, rfl, rfl, ⟨by decide, ?_, by decide⟩, rfl, by decide⟩
  norm_num [Double.toRat]

end DynArr

namespace DynArr

theorem bulk_shrink_capacity_mem (c m s t1 t2 : Nat) :
    bulk_shrink_capacity c m s t1 t2 = c ∨ bulk_shrink_capacity c m s t1 t2 = c / 2 ∨
      bulk_shrink_capacity c m s t1 t2 = c / 2 / 2 := by
  unfold bulk_shrink_capacity
  split_ifs <;> simp

/-- C17: on every valid container with capacity `c`, one `dynamic_array_delete(e)`
call returns and leaves the capacity in `{c, c / 2, c / 4}`.  With `s` the new
size and `t1`, `t2` the thresholds `(unsigned)(minimum_percentage_allowed * c)` and
`(unsigned)(minimum_percentage_allowed * (c / 2))`: the capacity is `c` when
nothing is removed or the shrink condition (`c > minimum_capacity` and `s < t1`)
fails; otherwise the requested capacity is `c / 2`, or `c / 4` exactly when
`c / 2 > minimum_capacity` and `s < t2`, and it becomes the capacity unless it
is below `s`.  No third halving is evaluated. -/
theorem C17_delete_capacity (a : DynamicArray) (e : Ptr) (hv : Valid a) :
    ∃ b r t1 t2, dynamic_array_delete a e = some (b, r) ∧
      double_mul_to_unsigned a.minimum_percentage_allowed a.capacity = some t1 ∧
      double_mul_to_unsigned a.minimum_percentage_allowed (a.capacity / 2) = some t2 ∧
      (b.capacity = a.capacity ∨ b.capacity = a.capacity / 2 ∨
        b.capacity = a.capacity / 2 / 2) ∧
      (b.size = a.size → b.capacity = a.capacity) ∧
      (¬ (a.capacity > a.minimum_capacity ∧ b.size < t1) → b.capacity = a.capacity) ∧
      (b.size ≠ a.size → a.capacity > a.minimum_capacity ∧ b.size < t1 →
        b.capacity =
          (if b.size ≤ (if a.capacity / 2 > a.minimum_capacity ∧ b.size < t2
              then a.capacity / 2 / 2 else a.capacity / 2)
            then (if a.capacity / 2 > a.minimum_capacity ∧ b.size < t2
              then a.capacity / 2 / 2 else a.capacity / 2)
            else a.capacity)) := by
  obtain ⟨b, hb, hsize, -⟩ := delete_spec a e hv
  have hR := hv.capacity_lt
  obtain ⟨t1, ht1, -⟩ := double_mul_to_unsigned_some a.minimum_percentage_allowed
    a.capacity hv.load_lt_one hR
  obtain ⟨t2, ht2, -⟩ := double_mul_to_unsigned_some a.minimum_percentage_allowed
    (a.capacity / 2) hv.load_lt_one (Nat.lt_of_le_of_lt (Nat.div_le_self _ _) hR)
  have hcap := delete_capacity a b e _ t1 t2 hv hb ht1 ht2
  rw [← hsize] at hcap
  refine ⟨b, _, t1, t2, hb, ht1, ht2, ?_, ?_, ?_, ?_⟩
  · rw [hcap]
    split_ifs
    · exact Or.inl rfl
    · exact bulk_shrink_capacity_mem _ _ _ _ _
  · intro hs
    rw [hcap, if_pos hs]
  · intro hn
    rw [hcap]
    split_ifs
    · rfl
    · unfold bulk_shrink_capacity
      rw [if_neg hn]
  · intro hs h1
    rw [hcap, if_neg hs]
    unfold bulk_shrink_capacity
    rw [if_pos h1]
    split_ifs <;> rfl

/-- Witness of C17: at capacity 16 over a minimum of 1 with load factor 0.5,
deleting eight equal elements out of nine requests capacity 4. -/
theorem C17_delete_capacity_witness :
    Valid ⟨[5, 5, 5, 5, 5, 5, 5, 5, 6, 0, 0, 0, 0, 0, 0, 0], 9, 16, 1, ⟨1, -1⟩, 77,
        fun x y => if x = y then 1 else 0, fun p => p, []⟩ ∧
    ∃ b r t1 t2, dynamic_array_delete
        ⟨[5, 5, 5, 5, 5, 5, 5, 5, 6, 0, 0, 0, 0, 0, 0, 0], 9, 16, 1, ⟨1, -1⟩, 77,
          fun x y => if x = y then 1 else 0, fun p => p, []⟩ 5 = some (b, r) ∧
      double_mul_to_unsigned ⟨1, -1⟩ 16 = some t1 ∧
      double_mul_to_unsigned ⟨1, -1⟩ (16 / 2) = some t2 ∧
      (b.capacity = 16 ∨ b.capacity = 16 / 2 ∨ b.capacity = 16 / 2 / 2) ∧
      (b.size = 9 → b.capacity = 16) ∧
      (¬ (16 > 1 ∧ b.size < t1) → b.capacity = 16) ∧
      (b.size ≠ 9 → 16 > 1 ∧ b.size < t1 →
        b.capacity =
          (if b.size ≤ (if 16 / 2 > 1 ∧ b.size < t2 then 16 / 2 / 2 else 16 / 2)
            then (if 16 / 2 > 1 ∧ b.size < t2 then 16 / 2 / 2 else 16 / 2)
            else 16)) :=
  ⟨⟨by decide, by decide, by decide, by decide, by decide⟩,
    C17_delete_capacity
      ⟨[5, 5, 5, 5, 5, 5, 5, 5, 6, 0, 0, 0, 0, 0, 0, 0], 9, 16, 1, ⟨1, -1⟩, 77,
        fun x y => if x = y then 1 else 0, fun p => p, []⟩ 5
      ⟨by decide, by decide, by decide, by decide, by decide⟩⟩

/-- C18, the code at the failing input: from `dynamic_array_init(1, 0.5)`, nine
appends of equal elements give capacity 16, and one `dynamic_array_delete` of that
element leaves size 0 at capacity 4, above the minimum 1 and with the size below
`(unsigned)(0.5 * 4) = 2`: the capacity was halved twice only, and an immediate
further shrink test holds. -/
theorem C18_delete_stops_after_two_halvings :
    ∃ a b, run (dynamic_array_init 1 ⟨1, -1⟩ 77 (fun x y => if x = y then 1 else 0)
          (fun p => p))
        [Op.append 5, Op.append 5, Op.append 5, Op.append 5, Op.append 5, Op.append 5,
          Op.append 5, Op.append 5, Op.append 5] = some a ∧
      a.size = 9 ∧ a.capacity = 16 ∧
      dynamic_array_delete a 5 = some (b, 1) ∧
      b.size = 0 ∧ b.capacity = 4 ∧ b.minimum_capacity = 1 ∧
      double_mul_to_unsigned b.minimum_percentage_allowed b.capacity = some 2 ∧
      shrink_test b b.capacity = some true ∧
      ¬ (b.capacity ≤ b.minimum_capacity ∨ b.size ≥ 2) := by
  refine ⟨⟨[5, 5, 5, 5, 5, 5, 5, 5, 5, 0, 0, 0, 0, 0, 0, 0], 9, 16, 1, ⟨1, -1⟩, 77,
      fun x y => if x = y then 1 else 0, fun p => p, []⟩,
    ⟨[0, 0, 0, 0], 0, 4, 1, ⟨1, -1⟩, 77, fun x y => if x = y then 1 else 0, fun p => p,
      [Event.destroyer 77 5, Event.destroyer 77 5, Event.destroyer 77 5,
        Event.destroyer 77 5, Event.destroyer 77 5, Event.destroyer 77 5,
        Event.destroyer 77 5, Event.destroyer 77 5, Event.destroyer 77 5]⟩,
    rfl, rfl, rfl, rfl, rfl, rfl, rfl, rfl, rfl, by decide⟩

end DynArr

namespace DynArr

/-! ## The scenario with minimum capacity 4 and load factor 0.25 -/

theorem scenario_delete (a : DynamicArray) (e : Ptr) (hv : Valid a)
    (hmin : a.minimum_capacity = 4) (hlf : a.minimum_percentage_allowed = ⟨1, -2⟩)
    (hJ : (a.capacity = 8 ∧ 2 ≤ a.size) ∨ (a.capacity = 4 ∧ a.size ≤ 1)) :
    ∃ b r, dynamic_array_delete a e = some (b, r) ∧ Valid b ∧ b.minimum_capacity = 4 ∧
      b.minimum_percentage_allowed = ⟨1, -2⟩ ∧
      ((b.capacity = 8 ∧ 2 ≤ b.size) ∨ (b.capacity = 4 ∧ b.size ≤ 1)) := by
  obtain ⟨b, hb, hsize, -⟩ := delete_spec a e hv
  obtain ⟨b', r', hb', hvb, hle⟩ := valid_delete a e hv
  have hbb : b' = b := by
    rw [hb] at hb'
    cases hb'
    rfl
  subst hbb
  have hmin' := (delete_cap a b' e _ hb).1
  have hload := delete_load a b' e _ hb
  refine ⟨b', _, hb, hvb, by rw [hmin', hmin], by rw [hload, hlf], ?_⟩
  rcases hJ with ⟨hc, hs⟩ | ⟨hc, hs⟩
  · have ht1 : double_mul_to_unsigned a.minimum_percentage_allowed a.capacity = some 2 := by
      rw [hlf, hc]; rfl
    have ht2 : double_mul_to_unsigned a.minimum_percentage_allowed (a.capacity / 2)
        = some 1 := by
      rw [hlf, hc]; rfl
    have hcap := delete_capacity a b' e _ 2 1 hv hb ht1 ht2
    rw [← hsize, hc, hmin] at hcap
    unfold bulk_shrink_capacity at hcap
    split_ifs at hcap <;> omega
  · have ht1 : double_mul_to_unsigned a.minimum_percentage_allowed a.capacity = some 1 := by
      rw [hlf, hc]; rfl
    have ht2 : double_mul_to_unsigned a.minimum_percentage_allowed (a.capacity / 2)
        = some 0 := by
      rw [hlf, hc]; rfl
    have hcap := delete_capacity a b' e _ 1 0 hv hb ht1 ht2
    rw [← hsize, hc, hmin] at hcap
    unfold bulk_shrink_capacity at hcap
    split_ifs at hcap <;> omega

theorem scenario_delete_at_pos (a : DynamicArray) (pos : Int) (hv : Valid a)
    (hmin : a.minimum_capacity = 4) (hlf : a.minimum_percentage_allowed = ⟨1, -2⟩)
    (hJ : (a.capacity = 8 ∧ 2 ≤ a.size) ∨ (a.capacity = 4 ∧ a.size ≤ 1)) :
    ∃ b r, dynamic_array_delete_at_pos a pos = some (b, r) ∧ Valid b ∧
      b.minimum_capacity = 4 ∧ b.minimum_percentage_allowed = ⟨1, -2⟩ ∧
      ((b.capacity = 8 ∧ 2 ≤ b.size) ∨ (b.capacity = 4 ∧ b.size ≤ 1)) := by
  by_cases hin : -(a.size : Int) ≤ pos ∧ pos ≤ (a.size : Int) - 1
  · obtain ⟨idx, hidx, -, hres⟩ := resolve_pos_index a.size pos hv.size_int hin.1 hin.2
    have hpos := pos_in_bounds a.size pos hv.size_int hin.1 hin.2
    obtain ⟨b, x, hb, -, hsize, -⟩ := delete_at_pos_spec a pos idx hv hpos hres hidx
    obtain ⟨b', r', hb', hvb, hle⟩ := valid_delete_at_pos a pos hv
    have hbb : b' = b := by
      rw [hb] at hb'
      cases hb'
      rfl
    subst hbb
    have hmin' := (delete_at_pos_cap a b' pos _ hb).1
    have hload := delete_at_pos_load a b' pos _ hb
    refine ⟨b', _, hb, hvb, by rw [hmin', hmin], by rw [hload, hlf], ?_⟩
    rcases hJ with ⟨hc, hs⟩ | ⟨hc, hs⟩
    · have ht : double_mul_to_unsigned a.minimum_percentage_allowed a.capacity = some 2 := by
        rw [hlf, hc]; rfl
      have hcap := delete_at_pos_capacity a b' pos idx _ 2 hv hpos hres hidx hb ht
      rw [← hsize, hc, hmin] at hcap
      unfold single_shrink_capacity at hcap
      split_ifs at hcap <;> omega
    · have ht : double_mul_to_unsigned a.minimum_percentage_allowed a.capacity = some 1 := by
        rw [hlf, hc]; rfl
      have hcap := delete_at_pos_capacity a b' pos idx _ 1 hv hpos hres hidx hb ht
      rw [← hsize, hc, hmin] at hcap
      unfold single_shrink_capacity at hcap
      split_ifs at hcap <;> omega
  · have hout : pos < -(a.size : Int) ∨ (a.size : Int) - 1 < pos := by omega
    have hp := pos_out_of_range a.size pos hv.size_int hout
    refine ⟨a, 0, ?_, hv, hmin, hlf, hJ⟩
    unfold dynamic_array_delete_at_pos
    simp only [hp, Option.some_bind, if_true]

theorem scenario_run (ops : List Op) :
    ∀ (a : DynamicArray), (∀ op ∈ ops, Op.is_removal op = true) → Valid a →
      a.minimum_capacity = 4 → a.minimum_percentage_allowed = ⟨1, -2⟩ →
      ((a.capacity = 8 ∧ 2 ≤ a.size) ∨ (a.capacity = 4 ∧ a.size ≤ 1)) →
      ∃ b, run a ops = some b ∧
        ((b.capacity = 8 ∧ 2 ≤ b.size) ∨ (b.capacity = 4 ∧ b.size ≤ 1)) := by
  induction ops with
  | nil => intro a _ _ _ _ hJ; exact ⟨a, rfl, hJ⟩
  | cons op ops ih =>
    intro a hops hv hmin hlf hJ
    have hop := hops op (List.mem_cons_self _ _)
    have hrest : ∀ op' ∈ ops, Op.is_removal op' = true :=
      fun op' h => hops op' (List.mem_cons_of_mem _ h)
    have hstep : ∃ c, step a op = some c ∧ Valid c ∧ c.minimum_capacity = 4 ∧
        c.minimum_percentage_allowed = ⟨1, -2⟩ ∧
        ((c.capacity = 8 ∧ 2 ≤ c.size) ∨ (c.capacity = 4 ∧ c.size ≤ 1)) := by
      cases op with
      | append e => simp [Op.is_removal] at hop
      | clear => simp [Op.is_removal] at hop
      | delete e =>
        obtain ⟨c, r, hc, h⟩ := scenario_delete a e hv hmin hlf hJ
        exact ⟨c, by simp only [step, hc, Option.map_some'], h⟩
      | delete_at_pos pos =>
        obtain ⟨c, r, hc, h⟩ := scenario_delete_at_pos a pos hv hmin hlf hJ
        exact ⟨c, by simp only [step, hc, Option.map_some'], h⟩
    obtain ⟨c, hc, hvc, hminc, hlfc, hJc⟩ := hstep
    obtain ⟨b, hb, hJb⟩ := ih c hrest hvc hminc hlfc hJc
    exact ⟨b, by simp only [run, hc, Option.some_bind]; exact hb, hJb⟩

/-- C12: starting from `dynamic_array_init(4, 0.25)`, appending any five elements
gives capacity 8 and size 5; from there every sequence of `dynamic_array_delete`
and `dynamic_array_delete_at_pos` calls is defined, and whenever it leaves size 1
(one call removing four equal elements, four calls removing one element each, or
any other split) the capacity it leaves is exactly 4. -/
theorem C12_scenario (d : Ptr) (eq : Ptr → Ptr → Int) (cp : Ptr → Ptr) (xs : List Ptr)
    (hxs : xs.length = 5) :
    ∃ a, append_all (dynamic_array_init 4 ⟨1, -2⟩ d eq cp) xs = some a ∧
      a.capacity = 8 ∧ a.size = 5 ∧
      ∀ ops, (∀ op ∈ ops, Op.is_removal op = true) →
        ∃ b, run a ops = some b ∧ (b.size = 1 → b.capacity = 4) := by
  match xs, hxs with
  | [x1, x2, x3, x4, x5], _ =>
    refine ⟨⟨[cp x1, cp x2, cp x3, cp x4, cp x5, 0, 0, 0], 5, 8, 4, ⟨1, -2⟩, d, eq, cp, []⟩,
      rfl, rfl, rfl, ?_⟩
    intro ops hops
    obtain ⟨b, hb, hJ⟩ := scenario_run ops
      ⟨[cp x1, cp x2, cp x3, cp x4, cp x5, 0, 0, 0], 5, 8, 4, ⟨1, -2⟩, d, eq, cp, []⟩ hops
      ⟨rfl, (by decide : (5 : Nat) ≤ 8), (by decide : (5 : Nat) ≤ INT_MAX),
        (by decide : (8 : Nat) < UINT_RANGE), (by decide : Double.lt_one ⟨1, -2⟩)⟩ rfl rfl
      (Or.inl ⟨rfl, (by decide : (2 : Nat) ≤ 5)⟩)
    refine ⟨b, hb, ?_⟩
    intro h1
    rcases hJ with ⟨-, hs⟩ | ⟨hc, -⟩
    · omega
    · exact hc

/-- Witness of C12: the elements 1, 2, 2, 2, 2. -/
theorem C12_scenario_witness :
    ([1, 2, 2, 2, 2] : List Ptr).length = 5 ∧
    ∃ a, append_all (dynamic_array_init 4 ⟨1, -2⟩ 77 (fun x y => if x = y then 1 else 0)
        (fun p => p)) [1, 2, 2, 2, 2] = some a ∧
      a.capacity = 8 ∧ a.size = 5 ∧
      ∀ ops, (∀ op ∈ ops, Op.is_removal op = true) →
        ∃ b, run a ops = some b ∧ (b.size = 1 → b.capacity = 4) :=
  ⟨by decide,
    C12_scenario 77 (fun x y => if x = y then 1 else 0) (fun p => p) [1, 2, 2, 2, 2]
      (by decide)⟩

/-- The two ways of the scenario, evaluated: one `dynamic_array_delete` call that
matches four equal elements, and four single deletions, each leave size 1 at
capacity 4 (`1 < (unsigned)(0.25 * 8) = 2` triggers the shrink to 4, and 4 is
not above the minimum 4). -/
theorem scenario_evaluated :
    run (dynamic_array_init 4 ⟨1, -2⟩ 77 (fun x y => if x = y then 1 else 0) (fun p => p))
        [Op.append 1, Op.append 2, Op.append 2, Op.append 2, Op.append 2, Op.delete 2]
      = some ⟨[1, 0, 0, 0], 1, 4, 4, ⟨1, -2⟩, 77, fun x y => if x = y then 1 else 0,
          fun p => p,
          [Event.destroyer 77 2, Event.destroyer 77 2, Event.destroyer 77 2,
            Event.destroyer 77 2]⟩ ∧
    run (dynamic_array_init 4 ⟨1, -2⟩ 77 (fun x y => if x = y then 1 else 0) (fun p => p))
        [Op.append 1, Op.append 2, Op.append 3, Op.append 4, Op.append 5,
          Op.delete_at_pos (-1), Op.delete 2, Op.delete_at_pos 1, Op.delete 4]
      = some ⟨[1, 0, 0, 0], 1, 4, 4, ⟨1, -2⟩, 77, fun x y => if x = y then 1 else 0,
          fun p => p,
          [Event.destroyer 77 5, Event.destroyer 77 2, Event.destroyer 77 3,
            Event.destroyer 77 4]⟩ :=
  ⟨rfl, rfl⟩

end DynArr

namespace DynArr

/-! ## The states the operations can leave -/

theorem for_int_some_le {σ : Type} (body : Nat → σ → Option σ) (n : Nat) (st st' : σ)
    (h : for_int body n 0 st = some st') : n ≤ INT_MAX := by
  by_contra hcon
  rw [for_int_overflow body n 0 st (Nat.zero_le _) (by omega)] at h
  cases h

theorem change_capacity_form (a b : DynamicArray) (N : Nat) (hn : a.size ≤ a.data.length)
    (h : _dynamic_array_change_capacity a N = some b) :
    b = a ∨ (a.size ≤ N ∧ a.size ≤ INT_MAX ∧ b = resized a N) := by
  by_cases hlt : N < a.size
  · rw [change_capacity_refuse a N hlt] at h
    cases h
    exact Or.inl rfl
  · have hle : a.size ≤ N := Nat.le_of_not_lt hlt
    have hmax : a.size ≤ INT_MAX := by
      unfold _dynamic_array_change_capacity at h
      rw [if_neg (by omega)] at h
      obtain ⟨d, hd, -⟩ := Option.map_eq_some'.1 h
      exact for_int_some_le _ _ _ _ hd
    rw [change_capacity_spec a N hn hle hmax] at h
    cases h
    exact Or.inr ⟨hle, hmax, rfl⟩

theorem append_form (a b : DynamicArray) (e : Ptr) (hlen : a.data.length = a.capacity)
    (h : dynamic_array_append a e = some b) :
    (a.size < a.capacity ∧
        b = { a with data := a.data.set a.size (a.datapoint_copy e)
                     size := (a.size + 1) % UINT_RANGE }) ∨
      (a.size = a.capacity ∧ 1 ≤ a.capacity ∧ a.capacity ≤ INT_MAX ∧
        b = { a with
          data := a.data ++ a.datapoint_copy e :: List.replicate (a.capacity - 1) NULL
          capacity := 2 * a.capacity
          size := a.size + 1 }) := by
  by_cases hfull : a.size = a.capacity
  · right
    have hgood : 1 ≤ a.capacity ∧ a.capacity ≤ INT_MAX := by
      unfold dynamic_array_append at h
      rw [if_pos hfull] at h
      obtain ⟨a', ha', h2⟩ := Option.bind_eq_some.1 h
      obtain ⟨d, hd, -⟩ := Option.map_eq_some'.1 h2
      have hw : a'.size < a'.data.length := by
        unfold write at hd
        by_contra hcon
        rw [if_neg hcon] at hd
        cases hd
      rcases change_capacity_form a a' _ (by omega) ha' with h1 | ⟨hle, hmax, h1⟩
      · rw [h1] at hw; omega
      · rw [h1] at hw
        simp only [resized, List.length_append, List.length_take, List.length_replicate,
          UINT_RANGE] at hw hle
        constructor <;> omega
    refine ⟨hfull, hgood.1, hgood.2, ?_⟩
    rw [append_full_spec a e hlen hfull hgood.1 hgood.2] at h
    cases h
    rfl
  · left
    unfold dynamic_array_append at h
    rw [if_neg hfull] at h
    simp only [Option.some_bind] at h
    obtain ⟨d, hd, hb⟩ := Option.map_eq_some'.1 h
    unfold write at hd
    by_cases hlt : a.size < a.data.length
    · rw [if_pos hlt] at hd
      cases hd
      exact ⟨by omega, hb.symm⟩
    · rw [if_neg hlt] at hd
      cases hd

theorem delete_form (a b : DynamicArray) (e : Ptr) (r : Int) (hn : a.size ≤ a.data.length)
    (h : dynamic_array_delete a e = some (b, r)) :
    a.size ≤ INT_MAX ∧
      (b = scanned a e ∨
        ∃ N, N ≤ a.capacity ∧ (scanned a e).size ≤ N ∧ b = resized (scanned a e) N) := by
  have hmax : a.size ≤ INT_MAX := by
    unfold dynamic_array_delete at h
    obtain ⟨st, hst, -⟩ := Option.bind_eq_some.1 h
    exact for_int_some_le _ _ _ _ hst
  refine ⟨hmax, ?_⟩
  have hFle : ((live a).filter (keeps a e)).length ≤ a.size := by
    refine Nat.le_trans (List.length_filter_le _ _) ?_
    rw [live_length a hn]
  unfold dynamic_array_delete at h
  rw [delete_scan_spec a e hn hmax] at h
  simp only [Option.some_bind] at h
  by_cases hall : ((live a).filter (keeps a e)).length = a.size
  · left
    have h0 : a.size - ((a.data.take a.size).filter (keeps a e)).length = 0 := by
      simp only [live] at hall; omega
    rw [if_pos h0] at h
    cases h
    simp only [scanned, live] at hall ⊢
    rw [hall]
  · have h0 : ¬ (a.size - ((a.data.take a.size).filter (keeps a e)).length = 0) := by
      simp only [live] at hall hFle; omega
    have hmod : (a.size + UINT_RANGE
          - (a.size - ((a.data.take a.size).filter (keeps a e)).length)) % UINT_RANGE
        = ((a.data.take a.size).filter (keeps a e)).length := by
      simp only [live] at hFle
      have e1 : a.size + UINT_RANGE
            - (a.size - ((a.data.take a.size).filter (keeps a e)).length)
          = ((a.data.take a.size).filter (keeps a e)).length + UINT_RANGE := by omega
      rw [e1, Nat.add_mod_right]
      apply Nat.mod_eq_of_lt
      simp only [INT_MAX] at hmax; simp only [UINT_RANGE]; omega
    rw [if_neg h0] at h
    simp only [hmod] at h
    have hsc : (scanned a e).size ≤ (scanned a e).data.length := by
      simp only [scanned, live, List.length_append, List.length_replicate, List.length_drop]
      simp only [live] at hFle
      omega
    change ((shrink_test (scanned a e) (scanned a e).capacity).bind fun s1 =>
        if s1 = true then
          (shrink_test (scanned a e) ((scanned a e).capacity / 2)).bind fun s2 =>
            (_dynamic_array_change_capacity (scanned a e)
              (if s2 = true then (scanned a e).capacity / 2 / 2
                else (scanned a e).capacity / 2)).map fun c => (c, (1 : Int))
        else some (scanned a e, 1)) = some (b, r) at h
    obtain ⟨s1, -, h1⟩ := Option.bind_eq_some.1 h
    cases s1 with
    | false =>
      simp only [Bool.false_eq_true, if_false] at h1
      cases h1
      exact Or.inl rfl
    | true =>
      simp only [if_true] at h1
      obtain ⟨s2, -, h2⟩ := Option.bind_eq_some.1 h1
      obtain ⟨c, hc, hcb⟩ := Option.map_eq_some'.1 h2
      cases hcb
      rcases change_capacity_form _ _ _ hsc hc with hcc | ⟨hle, -, hcc⟩
      · exact Or.inl hcc
      · right
        refine ⟨_, ?_, hle, hcc⟩
        have hcapeq : (scanned a e).capacity = a.capacity := rfl
        rw [hcapeq]
        split_ifs
        · exact Nat.le_trans (Nat.div_le_self _ _) (Nat.div_le_self _ _)
        · exact Nat.div_le_self _ _

end DynArr

namespace DynArr

theorem pos_in_bounds_inv (size : Nat) (pos : Int) (hR : size < UINT_RANGE)
    (h : pos_out_of_bounds size pos = some false) :
    size ≤ INT_MAX ∧ -(size : Int) ≤ pos ∧ pos ≤ (size : Int) - 1 := by
  by_cases hs : size ≤ INT_MAX
  · unfold pos_out_of_bounds at h
    rw [int_of_unsigned_small size hs, int_checked_some _ (by omega) (by omega),
      int_checked_some _ (by omega) (by omega)] at h
    simp only [Option.some_bind, Option.map_some'] at h
    by_cases hlt : pos < -(size : Int)
    · rw [if_pos hlt] at h
      cases h
    · rw [if_neg hlt] at h
      have hd : decide ((size : Int) - 1 < pos) = false := Option.some.inj h
      have hle : ¬ ((size : Int) - 1 < pos) := of_decide_eq_false hd
      exact ⟨hs, by omega, by omega⟩
  · exfalso
    have hios : int_of_unsigned size = (size : Int) - (UINT_RANGE : Int) := by
      simp only [int_of_unsigned, if_neg hs]
    unfold pos_out_of_bounds at h
    rw [hios] at h
    simp only [INT_MAX, UINT_RANGE] at hs hR
    by_cases h31 : size = 2147483648
    · have hnone : int_checked (-((size : Int) - (UINT_RANGE : Int))) = none := by
        simp only [int_checked, INT_MAX, UINT_RANGE]
        rw [if_neg (by omega)]
      rw [hnone] at h
      cases h
    · have hlo : int_checked (-((size : Int) - (UINT_RANGE : Int)))
          = some (-((size : Int) - (UINT_RANGE : Int))) :=
        int_checked_some _ (by simp only [INT_MAX, UINT_RANGE]; omega)
          (by simp only [INT_MAX, UINT_RANGE]; omega)
      have hhi : int_checked ((size : Int) - (UINT_RANGE : Int) - 1)
          = some ((size : Int) - (UINT_RANGE : Int) - 1) :=
        int_checked_some _ (by simp only [INT_MAX, UINT_RANGE]; omega)
          (by simp only [INT_MAX, UINT_RANGE]; omega)
      rw [hlo, hhi] at h
      simp only [Option.some_bind, Option.map_some'] at h
      by_cases hlt : pos < -((size : Int) - (UINT_RANGE : Int))
      · rw [if_pos hlt] at h
        cases h
      · rw [if_neg hlt] at h
        have hd : decide ((size : Int) - (UINT_RANGE : Int) - 1 < pos) = false :=
          Option.some.inj h
        have hle : ¬ ((size : Int) - (UINT_RANGE : Int) - 1 < pos) := of_decide_eq_false hd
        simp only [UINT_RANGE] at hlt hle
        omega

theorem delete_at_pos_eq (a : DynamicArray) (pos : Int) (idx : Nat)
    (hn : a.size ≤ a.data.length) (hmax : a.size ≤ INT_MAX)
    (hpos : pos_out_of_bounds a.size pos = some false)
    (hres : resolve_pos a.size pos = some (idx : Int)) (hidx : idx < a.size)
    (hil : idx < a.data.length) :
    dynamic_array_delete_at_pos a pos
      = (shrink_test (erased a idx a.data[idx]) (erased a idx a.data[idx]).capacity).bind
          fun s =>
            if s = true then
              (_dynamic_array_change_capacity (erased a idx a.data[idx])
                ((erased a idx a.data[idx]).capacity / 2)).map fun c => (c, (1 : Int))
            else some (erased a idx a.data[idx], 1) := by
  obtain ⟨d1, hd1, hd1len, hd1k⟩ :=
    shift_loop_spec a.data a.size idx hidx (by omega) (by omega)
  have hread : read_int a.data (idx : Int) = some a.data[idx] := by
    simp only [read_int, if_neg (show ¬ ((idx : Int) < 0) by omega), read, Int.toNat_ofNat,
      List.getElem?_eq_getElem hil]
  have hwrite : write_int a.data (idx : Int) NULL = some (a.data.set idx NULL) := by
    simp only [write_int, if_neg (show ¬ ((idx : Int) < 0) by omega), write, Int.toNat_ofNat,
      if_pos hil]
  have hsucc : int_checked ((idx : Int) + 1) = some ((idx + 1 : Nat) : Int) := by
    rw [int_checked_some _ (by omega) (by omega)]; rfl
  have hmod : (a.size + UINT_RANGE - 1) % UINT_RANGE = a.size - 1 := by
    have e1 : a.size + UINT_RANGE - 1 = (a.size - 1) + UINT_RANGE := by omega
    rw [e1, Nat.add_mod_right]
    apply Nat.mod_eq_of_lt
    simp only [INT_MAX] at hmax; simp only [UINT_RANGE]; omega
  have hw2 : write d1 (a.size - 1) NULL
      = some (a.data.take idx
          ++ ((a.data.drop (idx + 1)).take (a.size - (idx + 1))
            ++ NULL :: a.data.drop a.size)) := by
    simp only [write, if_pos (show a.size - 1 < d1.length by omega)]
    rw [erase_slot_eq a.data d1 a.size idx hidx (by omega) hd1len hd1k]
  unfold dynamic_array_delete_at_pos
  simp only [hpos, Option.some_bind, Bool.false_eq_true, if_false, hres, hread, hwrite,
    hsucc, Int.toNat_ofNat, hd1, hmod, hw2]
  rfl

theorem delete_at_pos_form (a b : DynamicArray) (pos : Int) (r : Int)
    (hn : a.size ≤ a.data.length) (hR : a.size < UINT_RANGE)
    (h : dynamic_array_delete_at_pos a pos = some (b, r)) :
    b = a ∨ ∃ idx x, idx < a.size ∧ a.size ≤ INT_MAX ∧ a.data[idx]? = some x ∧
      (b = erased a idx x ∨
        ∃ N, N ≤ a.capacity ∧ (erased a idx x).size ≤ N ∧ b = resized (erased a idx x) N) := by
  have hoob : ∃ oob, pos_out_of_bounds a.size pos = some oob := by
    unfold dynamic_array_delete_at_pos at h
    obtain ⟨oob, ho, -⟩ := Option.bind_eq_some.1 h
    exact ⟨oob, ho⟩
  obtain ⟨oob, ho⟩ := hoob
  cases oob with
  | true =>
    left
    unfold dynamic_array_delete_at_pos at h
    simp only [ho, Option.some_bind, if_true] at h
    cases h
    rfl
  | false =>
    right
    obtain ⟨hmax, hlo, hhi⟩ := pos_in_bounds_inv a.size pos hR ho
    obtain ⟨idx, hidx, -, hres⟩ := resolve_pos_index a.size pos hmax hlo hhi
    have hil : idx < a.data.length := by omega
    refine ⟨idx, a.data[idx], hidx, hmax, List.getElem?_eq_getElem hil, ?_⟩
    rw [delete_at_pos_eq a pos idx hn hmax ho hres hidx hil] at h
    have hsc : (erased a idx a.data[idx]).size ≤ (erased a idx a.data[idx]).data.length := by
      simp only [erased, List.length_append, List.length_take, List.length_drop,
        List.length_cons]
      omega
    obtain ⟨s, -, h1⟩ := Option.bind_eq_some.1 h
    cases s with
    | false =>
      simp only [Bool.false_eq_true, if_false] at h1
      cases h1
      exact Or.inl rfl
    | true =>
      simp only [if_true] at h1
      obtain ⟨c, hc, hcb⟩ := Option.map_eq_some'.1 h1
      cases hcb
      rcases change_capacity_form _ _ _ hsc hc with hcc | ⟨hle, -, hcc⟩
      · exact Or.inl hcc
      · exact Or.inr ⟨_, Nat.div_le_self _ _, hle, hcc⟩

theorem clear_form (a b : DynamicArray) (hn : a.size ≤ a.data.length)
    (h : dynamic_array_clear a = some b) :
    b = (if a.capacity > a.minimum_capacity then
          { a with
            data := List.replicate a.minimum_capacity NULL
            events := a.events ++ (live a).map (Event.destroyer a.datapoint_destroyer)
            size := 0
            capacity := a.minimum_capacity }
        else
          { a with
            data := List.replicate a.size NULL ++ a.data.drop a.size
            events := a.events ++ (live a).map (Event.destroyer a.datapoint_destroyer)
            size := 0 }) := by
  have hmax : a.size ≤ INT_MAX := by
    unfold dynamic_array_clear at h
    obtain ⟨st, hst, -⟩ := Option.bind_eq_some.1 h
    exact for_int_some_le _ _ _ _ hst
  rw [clear_spec a hn hmax] at h
  cases h
  rfl

end DynArr

namespace DynArr

/-! ## The size invariant along sequences of calls -/

theorem sized_resized (a : DynamicArray) (N : Nat) (hs : Sized a) (hle : a.size ≤ N) :
    Sized (resized a N) := by
  obtain ⟨hlen, hsz, hlt⟩ := hs
  refine ⟨?_, hle, hlt⟩
  simp only [resized, List.length_append, List.length_take, List.length_replicate]
  omega

theorem filter_keeps_le (a : DynamicArray) (e : Ptr) (hn : a.size ≤ a.data.length) :
    ((live a).filter (keeps a e)).length ≤ a.size := by
  refine Nat.le_trans (List.length_filter_le _ _) ?_
  rw [live_length a hn]

theorem sized_scanned (a : DynamicArray) (e : Ptr) (hs : Sized a) : Sized (scanned a e) := by
  obtain ⟨hlen, hsz, hlt⟩ := hs
  have hF := filter_keeps_le a e (by omega)
  refine ⟨?_, ?_, ?_⟩
  · simp only [scanned, List.length_append, List.length_replicate, List.length_drop]
    omega
  · simp only [scanned]; omega
  · simp only [scanned]; omega

theorem sized_erased (a : DynamicArray) (idx : Nat) (x : Ptr) (hs : Sized a)
    (hidx : idx < a.size) : Sized (erased a idx x) := by
  obtain ⟨hlen, hsz, hlt⟩ := hs
  refine ⟨?_, ?_, ?_⟩
  · simp only [erased, List.length_append, List.length_take, List.length_drop,
      List.length_cons]
    omega
  · simp only [erased]; omega
  · simp only [erased]; omega

theorem sized_step (a b : DynamicArray) (op : Op) (hs : Sized a)
    (h : step a op = some b) : Sized b := by
  have hn : a.size ≤ a.data.length := by have := hs.length_eq; have := hs.size_le; omega
  cases op with
  | append e =>
    rcases append_form a b e hs.length_eq h with ⟨hlt, hb⟩ | ⟨hfull, hpos, hmax, hb⟩
    · rw [hb]
      refine ⟨?_, ?_, ?_⟩
      · simp only [List.length_set]; exact hs.length_eq
      · have := Nat.mod_le (a.size + 1) UINT_RANGE
        simp only; omega
      · exact Nat.mod_lt _ (by decide)
    · rw [hb]
      have hlen := hs.length_eq
      refine ⟨?_, ?_, ?_⟩
      · simp only [List.length_append, List.length_cons, List.length_replicate]; omega
      · simp only; omega
      · simp only [INT_MAX] at hmax; simp only [UINT_RANGE]; omega
  | delete e =>
    obtain ⟨⟨b', r⟩, hb, hfst⟩ := Option.map_eq_some'.1 h
    simp only at hfst
    subst hfst
    rcases (delete_form a b' e r hn hb).2 with hb' | ⟨N, -, hle, hb'⟩
    · rw [hb']; exact sized_scanned a e hs
    · rw [hb']; exact sized_resized _ N (sized_scanned a e hs) hle
  | delete_at_pos pos =>
    obtain ⟨⟨b', r⟩, hb, hfst⟩ := Option.map_eq_some'.1 h
    simp only at hfst
    subst hfst
    rcases delete_at_pos_form a b' pos r hn hs.size_lt hb with hb' |
      ⟨idx, x, hidx, -, -, hb' | ⟨N, -, hle, hb'⟩⟩
    · rw [hb']; exact hs
    · rw [hb']; exact sized_erased a idx x hs hidx
    · rw [hb']; exact sized_resized _ N (sized_erased a idx x hs hidx) hle
  | clear =>
    have hb := clear_form a b hn h
    rw [hb]
    have hlen := hs.length_eq
    have hsz := hs.size_le
    split_ifs
    · exact ⟨by simp only [List.length_replicate], Nat.zero_le _,
        (by decide : 0 < UINT_RANGE)⟩
    · refine ⟨?_, Nat.zero_le _, (by decide : 0 < UINT_RANGE)⟩
      simp only [List.length_append, List.length_replicate, List.length_drop]; omega

theorem sized_run (ops : List Op) :
    ∀ (a b : DynamicArray), Sized a → run a ops = some b → Sized b := by
  induction ops with
  | nil => intro a b hs h; cases h; exact hs
  | cons op ops ih =>
    intro a b hs h
    obtain ⟨c, hc, hrun⟩ := Option.bind_eq_some.1 h
    exact ih c b (sized_step a c op hs hc) hrun

/-! ## Sequences of calls: definedness and the invariants together -/

end DynArr

namespace DynArr

/-! ## The slot invariant along sequences of calls -/

/-- The run of the witness of C19, evaluated: the state reached is the store
`103, NULL, NULL, NULL` with size 1 and capacity 4. -/
theorem slots_evaluated :
    run (dynamic_array_init 1 ⟨1, -2⟩ 77 (fun x y => if x = y then 1 else 0)
          (fun p => p + 100))
        [Op.append 1, Op.append 2, Op.append 3, Op.append 2, Op.append 5, Op.delete 102,
          Op.delete_at_pos (-1), Op.delete_at_pos 0]
      = some ⟨[103, 0, 0, 0], 1, 4, 1, ⟨1, -2⟩, 77,
          fun x y => if x = y then 1 else 0, fun p => p + 100,
          [Event.destroyer 77 102, Event.destroyer 77 102, Event.destroyer 77 105,
            Event.destroyer 77 101]⟩ :=
  rfl

end DynArr

namespace DynArr

/-! ## Containers of more than `INT_MAX` elements -/

theorem append_room_unsigned (a : DynamicArray) (e : Ptr)
    (hlen : a.data.length = a.capacity) (hlt : a.size < a.capacity)
    (hR : a.capacity < UINT_RANGE) :
    dynamic_array_append a e
      = some { a with data := a.data.set a.size (a.datapoint_copy e), size := a.size + 1 } := by
  unfold dynamic_array_append
  have hne : a.size ≠ a.capacity := by omega
  have hmod : (a.size + 1) % UINT_RANGE = a.size + 1 := Nat.mod_eq_of_lt (by omega)
  simp only [if_neg hne, Option.some_bind, write, hlen, if_pos hlt, Option.map_some', hmod]

theorem append_all_room_unsigned (xs : List Ptr) :
    ∀ (a : DynamicArray), a.data.length = a.capacity →
      a.size + xs.length ≤ a.capacity → a.capacity < UINT_RANGE →
      ∃ b, append_all a xs = some b ∧ b.data.length = b.capacity ∧
        b.capacity = a.capacity ∧ b.size = a.size + xs.length ∧
        b.datapoint_copy = a.datapoint_copy ∧
        live b = live a ++ xs.map a.datapoint_copy := by
  induction xs with
  | nil => intro a hlen _ _; exact ⟨a, rfl, hlen, rfl, by simp, rfl, by simp⟩
  | cons x xs ih =>
    intro a hlen hroom hR
    simp only [List.length_cons] at hroom
    obtain ⟨c, hc, hclen, hccap, hcsize, hccopy, hclive⟩ :=
      ih { a with data := a.data.set a.size (a.datapoint_copy x), size := a.size + 1 }
        (by simp only [List.length_set]; exact hlen) (by simp only; omega) hR
    refine ⟨c, ?_, hclen, hccap, ?_, hccopy, ?_⟩
    · simp only [append_all, append_room_unsigned a x hlen (by omega) hR, Option.some_bind]
      exact hc
    · simp only [List.length_cons]; simp only at hcsize; omega
    · rw [hclive]
      simp only [live, List.map_cons]
      rw [live_set_size a.data a.size _ (by omega), List.append_assoc]
      rfl

theorem pos_wrapped (size : Nat) (h1 : INT_MAX + 1 < size) (h2 : size < UINT_RANGE) :
    pos_out_of_bounds size 0 = some true := by
  unfold pos_out_of_bounds
  have hi : int_of_unsigned size = (size : Int) - (UINT_RANGE : Int) := by
    simp only [int_of_unsigned, if_neg (show ¬ size ≤ INT_MAX by omega)]
  simp only [INT_MAX] at h1
  simp only [UINT_RANGE] at h2
  rw [hi, int_checked_some _ (by simp only [INT_MAX, UINT_RANGE]; omega)
    (by simp only [INT_MAX, UINT_RANGE]; omega)]
  simp only [Option.some_bind]
  rw [if_pos (by simp only [UINT_RANGE]; omega)]

theorem delete_at_pos_wrapped (a : DynamicArray) (h1 : INT_MAX + 1 < a.size)
    (h2 : a.size < UINT_RANGE) : dynamic_array_delete_at_pos a 0 = some (a, 0) := by
  unfold dynamic_array_delete_at_pos
  simp only [pos_wrapped a.size h1 h2, Option.some_bind, if_true]

theorem get_wrapped (a : DynamicArray) (h1 : INT_MAX + 1 < a.size)
    (h2 : a.size < UINT_RANGE) : dynamic_array_get a 0 = some NULL := by
  unfold dynamic_array_get
  simp only [pos_wrapped a.size h1 h2, Option.some_bind, if_true]

theorem appended_large (n : Nat) (hn : n = 2147483653) (lf : Double) (d : Ptr)
    (eq : Ptr → Ptr → Int) (cp : Ptr → Ptr) (v : Ptr) :
    ∃ a, append_all (dynamic_array_init n lf d eq cp) (List.replicate n v) = some a ∧
      a.size = n ∧ a.capacity = n ∧ a.data.length = a.capacity ∧
      a.datapoint_copy = cp ∧ a.data[0]? = some (cp v) := by
  obtain ⟨a, ha, halen, hacap, hasize, hacopy, halive⟩ :=
    append_all_room_unsigned (List.replicate n v) (dynamic_array_init n lf d eq cp)
      (by simp only [dynamic_array_init, List.length_replicate])
      (by simp only [dynamic_array_init, List.length_replicate]; omega)
      (by simp only [dynamic_array_init, UINT_RANGE]; omega)
  simp only [dynamic_array_init, List.length_replicate, Nat.zero_add] at hacap hasize hacopy
  refine ⟨a, ha, hasize, hacap, halen, hacopy, ?_⟩
  have h0 : (live a)[0]? = some (cp v) := by
    rw [halive]
    simp only [live, dynamic_array_init, List.take_zero, List.nil_append, List.map_replicate,
      List.getElem?_replicate]
    rw [if_pos (by omega)]
  simp only [live, List.getElem?_take] at h0
  rw [if_pos (by omega)] at h0
  exact h0

end DynArr

namespace DynArr

/-- C6 as stated fails: `dynamic_array_init(2147483653, 0.5)` followed by
2147483653 appends gives a container of size `n = 2147483653`, and `pos = 0` lies
in `[-n, n - 1]`.  The bounds test reads the size through `(int)size`, which is
`-2147483643` here, so `0 < -((int)size)` holds and `dynamic_array_delete_at_pos`
returns 0 and removes nothing. -/
theorem C6_counterexample :
    ∃ a, append_all
        (dynamic_array_init 2147483653 ⟨1, -1⟩ 77 (fun x y => if x = y then 1 else 0)
          (fun p => p)) (List.replicate 2147483653 7) = some a ∧
      a.size = 2147483653 ∧ a.capacity = 2147483653 ∧ a.data.length = a.capacity ∧
      (1 ≤ a.size ∧ -(a.size : Int) ≤ 0 ∧ (0 : Int) ≤ (a.size : Int) - 1) ∧
      int_of_unsigned a.size = -2147483643 ∧
      dynamic_array_delete_at_pos a 0 = some (a, 0) ∧
      ¬ ∃ b, dynamic_array_delete_at_pos a 0 = some (b, 1) ∧ b.size + 1 = a.size := by
  obtain ⟨a, ha, hsize, hcap, hlen, -, -⟩ := appended_large 2147483653 rfl ⟨1, -1⟩ 77
    (fun x y => if x = y then 1 else 0) (fun p => p) 7
  have hdel : dynamic_array_delete_at_pos a 0 = some (a, 0) :=
    delete_at_pos_wrapped a (by rw [hsize]; decide) (by rw [hsize]; decide)
  refine ⟨a, ha, hsize, hcap, hlen, ⟨by omega, by omega, by omega⟩, ?_, hdel, ?_⟩
  · rw [hsize]; decide
  · rintro ⟨b, hb, -⟩
    rw [hdel] at hb
    have h01 : (0 : Int) = 1 := congrArg Prod.snd (Option.some.inj hb)
    exact absurd h01 (by decide)

/-- C14 as stated fails: `dynamic_array_init(2147483653, 0.5)` followed by
2147483653 appends of the handle 7, copied to 107, gives a container of size
2147483653 whose slot 0 holds 107.  `dynamic_array_get(0)` returns `NULL` (its
bounds test reads `(int)size = -2147483643`), not the copy 207 of slot 0, and the
`int` counter of `dynamic_array_get_all` passes `INT_MAX` before it reaches the
size, so no array whose entries are the values `dynamic_array_get` returns
results. -/
theorem C14_counterexample :
    ∃ a, append_all
        (dynamic_array_init 2147483653 ⟨1, -1⟩ 77 (fun x y => if x = y then 1 else 0)
          (fun p => p + 100)) (List.replicate 2147483653 7) = some a ∧
      a.size = 2147483653 ∧ a.capacity = 2147483653 ∧ a.data.length = a.capacity ∧
      a.data[0]? = some 107 ∧ a.datapoint_copy 107 = 207 ∧
      dynamic_array_get a 0 = some NULL ∧
      (¬ ∃ x, a.data[0]? = some x ∧ dynamic_array_get a 0 = some (a.datapoint_copy x)) ∧
      dynamic_array_get_all a = none ∧
      ¬ ∃ arr, dynamic_array_get_all a = some (some arr) ∧ arr.length = a.size ∧
        ∀ i : Nat, i < a.size → ∃ x, a.data[i]? = some x ∧
          arr[i]? = some (a.datapoint_copy x) ∧
          dynamic_array_get a (i : Int) = some (a.datapoint_copy x) := by
  obtain ⟨a, ha, hsize, hcap, hlen, hcopy, h0⟩ := appended_large 2147483653 rfl ⟨1, -1⟩ 77
    (fun x y => if x = y then 1 else 0) (fun p => p + 100) 7
  have hall : dynamic_array_get_all a = none :=
    get_all_overflow a (by rw [hsize]; decide)
  have hget : dynamic_array_get a 0 = some NULL :=
    get_wrapped a (by rw [hsize]; decide) (by rw [hsize]; decide)
  refine ⟨a, ha, hsize, hcap, hlen, h0, by rw [hcopy], hget, ?_, hall, ?_⟩
  · rintro ⟨x, hx, hgx⟩
    rw [h0] at hx
    rw [hget, ← Option.some.inj hx, hcopy] at hgx
    exact absurd (Option.some.inj hgx) (by decide)
  · rintro ⟨arr, harr, -⟩
    rw [hall] at harr
    exact Option.noConfusion harr

end DynArr

namespace DynArr

/-! ## Copy and append on memory -/

theorem mem_block_lt (h : Mem.Heap) (p : Nat) (xs : List Ptr)
    (hb : Mem.block h p = some xs) : p < h.arrays.length := by
  by_contra hlt
  simp only [Mem.block, List.getElem?_eq_none (Nat.le_of_not_lt hlt), Option.none_bind] at hb
  exact Option.noConfusion hb

theorem mem_block_get (h : Mem.Heap) (p : Nat) (xs : List Ptr)
    (hb : Mem.block h p = some xs) : h.arrays[p]? = some (some xs) := by
  simp only [Mem.block] at hb
  cases hg : h.arrays[p]? with
  | none => rw [hg] at hb; exact Option.noConfusion hb
  | some v =>
    rw [hg] at hb
    simp only [Option.some_bind, id] at hb
    rw [hb]

theorem mem_block_set_same (st : List Mem.DynamicArray) (arr : List (Option (List Ptr)))
    (p : Nat) (v : Option (List Ptr)) (hp : p < arr.length) :
    Mem.block ⟨st, arr.set p v⟩ p = v := by
  simp only [Mem.block, List.getElem?_set_self hp, Option.some_bind, id]

theorem mem_block_set_other (st : List Mem.DynamicArray) (arr : List (Option (List Ptr)))
    (p q : Nat) (v : Option (List Ptr)) (hne : p ≠ q) :
    Mem.block ⟨st, arr.set p v⟩ q = Mem.block ⟨st, arr⟩ q := by
  simp only [Mem.block, List.getElem?_set_ne hne]

theorem list_set_self {α : Type} (l : List α) (i : Nat) (x : α) (h : l[i]? = some x) :
    l.set i x = l := by
  apply List.ext_getElem?
  intro j
  by_cases hij : i = j
  · subst hij
    rw [h]
    have hlt : i < l.length := by
      by_contra hc
      rw [List.getElem?_eq_none (Nat.le_of_not_lt hc)] at h
      exact Option.noConfusion h
    exact List.getElem?_set_self hlt
  · exact List.getElem?_set_ne hij

theorem list_set_append_last {α : Type} (l : List α) (x y : α) :
    (l ++ [x]).set l.length y = l ++ [y] := by
  induction l with
  | nil => rfl
  | cons a l ih => simp only [List.cons_append, List.length_cons, List.set_cons_succ, ih]

theorem mem_loop_sim (src dst : Nat) (f : Ptr → Ptr) (xs : List Ptr) (hne : dst ≠ src) :
    ∀ (n i : Nat) (h : Mem.Heap) (ys : List Ptr),
      Mem.block h src = some xs → Mem.block h dst = some ys →
      for_int (fun i hh => (Mem.load hh src i).bind fun x => Mem.store hh dst i (f x)) n i h
        = (for_int (fun i d => (read xs i).bind fun x => write d i (f x)) n i ys).map
            fun zs => { h with arrays := h.arrays.set dst (some zs) } := by
  intro n
  induction n with
  | zero =>
    intro i h ys _ hdst
    simp only [for_int, Option.map_some']
    rw [list_set_self h.arrays dst (some ys) (mem_block_get h dst ys hdst)]
  | succ n ih =>
    intro i h ys hsrc hdst
    have hload : Mem.load h src i = read xs i := by
      simp only [Mem.load, hsrc, Option.some_bind]
    have hstore : ∀ v, Mem.store h dst i v
        = (write ys i v).map fun zs => { h with arrays := h.arrays.set dst (some zs) } := by
      intro v
      simp only [Mem.store, hdst, Option.some_bind]
    simp only [for_int]
    rw [hload]
    cases hr : read xs i with
    | none => rfl
    | some x =>
      simp only [Option.some_bind]
      rw [hstore]
      cases hw : write ys i (f x) with
      | none => rfl
      | some zs =>
        simp only [Option.map_some']
        by_cases hi : i = INT_MAX
        · simp only [if_pos hi, Option.map_none']
        · simp only [if_neg hi]
          have hlt := mem_block_lt h dst ys hdst
          rw [ih (i + 1) { h with arrays := h.arrays.set dst (some zs) } zs
            (by rw [mem_block_set_other h.structs h.arrays dst src _ hne]; exact hsrc)
            (mem_block_set_same h.structs h.arrays dst _ hlt)]
          simp only [List.set_set]

end DynArr

namespace DynArr

theorem mem_block_append_left (st : List Mem.DynamicArray)
    (arr extra : List (Option (List Ptr))) (p : Nat) (hp : p < arr.length) :
    Mem.block ⟨st, arr ++ extra⟩ p = Mem.block ⟨st, arr⟩ p := by
  simp only [Mem.block, List.getElem?_append_left hp]

theorem mem_block_append_last (st : List Mem.DynamicArray)
    (arr : List (Option (List Ptr))) (v : Option (List Ptr)) :
    Mem.block ⟨st, arr ++ [v]⟩ arr.length = v := by
  simp only [Mem.block, List.getElem?_append_right (Nat.le_refl _), Nat.sub_self,
    List.getElem?_cons_zero, Option.some_bind, id]

theorem mem_load_struct_lt (h : Mem.Heap) (p : Nat) (s : Mem.DynamicArray)
    (hs : Mem.load_struct h p = some s) : p < h.structs.length := by
  by_contra hlt
  simp only [Mem.load_struct, List.getElem?_eq_none (Nat.le_of_not_lt hlt)] at hs
  exact Option.noConfusion hs

theorem mem_change_capacity_spec (h : Mem.Heap) (p : Nat) (s : Mem.DynamicArray)
    (xs : List Ptr) (N : Nat)
    (hs : Mem.load_struct h p = some s) (hb : Mem.block h s.data = some xs)
    (hn : s.size ≤ xs.length) (hN : s.size ≤ N) (hmax : s.size ≤ INT_MAX) :
    Mem._dynamic_array_change_capacity h p N
      = some ⟨h.structs.set p { s with data := h.arrays.length, capacity := N },
          h.arrays.set s.data none
            ++ [some (xs.take s.size ++ List.replicate (N - s.size) NULL)]⟩ := by
  have hlt : s.data < h.arrays.length := mem_block_lt h _ _ hb
  have hp : p < h.structs.length := mem_load_struct_lt h p s hs
  obtain ⟨st, arr⟩ := h
  have hsim := mem_loop_sim s.data arr.length (fun v => v) xs (Nat.ne_of_gt hlt) s.size 0
    ⟨st, arr ++ [some (List.replicate N NULL)]⟩ (List.replicate N NULL)
    (by rw [mem_block_append_left st arr _ _ hlt]; exact hb)
    (mem_block_append_last st arr _)
  have hval : for_int (fun i d => (read xs i).bind fun x => write d i ((fun v => v) x))
      s.size 0 (List.replicate N NULL)
        = some (xs.take s.size ++ List.replicate (N - s.size) NULL) :=
    copy_loop_spec xs s.size N hn hN hmax
  rw [hval] at hsim
  simp only [Option.map_some', list_set_append_last] at hsim
  have hfree : Mem.free ⟨st, arr ++ [some (xs.take s.size ++ List.replicate (N - s.size) NULL)]⟩
      s.data
        = some ⟨st, arr.set s.data none
            ++ [some (xs.take s.size ++ List.replicate (N - s.size) NULL)]⟩ := by
    simp only [Mem.free]
    rw [mem_block_append_left st arr _ _ hlt, hb]
    simp only [Option.map_some', List.set_append_left _ _ hlt]
  unfold Mem._dynamic_array_change_capacity
  simp only [hs, Option.some_bind, if_neg (show ¬ s.size > N by omega), Mem.calloc]
  rw [show for_int (fun i hh => (Mem.load hh s.data i).bind fun v =>
      Mem.store hh arr.length i v) s.size 0 ⟨st, arr ++ [some (List.replicate N NULL)]⟩
        = _ from hsim]
  simp only [Option.some_bind, hfree, Mem.store_struct, if_pos hp]

end DynArr

namespace DynArr

theorem mem_append_room_spec (h : Mem.Heap) (p : Nat) (s : Mem.DynamicArray)
    (xs : List Ptr) (e : Ptr)
    (hs : Mem.load_struct h p = some s) (hb : Mem.block h s.data = some xs)
    (hlt : s.size < xs.length) (hne : s.size ≠ s.capacity) (hR : s.size + 1 < UINT_RANGE) :
    Mem.dynamic_array_append h p e
      = some ⟨h.structs.set p { s with size := s.size + 1 },
          h.arrays.set s.data (some (xs.set s.size (s.datapoint_copy e)))⟩ := by
  have hp : p < h.structs.length := mem_load_struct_lt h p s hs
  unfold Mem.dynamic_array_append
  simp only [hs, Option.some_bind, if_neg hne, Mem.store, hb, write, if_pos hlt,
    Option.map_some', Mem.store_struct, if_pos hp, Nat.mod_eq_of_lt hR]

theorem mem_append_full_spec (h : Mem.Heap) (p : Nat) (s : Mem.DynamicArray)
    (xs : List Ptr) (e : Ptr)
    (hs : Mem.load_struct h p = some s) (hb : Mem.block h s.data = some xs)
    (hlen : xs.length = s.capacity) (hfull : s.size = s.capacity)
    (hpos : 1 ≤ s.capacity) (hmax : s.capacity ≤ INT_MAX) :
    Mem.dynamic_array_append h p e
      = some ⟨h.structs.set p
            { s with data := h.arrays.length, capacity := 2 * s.capacity, size := s.size + 1 },
          h.arrays.set s.data none
            ++ [some (xs ++ s.datapoint_copy e :: List.replicate (s.capacity - 1) NULL)]⟩ := by
  have hp : p < h.structs.length := mem_load_struct_lt h p s hs
  have hdbl : (2 * s.capacity) % UINT_RANGE = 2 * s.capacity := by
    apply Nat.mod_eq_of_lt; simp only [INT_MAX] at hmax; simp only [UINT_RANGE]; omega
  have hmod : (s.size + 1) % UINT_RANGE = s.size + 1 := by
    apply Nat.mod_eq_of_lt; simp only [INT_MAX] at hmax; simp only [UINT_RANGE]; omega
  have hcc := mem_change_capacity_spec h p s xs (2 * s.capacity) hs hb (by omega) (by omega)
    (by omega)
  have htake : xs.take s.size ++ List.replicate (2 * s.capacity - s.size) NULL
      = xs ++ List.replicate s.capacity NULL := by
    rw [List.take_of_length_le (by omega)]
    congr 2
    omega
  rw [htake] at hcc
  obtain ⟨st, arr⟩ := h
  simp only at hcc hp
  have hlast : Mem.block ⟨st.set p { s with data := arr.length, capacity := 2 * s.capacity },
      arr.set s.data none ++ [some (xs ++ List.replicate s.capacity NULL)]⟩ arr.length
        = some (xs ++ List.replicate s.capacity NULL) := by
    have h1 := mem_block_append_last
      (st.set p { s with data := arr.length, capacity := 2 * s.capacity })
      (arr.set s.data none) (some (xs ++ List.replicate s.capacity NULL))
    rw [List.length_set] at h1
    exact h1
  have hset : (arr.set s.data none ++ [some (xs ++ List.replicate s.capacity NULL)]).set
      arr.length (some (xs ++ s.datapoint_copy e :: List.replicate (s.capacity - 1) NULL))
        = arr.set s.data none
          ++ [some (xs ++ s.datapoint_copy e :: List.replicate (s.capacity - 1) NULL)] := by
    have h1 := list_set_append_last (arr.set s.data none)
      (some (xs ++ List.replicate s.capacity NULL))
      (some (xs ++ s.datapoint_copy e :: List.replicate (s.capacity - 1) NULL))
    rw [List.length_set] at h1
    exact h1
  have hwrite : (xs ++ List.replicate s.capacity NULL).set s.size (s.datapoint_copy e)
      = xs ++ s.datapoint_copy e :: List.replicate (s.capacity - 1) NULL := by
    rw [List.set_append_right _ _ (by omega)]
    have h0 : s.size - xs.length = 0 := by omega
    have h1 : s.capacity = (s.capacity - 1) + 1 := by omega
    rw [h0, h1, List.replicate_succ, List.set_cons_zero]
    simp only [Nat.add_sub_cancel]
  unfold Mem.dynamic_array_append
  simp only [hs, Option.some_bind, if_pos hfull, hdbl, hcc]
  simp only [Mem.load_struct,
    List.getElem?_set_self hp, Option.some_bind, Mem.store, hlast, write, List.length_append,
    List.length_replicate, if_pos (show s.size < xs.length + s.capacity by omega),
    Option.map_some', hwrite, hset, Mem.store_struct, List.length_set, if_pos hp,
    List.set_set, hmod]

end DynArr

namespace DynArr

theorem mem_copy_spec (h : Mem.Heap) (p : Nat) (a : Mem.DynamicArray) (xs : List Ptr)
    (unset : Mem.DynamicArray)
    (hs : Mem.load_struct h p = some a) (hb : Mem.block h a.data = some xs)
    (hn : a.size ≤ xs.length) (hle : a.size ≤ a.capacity) (hmax : a.size ≤ INT_MAX) :
    Mem.dynamic_array_copy h p unset
      = some (⟨h.structs ++ [{ unset with
                capacity := a.capacity
                size := a.size
                data := h.arrays.length
                datapoint_destroyer := a.datapoint_destroyer
                datapoint_equals := a.datapoint_equals
                datapoint_copy := a.datapoint_copy }],
              h.arrays ++ [some ((xs.take a.size).map a.datapoint_copy
                ++ List.replicate (a.capacity - a.size) NULL)]⟩,
            h.structs.length) := by
  have hlt : a.data < h.arrays.length := mem_block_lt h _ _ hb
  have hp : p < h.structs.length := mem_load_struct_lt h p a hs
  obtain ⟨st, arr⟩ := h
  simp only at hlt hp
  have hs1 : Mem.load_struct ⟨st ++ [unset], arr⟩ p = some a := by
    simp only [Mem.load_struct, List.getElem?_append_left hp]
    exact hs
  have hsim := mem_loop_sim a.data arr.length a.datapoint_copy xs (Nat.ne_of_gt hlt) a.size 0
    ⟨st ++ [{ unset with capacity := a.capacity, size := a.size, data := arr.length }],
      arr ++ [some (List.replicate a.capacity NULL)]⟩ (List.replicate a.capacity NULL)
    (by rw [mem_block_append_left _ arr _ _ hlt]; exact hb)
    (mem_block_append_last _ arr _)
  rw [copy_map_loop_spec xs a.datapoint_copy a.size a.capacity hn hle hmax] at hsim
  simp only [Option.map_some', list_set_append_last] at hsim
  unfold Mem.dynamic_array_copy
  simp only [Mem.malloc, hs1, Option.some_bind, Mem.calloc, Mem.store_struct,
    List.length_append, List.length_cons, List.length_nil,
    if_pos (show st.length < st.length + (0 + 1) by omega), list_set_append_last]
  rw [hsim]
  simp only [Option.some_bind, Mem.load_struct,
    List.getElem?_append_right (Nat.le_refl st.length), Nat.sub_self,
    List.getElem?_cons_zero, List.length_append, List.length_cons, List.length_nil,
    if_pos (show st.length < st.length + (0 + 1) by omega), list_set_append_last,
    Option.map_some']

theorem mem_view_some (h : Mem.Heap) (p : Nat) (ev : List Event) (a : DynArr.DynamicArray)
    (hview : Mem.view h p ev = some a) :
    ∃ s, Mem.load_struct h p = some s ∧ Mem.block h s.data = some a.data ∧
      a = ⟨a.data, s.size, s.capacity, s.minimum_capacity, s.minimum_percentage_allowed,
        s.datapoint_destroyer, s.datapoint_equals, s.datapoint_copy, ev⟩ := by
  unfold Mem.view at hview
  obtain ⟨s, hs, hrest⟩ := Option.bind_eq_some.1 hview
  obtain ⟨xs, hxs, ha⟩ := Option.map_eq_some'.1 hrest
  refine ⟨s, hs, ?_, ?_⟩
  · rw [← ha]; exact hxs
  · rw [← ha]

theorem mem_view_frame (h h' : Mem.Heap) (p : Nat) (ev : List Event)
    (s : Mem.DynamicArray) (hs : Mem.load_struct h p = some s)
    (hs' : Mem.load_struct h' p = some s)
    (hb : Mem.block h' s.data = Mem.block h s.data) :
    Mem.view h' p ev = Mem.view h p ev := by
  simp only [Mem.view, hs, hs', Option.some_bind, hb]

end DynArr

namespace DynArr

theorem mem_copy_sim (h : Mem.Heap) (p : Nat) (unset : Mem.DynamicArray) (ev : List Event)
    (a : DynArr.DynamicArray) (hview : Mem.view h p ev = some a)
    (hn : a.size ≤ a.data.length) (hle : a.size ≤ a.capacity) (hmax : a.size ≤ INT_MAX) :
    ∃ h1 s cs, Mem.dynamic_array_copy h p unset = some (h1, h.structs.length) ∧
      Mem.view h1 h.structs.length []
        = dynamic_array_copy a unset.minimum_capacity unset.minimum_percentage_allowed ∧
      Mem.load_struct h p = some s ∧ s.data < h.arrays.length ∧
      Mem.load_struct h1 h.structs.length = some cs ∧ cs.data = h.arrays.length ∧
      h1.arrays.length = h.arrays.length + 1 ∧
      (∀ p', p' < h.structs.length → Mem.load_struct h1 p' = Mem.load_struct h p') ∧
      (∀ d, d < h.arrays.length → Mem.block h1 d = Mem.block h d) := by
  obtain ⟨s, hs, hb, ha⟩ := mem_view_some h p ev a hview
  have hsize : a.size = s.size := congrArg DynArr.DynamicArray.size ha
  have hcap : a.capacity = s.capacity := congrArg DynArr.DynamicArray.capacity ha
  have hdes : a.datapoint_destroyer = s.datapoint_destroyer :=
    congrArg DynArr.DynamicArray.datapoint_destroyer ha
  have heq : a.datapoint_equals = s.datapoint_equals :=
    congrArg DynArr.DynamicArray.datapoint_equals ha
  have hcp : a.datapoint_copy = s.datapoint_copy :=
    congrArg DynArr.DynamicArray.datapoint_copy ha
  have hspec := mem_copy_spec h p s a.data unset hs hb (by omega) (by omega) (by omega)
  have hlt : s.data < h.arrays.length := mem_block_lt h _ _ hb
  obtain ⟨st, arr⟩ := h
  simp only at hspec hlt ⊢
  refine ⟨_, s, { unset with
      capacity := s.capacity
      size := s.size
      data := arr.length
      datapoint_destroyer := s.datapoint_destroyer
      datapoint_equals := s.datapoint_equals
      datapoint_copy := s.datapoint_copy }, hspec, ?_, hs, hlt, ?_, rfl, ?_, ?_, ?_⟩
  · rw [copy_spec a _ _ hn hle hmax]
    simp only [Mem.view, Mem.load_struct, List.getElem?_append_right (Nat.le_refl st.length),
      Nat.sub_self, List.getElem?_cons_zero, Option.some_bind, mem_block_append_last,
      Option.map_some', live, hsize, hcap, hdes, heq, hcp]
  · simp only [Mem.load_struct, List.getElem?_append_right (Nat.le_refl st.length),
      Nat.sub_self, List.getElem?_cons_zero]
  · simp only [List.length_append, List.length_cons, List.length_nil]
  · intro p' hp'
    simp only [Mem.load_struct, List.getElem?_append_left hp']
  · intro d hd
    exact mem_block_append_left _ arr _ d hd

theorem mem_append_sim (h : Mem.Heap) (q : Nat) (ev : List Event) (c : DynArr.DynamicArray)
    (e : Ptr) (hview : Mem.view h q ev = some c)
    (hlen : c.data.length = c.capacity) (hle : c.size ≤ c.capacity)
    (hpos : 1 ≤ c.capacity) (hmax : c.size < INT_MAX) :
    ∃ h2 s, Mem.load_struct h q = some s ∧
      Mem.dynamic_array_append h q e = some h2 ∧
      Mem.view h2 q ev = dynamic_array_append c e ∧
      (∀ p, p ≠ q → Mem.load_struct h2 p = Mem.load_struct h p) ∧
      (∀ d, d ≠ s.data → d < h.arrays.length → Mem.block h2 d = Mem.block h d) := by
  obtain ⟨s, hs, hb, hc⟩ := mem_view_some h q ev c hview
  have hsize : c.size = s.size := congrArg DynArr.DynamicArray.size hc
  have hcap : c.capacity = s.capacity := congrArg DynArr.DynamicArray.capacity hc
  have hcp : c.datapoint_copy = s.datapoint_copy :=
    congrArg DynArr.DynamicArray.datapoint_copy hc
  have hq : q < h.structs.length := mem_load_struct_lt h q s hs
  have hlt : s.data < h.arrays.length := mem_block_lt h _ _ hb
  by_cases hfull : c.size = c.capacity
  · have hspec := mem_append_full_spec h q s c.data e hs hb (by omega) (by omega) (by omega)
      (by omega)
    have hval := append_full_spec c e hlen hfull hpos (by omega)
    obtain ⟨st, arr⟩ := h
    simp only at hspec hlt hq ⊢
    refine ⟨_, s, hs, hspec, ?_, ?_, ?_⟩
    · rw [hval, hc]
      have hlast := mem_block_append_last
        (st.set q { s with data := arr.length, capacity := 2 * s.capacity, size := s.size + 1 })
        (arr.set s.data none)
        (some (c.data ++ s.datapoint_copy e :: List.replicate (s.capacity - 1) NULL))
      rw [List.length_set] at hlast
      simp only [Mem.view, Mem.load_struct, List.getElem?_set_self hq, Option.some_bind,
        hlast, Option.map_some']
    · intro p hp
      simp only [Mem.load_struct, List.getElem?_set_ne (Ne.symm hp)]
    · intro d hd hdl
      rw [mem_block_append_left _ (arr.set s.data none) _ d (by rw [List.length_set]; exact hdl),
        mem_block_set_other _ arr s.data d none (Ne.symm hd)]
      rfl
  · have hspec := mem_append_room_spec h q s c.data e hs hb (by omega) (by omega)
      (by simp only [INT_MAX] at hmax; simp only [UINT_RANGE]; omega)
    have hval := append_room_spec c e hlen (by omega) (by omega)
    obtain ⟨st, arr⟩ := h
    simp only at hspec hlt hq ⊢
    refine ⟨_, s, hs, hspec, ?_, ?_, ?_⟩
    · rw [hval, hc]
      simp only [Mem.view, Mem.load_struct, List.getElem?_set_self hq, Option.some_bind,
        mem_block_set_same _ arr s.data _ hlt, Option.map_some']
    · intro p hp
      simp only [Mem.load_struct, List.getElem?_set_ne (Ne.symm hp)]
    · intro d hd _
      rw [mem_block_set_other _ arr s.data d _ (Ne.symm hd)]
      rfl

end DynArr

namespace DynArr

/-- C13: on every valid source container lying in memory, `dynamic_array_copy`
returns a new container, at an address of its own, with the size, the capacity
and the three callbacks of the source, whose slot `i` holds
`copy_fn(source slot i)` for every `i < size`; the source is as before.  When
`copy_fn` returns duplicates that `equals_fn` accepts, the snapshots of the copy
and of the source agree slot by slot under `equals_fn` (both are `NULL` when the
source is empty).  An append to the copy (defined whenever the capacity is at
least 1 and the size below `INT_MAX`) adds the element to the copy and leaves the
source, read out of memory afterwards, with the size and the contents it had:
the backing store of the copy comes from `calloc` and is never the store of the
source.  The memory-level functions agree with the state-passing ones. -/
theorem C13_copy (h : Mem.Heap) (p : Nat) (unset : Mem.DynamicArray) (ev : List Event)
    (a : DynamicArray) (hview : Mem.view h p ev = some a) (hv : Valid a) :
    ∃ h1 q c, Mem.dynamic_array_copy h p unset = some (h1, q) ∧ q ≠ p ∧
      Mem.view h1 q [] = some c ∧ Mem.view h1 p ev = some a ∧
      dynamic_array_copy a unset.minimum_capacity unset.minimum_percentage_allowed
        = some c ∧
      c.size = a.size ∧ c.capacity = a.capacity ∧ c.data.length = c.capacity ∧
      c.datapoint_destroyer = a.datapoint_destroyer ∧
      c.datapoint_equals = a.datapoint_equals ∧
      c.datapoint_copy = a.datapoint_copy ∧
      (∀ i, i < a.size → ∃ x, a.data[i]? = some x ∧
        c.data[i]? = some (a.datapoint_copy x)) ∧
      (a.size = 0 → dynamic_array_get_all c = some none ∧
        dynamic_array_get_all a = some none) ∧
      ((∀ y, a.datapoint_equals (a.datapoint_copy y) y ≠ 0) → a.size ≠ 0 →
        ∃ gc ga, dynamic_array_get_all c = some (some gc) ∧
          dynamic_array_get_all a = some (some ga) ∧
          gc.length = a.size ∧ ga.length = a.size ∧
          ∀ i, i < a.size → ∃ u v, gc[i]? = some u ∧ ga[i]? = some v ∧
            a.datapoint_equals u v ≠ 0) ∧
      (∀ e, 1 ≤ a.capacity → a.size < INT_MAX →
        ∃ h2 c', Mem.dynamic_array_append h1 q e = some h2 ∧
          Mem.view h2 q [] = some c' ∧ dynamic_array_append c e = some c' ∧
          c'.size = a.size + 1 ∧
          live c' = (live a).map a.datapoint_copy ++ [a.datapoint_copy e] ∧
          Mem.view h2 p ev = some a) := by
  obtain ⟨c, hcopy, hcsize, hccap, hclen, hcd, hce, hcc, hslots, hempty, hall, happ⟩ :=
    copy_properties a unset.minimum_capacity unset.minimum_percentage_allowed hv
  have hn : a.size ≤ a.data.length := by have := hv.length_eq; have := hv.size_le; omega
  obtain ⟨h1, s, cs, hmc, hv1, hs, hslt, hcs, hcsd, hlen1, hfs, hfb⟩ :=
    mem_copy_sim h p unset ev a hview hn hv.size_le hv.size_int
  have hp : p < h.structs.length := mem_load_struct_lt h p s hs
  have hs1 : Mem.load_struct h1 p = some s := by rw [hfs p hp]; exact hs
  have hview1 : Mem.view h1 p ev = some a := by
    rw [mem_view_frame h h1 p ev s hs hs1 (hfb s.data hslt)]
    exact hview
  have hvc : Mem.view h1 h.structs.length [] = some c := by rw [hv1]; exact hcopy
  refine ⟨h1, h.structs.length, c, hmc, by omega, hvc, hview1, hcopy, hcsize, hccap, hclen,
    hcd, hce, hcc, hslots, hempty, hall, ?_⟩
  intro e hpos hlt
  obtain ⟨c', hc', hsz', hlive'⟩ := happ e hpos hlt
  obtain ⟨h2, cs', hcs', hma, hv2, hfs2, hfb2⟩ :=
    mem_append_sim h1 h.structs.length [] c e hvc hclen (by have := hv.size_le; omega)
      (by omega) (by omega)
  have hcseq : cs' = cs := Option.some.inj (hcs'.symm.trans hcs)
  have hs2 : Mem.load_struct h2 p = some s := by
    rw [hfs2 p (by omega)]; exact hs1
  have hb2 : Mem.block h2 s.data = Mem.block h1 s.data :=
    hfb2 s.data (by rw [hcseq, hcsd]; omega) (by omega)
  refine ⟨h2, c', hma, by rw [hv2]; exact hc', hc', hsz', hlive', ?_⟩
  rw [mem_view_frame h1 h2 p ev s hs1 hs2 hb2]
  exact hview1

/-- Witness of C13: copying a container of three elements held at capacity 4,
the only container in memory. -/
theorem C13_copy_witness :
    (Mem.view
        ⟨[⟨0, 3, 4, 4, ⟨1, -2⟩, 77, fun x y => if x % 100 = y % 100 then 1 else 0,
            fun p => p + 100⟩], [some [1, 2, 3, 0]]⟩ 0 []
      = some ⟨[1, 2, 3, 0], 3, 4, 4, ⟨1, -2⟩, 77,
          fun x y => if x % 100 = y % 100 then 1 else 0, fun p => p + 100, []⟩ ∧
      Valid ⟨[1, 2, 3, 0], 3, 4, 4, ⟨1, -2⟩, 77,
        fun x y => if x % 100 = y % 100 then 1 else 0, fun p => p + 100, []⟩) ∧
    ∃ h1 q c, Mem.dynamic_array_copy
        ⟨[⟨0, 3, 4, 4, ⟨1, -2⟩, 77, fun x y => if x % 100 = y % 100 then 1 else 0,
            fun p => p + 100⟩], [some [1, 2, 3, 0]]⟩ 0
        ⟨5, 6, 7, 9, ⟨3, 0⟩, 8, fun _ _ => 0, fun _ => 0⟩ = some (h1, q) ∧ q ≠ 0 ∧
      Mem.view h1 q [] = some c ∧
      Mem.view h1 0 [] = some ⟨[1, 2, 3, 0], 3, 4, 4, ⟨1, -2⟩, 77,
          fun x y => if x % 100 = y % 100 then 1 else 0, fun p => p + 100, []⟩ ∧
      dynamic_array_copy
        ⟨[1, 2, 3, 0], 3, 4, 4, ⟨1, -2⟩, 77,
          fun x y => if x % 100 = y % 100 then 1 else 0, fun p => p + 100, []⟩
        9 ⟨3, 0⟩ = some c ∧
      c.size = 3 ∧ c.capacity = 4 ∧ c.data.length = c.capacity ∧
      c.datapoint_destroyer = 77 ∧
      c.datapoint_equals = (fun x y => if x % 100 = y % 100 then 1 else 0) ∧
      c.datapoint_copy = (fun p => p + 100) ∧
      (∀ i, i < 3 → ∃ x, ([1, 2, 3, 0] : List Ptr)[i]? = some x ∧
        c.data[i]? = some ((fun p => p + 100) x)) ∧
      ((3 : Nat) = 0 → dynamic_array_get_all c = some none ∧
        dynamic_array_get_all
          ⟨[1, 2, 3, 0], 3, 4, 4, ⟨1, -2⟩, 77,
            fun x y => if x % 100 = y % 100 then 1 else 0, fun p => p + 100, []⟩
          = some none) ∧
      ((∀ y, (fun x y : Ptr => if x % 100 = y % 100 then (1 : Int) else 0)
          ((fun p => p + 100) y) y ≠ 0) → (3 : Nat) ≠ 0 →
        ∃ gc ga, dynamic_array_get_all c = some (some gc) ∧
          dynamic_array_get_all
            ⟨[1, 2, 3, 0], 3, 4, 4, ⟨1, -2⟩, 77,
              fun x y => if x % 100 = y % 100 then 1 else 0, fun p => p + 100, []⟩
            = some (some ga) ∧
          gc.length = 3 ∧ ga.length = 3 ∧
          ∀ i, i < 3 → ∃ u v, gc[i]? = some u ∧ ga[i]? = some v ∧
            (fun x y : Ptr => if x % 100 = y % 100 then (1 : Int) else 0) u v ≠ 0) ∧
      (∀ e, 1 ≤ 4 → 3 < INT_MAX →
        ∃ h2 c', Mem.dynamic_array_append h1 q e = some h2 ∧
          Mem.view h2 q [] = some c' ∧ dynamic_array_append c e = some c' ∧
          c'.size = 3 + 1 ∧
          live c' = (live ⟨[1, 2, 3, 0], 3, 4, 4, ⟨1, -2⟩, 77,
              fun x y => if x % 100 = y % 100 then 1 else 0, fun p => p + 100, []⟩).map
            (fun p => p + 100) ++ [(fun p => p + 100) e] ∧
          Mem.view h2 0 [] = some ⟨[1, 2, 3, 0], 3, 4, 4, ⟨1, -2⟩, 77,
            fun x y => if x % 100 = y % 100 then 1 else 0, fun p => p + 100, []⟩) :=
  ⟨⟨rfl, ⟨by decide, by decide, by decide, by decide, by decide⟩⟩,
    C13_copy
      ⟨[⟨0, 3, 4, 4, ⟨1, -2⟩, 77, fun x y => if x % 100 = y % 100 then 1 else 0,
          fun p => p + 100⟩], [some [1, 2, 3, 0]]⟩ 0
      ⟨5, 6, 7, 9, ⟨3, 0⟩, 8, fun _ _ => 0, fun _ => 0⟩ []
      ⟨[1, 2, 3, 0], 3, 4, 4, ⟨1, -2⟩, 77,
        fun x y => if x % 100 = y % 100 then 1 else 0, fun p => p + 100, []⟩
      rfl ⟨by decide, by decide, by decide, by decide, by decide⟩⟩

/-- The memory of the witness of C13, evaluated: the copy lies at address 1 with
its store at address 1; two appends to the copy, the second of which finds the
store full and moves it to a new array of 8 slots, change neither the struct nor
the store of the source at address 0. -/
theorem copy_evaluated :
    Mem.dynamic_array_copy
        ⟨[⟨0, 3, 4, 4, ⟨1, -2⟩, 77, fun x y => if x % 100 = y % 100 then 1 else 0,
            fun p => p + 100⟩], [some [1, 2, 3, 0]]⟩ 0
        ⟨5, 6, 7, 9, ⟨3, 0⟩, 8, fun _ _ => 0, fun _ => 0⟩
      = some (⟨[⟨0, 3, 4, 4, ⟨1, -2⟩, 77, fun x y => if x % 100 = y % 100 then 1 else 0,
            fun p => p + 100⟩,
          ⟨1, 3, 4, 9, ⟨3, 0⟩, 77, fun x y => if x % 100 = y % 100 then 1 else 0,
            fun p => p + 100⟩],
          [some [1, 2, 3, 0], some [101, 102, 103, 0]]⟩, 1) ∧
    (Mem.dynamic_array_append
        ⟨[⟨0, 3, 4, 4, ⟨1, -2⟩, 77, fun x y => if x % 100 = y % 100 then 1 else 0,
            fun p => p + 100⟩,
          ⟨1, 3, 4, 9, ⟨3, 0⟩, 77, fun x y => if x % 100 = y % 100 then 1 else 0,
            fun p => p + 100⟩],
          [some [1, 2, 3, 0], some [101, 102, 103, 0]]⟩ 1 9).bind
        (fun h2 => Mem.dynamic_array_append h2 1 10)
      = some ⟨[⟨0, 3, 4, 4, ⟨1, -2⟩, 77, fun x y => if x % 100 = y % 100 then 1 else 0,
            fun p => p + 100⟩,
          ⟨2, 5, 8, 9, ⟨3, 0⟩, 77, fun x y => if x % 100 = y % 100 then 1 else 0,
            fun p => p + 100⟩],
          [some [1, 2, 3, 0], none, some [101, 102, 103, 109, 110, 0, 0, 0]]⟩ :=
  ⟨rfl, rfl⟩

end DynArr
